import Mathlib

/-!
Verification development for the minesweeper probabilistic-reasoning core
(`prob/frontier.py`, `prob/exact.py`, `prob/risk.py`, `agent.py`, `support.py`).

The Python code is shallowly embedded: grids become lists of lists of `Cell`,
Python dicts become association lists that preserve first-insertion order
(matching CPython dict semantics), Python sets that are only iterated for
their elements are modelled as lists in a fixed deterministic order
(CPython set iteration order is unspecified; no theorem below depends on the
choice except where explicitly discussed), and float arithmetic is modelled
as exact rational arithmetic over `ℚ`.
-/

/-- Grid positions `(row, column)` with 0-based indices (Python tuples;
a structure rather than a product so that Mathlib's algebraic simp normal
forms for products never interfere with evaluation). -/
structure Pos where
  r : Nat
  c : Nat
deriving DecidableEq

/-- A knowledge-grid cell: a revealed number (`int` in Python), an unknown
cell (`"?"`), or a flagged mine (`"X"`). -/
inductive Cell where
  | num (k : Nat)
  | unknown
  | mine
deriving DecidableEq

/-- The knowledge grid, a list of rows. -/
abbrev Grid := List (List Cell)

/-- Number of rows, Python `len(knowledge)`. -/
def n_row (g : Grid) : Nat := g.length

/-- Number of columns, Python `len(knowledge[0])` (0 for an empty grid,
where Python would raise). -/
def n_col (g : Grid) : Nat := (g.headD []).length

/-- Cell lookup `knowledge[i][j]`; out-of-range access (impossible for the
in-bounds positions produced by `neighbors8` on a rectangular grid) returns
`Cell.mine` as an arbitrary default. -/
def kAt (g : Grid) (p : Pos) : Cell := ((g.getD p.r []).getD p.c Cell.mine)

/-- The eight neighbor offsets, in the order generated by the Python loops
`for di in (-1,0,1): for dj in (-1,0,1)` with `(0,0)` skipped. -/
def offsets : List (Int × Int) :=
  [(-1, -1), (-1, 0), (-1, 1), (0, -1), ⟨0, 1⟩, (1, -1), ⟨1, 0⟩, ⟨1, 1⟩]

/-- In-bounds 8-neighborhood of a position (`neighbors8` in `risk.py`,
`neighbors` in `frontier.py`: both filter offsets by the grid bounds). -/
def neighbors8 (nr nc : Nat) (p : Pos) : List Pos :=
  offsets.filterMap fun d =>
    let r : Int := (p.r : Int) + d.1
    let c : Int := (p.c : Int) + d.2
    if 0 ≤ r ∧ r < (nr : Int) ∧ 0 ≤ c ∧ c < (nc : Int) then
      some ⟨r.toNat, c.toNat⟩
    else
      none

/-- All grid positions in row-major order, the order of the Python nested
loops `for i in range(n_row): for j in range(n_col)`. -/
def allPositions (nr nc : Nat) : List Pos :=
  ((List.range nr).map fun i => (List.range nc).map fun j => (⟨i, j⟩ : Pos)).flatten

/-- Association-list lookup; models Python `d.get(k)` on a dict whose
items are kept in first-insertion order. -/
def aget {α : Type} : List (Pos × α) → Pos → Option α
  | [], _ => none
  | (k, v) :: t, p => if k = p then some v else aget t p

/-- Python `d.get(k, default)`. -/
def agetD {α : Type} (m : List (Pos × α)) (p : Pos) (d : α) : α :=
  (aget m p).getD d

/-- Association-list update `d[k] = v`: an existing key keeps its position
(CPython dict update semantics), a new key is appended at the end. -/
def aset {α : Type} : List (Pos × α) → Pos → α → List (Pos × α)
  | [], k, v => [(k, v)]
  | (k', v') :: t, k, v =>
      if k' = k then (k', v) :: t else (k', v') :: aset t k v

/-- Association-list key removal, Python `d.pop(k, None)` / `del d[k]`. -/
def aerase {α : Type} : List (Pos × α) → Pos → List (Pos × α)
  | [], _ => []
  | (k', v') :: t, k => if k' = k then t else (k', v') :: aerase t k

/-- Keys of an association list, in order. -/
def akeys {α : Type} (m : List (Pos × α)) : List Pos := m.map (·.1)

/-- Row-major (lexicographic) order on positions, the order Python uses
when sorting tuples. -/
def posLe (a b : Pos) : Prop :=
  a.r < b.r ∨ (a.r = b.r ∧ a.c ≤ b.c)

instance : DecidableRel posLe := fun a b => by
  unfold posLe; infer_instance

/-- `sorted(s)` for a Python set of positions: deduplicate and sort
row-major. -/
def sortedPos (l : List Pos) : List Pos :=
  l.dedup.insertionSort posLe

/-- A frontier constraint from `frontier.py`: "exactly `count` mines among
`vars`".  `count` is kept as an integer so that the clamping performed by
the builder remains observable. -/
structure Cst where
  vars : List Pos
  count : Int
deriving DecidableEq

/-- `build_constraints` from `frontier.py`: for every revealed numeric cell,
collect its unknown neighbors `unk` and its adjacent known mines, and emit
the constraint `(unk, clamp(k - known_mines, 0, |unk|))` when `unk` is
non-empty.  Note the Python `if/elif` order: a `"?"` cell that is also in
`mine_cells` counts as an unknown, not as a known mine.  Returns the
constraint list (in row-major scan order) and the set of involved unknowns
(as a deduplicated list). -/
def build_constraints (g : Grid) (mines : List Pos) : List Cst × List Pos :=
  let nr := n_row g
  let nc := n_col g
  let step := fun (acc : List Cst × List Pos) (p : Pos) =>
    match kAt g p with
    | Cell.num k =>
        let neigh := neighbors8 nr nc p
        let unk := neigh.filter fun q => kAt g q = Cell.unknown
        let knownMines :=
          (neigh.filter fun q =>
            kAt g q ≠ Cell.unknown ∧ (kAt g q = Cell.mine ∨ q ∈ mines)).length
        if unk = [] then acc
        else
          let count : Int := max 0 (min ((k : Int) - knownMines) unk.length)
          (acc.1 ++ [⟨unk, count⟩], (acc.2 ++ unk.filter (· ∉ acc.2)).dedup)
    | _ => acc
  (allPositions nr nc).foldl step ([], [])

/-- Variables adjacent to `v` in the variable-variable graph of
`connected_components_from_constraints`: all co-occurring variables of the
constraints containing `v` (possibly with duplicates; the BFS below
deduplicates through its visited set exactly like the Python code's
per-variable adjacency sets). -/
def adjVars (cs : List Cst) (v : Pos) : List Pos :=
  ((cs.filter fun c => v ∈ c.vars).map (·.vars)).flatten.filter (· ≠ v)

/-- All variables mentioned by the constraints (Python `all_vars`), in
first-occurrence order as a deterministic stand-in for the unspecified
CPython set iteration order. -/
def allVars (cs : List Cst) : List Pos := ((cs.map (·.vars)).flatten).dedup

/-- One BFS expansion step: push every not-yet-visited neighbor of `u`. -/
def bfsPush (cs : List Cst) (u : Pos) :
    List Pos × List Pos × List Pos → List Pos × List Pos × List Pos :=
  fun st =>
    (adjVars cs u).foldl
      (fun (st : List Pos × List Pos × List Pos) w =>
        let (q, comp, vis) := st
        if w ∈ vis then (q, comp, vis) else (q ++ [w], comp ++ [w], vis ++ [w]))
      st

/-- Fuel-bounded BFS over the variable graph (the `while q` loop of
`connected_components_from_constraints`).  The fuel used at every call site
provably exceeds the number of possible queue insertions, so the fuel-0
branch is never taken there. -/
def bfsRun (cs : List Cst) : Nat → List Pos → List Pos → List Pos → List Pos × List Pos
  | 0, _, comp, vis => (comp, vis)
  | _ + 1, [], comp, vis => (comp, vis)
  | fuel + 1, u :: q, comp, vis =>
      let (q', comp', vis') := bfsPush cs u (q, comp, vis)
      bfsRun cs fuel q' comp' vis'

/-- The constraints of a component: every constraint mentioning at least one
component variable, kept in original (index) order, matching the Python
`sorted(comp_cons_idx)` retrieval. -/
def compCons (cs : List Cst) (compV : List Pos) : List Cst :=
  cs.filter fun c => c.vars.any (· ∈ compV)

/-- `connected_components_from_constraints`: BFS the variable graph from
each unvisited variable (seed order: first occurrence, a deterministic
stand-in for CPython set order) and pair each component's variables with
the constraints that mention them. -/
def connected_components (cs : List Cst) : List (List Pos × List Cst) :=
  let seeds := allVars cs
  let fuel := ((cs.map (·.vars)).flatten).length + 1
  let step := fun (acc : List (List Pos × List Cst) × List Pos) (v : Pos) =>
    if v ∈ acc.2 then acc
    else
      let (comp, vis') := bfsRun cs fuel [v] [v] (acc.2 ++ [v])
      (acc.1 ++ [(comp, compCons cs comp)], vis')
  (seeds.foldl step ([], [])).1

/-- `frontier_components` from `frontier.py`: build constraints and return
the connected components, dropping empty ones. -/
def frontier_components (g : Grid) (mines : List Pos) : List (List Pos × List Cst) :=
  let cs := (build_constraints g mines).1
  if cs = [] then []
  else (connected_components cs).filter fun c => ¬(c.1 = [])

example : n_row [[Cell.num 1, Cell.unknown]] = 1 := by decide

example :
    (build_constraints [[Cell.num 1, Cell.unknown]] []).1 =
      [⟨[⟨0, 1⟩], 1⟩] := by decide

example :
    frontier_components [[Cell.unknown, Cell.num 1, Cell.unknown]] [] =
      [([⟨0, 0⟩, ⟨0, 2⟩], [⟨[⟨0, 0⟩, ⟨0, 2⟩], 1⟩])] := by decide

/-! ## `prob/exact.py`: the exact enumerator

`ExactEnumeration(variables, constraints, max_solutions)` sorts its
variables, keeps a solution counter and per-variable mine counters, and
either enumerates exhaustively (`_search_simple`, for at most 20 variables)
or runs a backtracking search with constraint propagation (`_search`).
Assignments (Python dicts mapping cells to 0/1) become association lists
with `Nat` values; constraint states (`[t, u, req]` lists) become
`(Nat × Nat × Int)` triples. -/

/-- A partial 0/1 assignment, Python's `assign` dict. -/
abbrev Assign := List (Pos × Nat)

/-- The mutable enumeration state: `solution_count` and `true_counts`. -/
structure EnumSt where
  sols : Nat
  counts : List (Pos × Nat)
deriving DecidableEq

/-- Increment `true_counts[v]` (`true_counts` always contains `v` when the
Python code bumps it; a missing key is a no-op here where Python would
raise). -/
def abump (m : List (Pos × Nat)) (p : Pos) : List (Pos × Nat) :=
  m.map fun kv => if kv.1 = p then (kv.1, kv.2 + 1) else kv

/-- The per-solution counter update: for every assigned variable whose value
is 1, bump its true-count (`for v, val in assign.items(): if val == 1 ...`). -/
def bumpTrue (m : List (Pos × Nat)) (a : Assign) : List (Pos × Nat) :=
  a.foldl (fun m kv => if kv.2 = 1 then abump m kv.1 else m) m

/-- `_check_constraints`: a complete assignment satisfies every constraint
exactly (`assign.get(v, 0)` defaults unassigned variables to safe). -/
def check_constraints (cs : List Cst) (a : Assign) : Bool :=
  cs.all fun c =>
    ((c.vars.filter fun v => agetD a v 0 = 1).length : Int) = c.count

/-- `_search_simple`: plain exhaustive enumeration over the variable order,
trying 0 then 1 for each variable; the cutoff `solution_count >=
max_solutions` is tested after the leaf case, before descending. -/
def search_simple (cs : List Cst) (maxSol : Nat) :
    List Pos → Assign → EnumSt → EnumSt
  | [], a, st =>
      if check_constraints cs a then ⟨st.sols + 1, bumpTrue st.counts a⟩ else st
  | v :: rest, a, st =>
      if st.sols ≥ maxSol then st
      else
        let st1 := search_simple cs maxSol rest (aset a v 0) st
        search_simple cs maxSol rest (aset a v 1) st1

/-- A constraint state `[t, u, req]`: mines already assigned, variables
still unknown, required mines. -/
abbrev CState := List (Nat × Nat × Int)

/-- `_init_cons_state`: per constraint, count assigned mines and unassigned
variables under `assign`. -/
def init_cons_state (a : Assign) (cs : List Cst) : CState :=
  cs.map fun c =>
    ((c.vars.filter fun v => aget a v = some 1).length,
     (c.vars.filter fun v => aget a v = none).length,
     c.count)

/-- `_feasible`: every constraint state must allow `t ≤ req ≤ t + u`. -/
def feasible (st : CState) : Bool :=
  st.all fun s => (s.1 : Int) ≤ s.2.2 ∧ s.2.2 ≤ (s.1 : Int) + s.2.1

/-- Net effect of the Python bookkeeping when a variable `v` is assigned
`val`: every constraint containing `v` gets `u -= 1` (and `t += 1` when
`val = 1`).  The Python code updates the current constraint inline and the
others through `var_to_cons`; the net effect is identical because
`var_to_cons[v]` lists exactly the constraints whose variable set contains
`v`. -/
def updAll (cs : List Cst) (v : Pos) (val : Nat) (st : CState) : CState :=
  (cs.zip st).map fun p =>
    if v ∈ p.1.vars then
      ((if val = 1 then p.2.1 + 1 else p.2.1), p.2.2.1 - 1, p.2.2.2)
    else p.2

/-- Force every still-unassigned variable of `vlist` to `val`, updating the
states of all constraints containing it (the inner loops of the two forcing
branches of `_propagate`). -/
def forceAll (cs : List Cst) (val : Nat) (vlist : List Pos)
    (a : Assign) (st : CState) : Assign × CState :=
  vlist.foldl
    (fun (acc : Assign × CState) v =>
      if (aget acc.1 v).isSome then acc
      else (aset acc.1 v val, updAll cs v val acc.2))
    (a, st)

/-- One pass of `_propagate` over the constraints in index order; returns
the updated assignment together with `none` on contradiction, mirroring the
Python early `return False` (whose partial assignment mutations persist in
the caller's dict, hence the assignment is returned in both cases). -/
def prop_pass (cs : List Cst) :
    List Nat → Assign → CState → Bool → Assign × Option (CState × Bool)
  | [], a, st, changed => (a, some (st, changed))
  | i :: rest, a, st, changed =>
      let c := cs.getD i ⟨[], 0⟩
      let s := st.getD i (0, 0, 0)
      let t := s.1
      let u := s.2.1
      let req := s.2.2
      if u = 0 then
        if (t : Int) ≠ req then (a, none)
        else prop_pass cs rest a st changed
      else if req < (t : Int) ∨ req > (t : Int) + u then (a, none)
      else if req = (t : Int) then
        let p := forceAll cs 0 c.vars a st
        prop_pass cs rest p.1 p.2 true
      else if req = (t : Int) + u then
        let p := forceAll cs 1 c.vars a st
        prop_pass cs rest p.1 p.2 true
      else prop_pass cs rest a st changed

/-- `_propagate`: repeat passes until a pass reports no change (fixed
point) or a contradiction.  The `while changed` loop terminates in Python
because every changed pass assigns at least one new variable; the fuel
passed at every call site below exceeds the number of variables, so the
fuel-0 branch (returned as a contradiction) is unreachable there. -/
def propagate (cs : List Cst) : Nat → Assign → CState → Assign × Option CState
  | 0, a, _ => (a, none)
  | fuel + 1, a, st =>
      match prop_pass cs (List.range cs.length) a st false with
      | (a', none) => (a', none)
      | (a', some (st', changed)) =>
          if changed then propagate cs fuel a' st' else (a', some st')

/-- `_select_var`: among unassigned variables (in variable order,
`var_to_cons` being a dict keyed by the sorted variable list) pick the
first one of maximal degree, where the degree of `v` is the number of
constraints containing `v`. -/
def select_var (vars : List Pos) (cs : List Cst) (a : Assign) : Option Pos :=
  (vars.foldl
    (fun (best : Option (Pos × Nat)) v =>
      if (aget a v).isSome then best
      else
        let deg := (cs.filter fun c => v ∈ c.vars).length
        match best with
        | none => some (v, deg)
        | some b => if deg > b.2 then some (v, deg) else best)
    none).map (·.1)

/-- `_search`: backtracking with propagation.  The returned assignment
models the Python `assign` dict, which the recursion mutates in place:
variables forced by `_propagate` in a subtree are never popped, so they
leak into sibling branches exactly as here (only the branching variable
itself is popped).  The first fuel argument bounds the recursion depth;
each recursive call strictly grows the assignment, so any fuel exceeding
the total number of distinct variables is enough and the fuel-0 branch is
unreachable at the call sites below. -/
def searchProp (cs : List Cst) (maxSol : Nat) (vars : List Pos) :
    Nat → Assign → CState → EnumSt → EnumSt × Assign
  | 0, a, _, st => (st, a)
  | fuel + 1, a, cst, st =>
      if st.sols ≥ maxSol then (st, a)
      else if a.length = vars.length then
        (if cst.all (fun s => s.2.1 = 0 ∧ (s.1 : Int) = s.2.2) then
          ⟨st.sols + 1, bumpTrue st.counts a⟩
        else st, a)
      else
        match propagate cs (vars.length + 1) a cst with
        | (a', none) => (st, a')
        | (a', some cst') =>
            match select_var vars cs a' with
            | none => (st, a')
            | some v =>
                let cst0 := updAll cs v 0 cst'
                let r0 :=
                  if feasible cst0 then
                    searchProp cs maxSol vars fuel (aset a' v 0) cst0 st
                  else (st, aset a' v 0)
                let a0 := aerase r0.2 v
                let cst1 := updAll cs v 1 cst'
                let r1 :=
                  if feasible cst1 then
                    searchProp cs maxSol vars fuel (aset a0 v 1) cst1 r0.1
                  else (r0.1, aset a0 v 1)
                (r1.1, aerase r1.2 v)

/-- The ℚ-free core of `ExactEnumeration.run`: sort the variables, pick the
strategy by the 20-variable threshold, and return `none` when the initial
feasibility check fails (large path) or when no solution was counted;
otherwise return the solution count and the per-variable mine counts. -/
def enum_run (vars0 : List Pos) (cs0 : List Cst) (maxSol : Nat) :
    Option (Nat × List (Pos × Nat)) :=
  let vars := sortedPos vars0
  let cs := cs0.map fun c => ⟨c.vars.dedup, c.count⟩
  let counts0 := vars.map fun v => (v, 0)
  if vars.length ≤ 20 then
    let st := search_simple cs maxSol vars [] ⟨0, counts0⟩
    if st.sols = 0 then none else some (st.sols, st.counts)
  else
    let cst := init_cons_state [] cs
    if ¬ feasible cst then none
    else
      let st := (searchProp cs maxSol vars
        (vars.length + ((cs.map (·.vars)).flatten).length + 2) [] cst ⟨0, counts0⟩).1
      if st.sols = 0 then none else some (st.sols, st.counts)

/-- `ExactEnumeration.run`'s marginals: `true_counts[v] / solution_count`
for every enumeration variable. -/
def enum_marginals (vars0 : List Pos) (res : Nat × List (Pos × Nat)) :
    List (Pos × ℚ) :=
  (sortedPos vars0).map fun v => (v, ((agetD res.2 v 0 : Nat) : ℚ) / (res.1 : ℚ))

/-! Specification-side counting for the refinement claims: the number of
satisfying assignments of a component and the number in which a given
variable is a mine, by literal enumeration of all 0/1 vectors. -/

/-- All 0/1 vectors of length `n`, first coordinate varying slowest with 0
before 1 (the depth-first order of `_search_simple`). -/
def vecs : Nat → List (List Nat)
  | 0 => [[]]
  | n + 1 => (vecs n).map (0 :: ·) ++ (vecs n).map (1 :: ·)

/-- Modelled from the spec: the number `N` of assignments of the ordered
variable list satisfying every constraint exactly. -/
def sat_count (cs : List Cst) (order : List Pos) : Nat :=
  ((vecs order.length).filter fun vec => check_constraints cs (order.zip vec)).length

/-- Modelled from the spec: the number `N_v` of satisfying assignments in
which variable `v` is a mine. -/
def sat_count_v (cs : List Cst) (order : List Pos) (v : Pos) : Nat :=
  ((vecs order.length).filter fun vec =>
    check_constraints cs (order.zip vec) ∧ agetD (order.zip vec) v 0 = 1).length

example :
    enum_run [⟨0, 0⟩, ⟨0, 2⟩] [⟨[⟨0, 0⟩, ⟨0, 2⟩], 1⟩] 200000 =
      some (2, [(⟨0, 0⟩, 1), (⟨0, 2⟩, 1)]) := by decide

example : sat_count [⟨[⟨0, 0⟩, ⟨0, 2⟩], 1⟩] [⟨0, 0⟩, ⟨0, 2⟩] = 2 := by decide

example :
    (searchProp [⟨[⟨0, 0⟩, ⟨0, 1⟩], 2⟩] 200000 [⟨0, 0⟩, ⟨0, 1⟩] 10 []
      (init_cons_state [] [⟨[⟨0, 0⟩, ⟨0, 1⟩], 2⟩])
      ⟨0, [(⟨0, 0⟩, 0), (⟨0, 1⟩, 0)]⟩).1.sols = 0 := by decide

example :
    (search_simple [⟨[⟨0, 0⟩, ⟨0, 1⟩], 2⟩] 200000 [⟨0, 0⟩, ⟨0, 1⟩] []
      ⟨0, [(⟨0, 0⟩, 0), (⟨0, 1⟩, 0)]⟩).sols = 1 := by decide

/-! ## `prob/risk.py`: probability map and min-risk selection -/

/-- `EPS = 1e-12`. -/
def EPS : ℚ := 1 / 1000000000000

/-- `ALPHA = 0.7`, the local-pressure weight. -/
def ALPHA : ℚ := 7 / 10

/-- The current unknown candidate cells: `"?"` cells not already known to be
mines, in row-major order (the Python list comprehension). -/
def unknown_cells (g : Grid) (mines : List Pos) : List Pos :=
  (allPositions (n_row g) (n_col g)).filter fun p =>
    kAt g p = Cell.unknown ∧ p ∉ mines

/-- The local pressure estimate of `compute_cell_probs`: over the revealed
numeric neighbors of `v`, average the clamped ratios
`max(0, value - known_mines) / max(1, #unknown_neighbors)`, where known
mines and unknowns are judged by membership in `mine_cells` (not by `"X"`
marks).  `none` when `v` has no numeric neighbor.  Python's
`max(0, cell - known_mines)` is the truncated subtraction on `Nat`. -/
def local_pressure_prob (g : Grid) (mines : List Pos) (v : Pos) : Option ℚ :=
  let nr := n_row g
  let nc := n_col g
  let ratios := (neighbors8 nr nc v).filterMap fun q =>
    match kAt g q with
    | Cell.num k =>
        let neigh := neighbors8 nr nc q
        let knownM := (neigh.filter (· ∈ mines)).length
        let unknowns := neigh.filter fun w =>
          kAt g w = Cell.unknown ∧ w ∉ mines
        let ratio : ℚ := ((k - knownM : Nat) : ℚ) / ((max 1 unknowns.length : Nat) : ℚ)
        some (if ratio < 0 then 0 else if ratio > 1 then 1 else ratio)
    | _ => none
  if ratios = [] then none else some (ratios.sum / (ratios.length : ℚ))

/-- `mines_remaining = max(0.0, total_mines - len(mine_cells))` when the
total is known. -/
def mines_remaining_q (mines : List Pos) : Option Nat → Option ℚ
  | none => none
  | some M => some (max 0 ((M : ℚ) - (mines.length : ℚ)))

/-- The fallback prior: remaining mines spread uniformly over the unknown
cells, or `0.5` when the total is unknown. -/
def p0_fallback_q (mines : List Pos) (tm : Option Nat) (nUnknown : Nat) : ℚ :=
  match mines_remaining_q mines tm with
  | some r => r / max 1 (nUnknown : ℚ)
  | none => 1 / 2

/-- Step 1 of `compute_cell_probs`: per frontier component, exact marginals
when the component is small enough and enumeration reports solutions,
otherwise the fallback prior.  Accumulates the probability map, the raw
frontier-variable list (deduplicated at use sites; Python keeps a set) and
the exact-variable list. -/
def step1_exact (comps : List (List Pos × List Cst)) (p0 : ℚ)
    (mve msol : Nat) : List (Pos × ℚ) × List Pos × List Pos :=
  comps.foldl
    (fun acc comp =>
      let vs := comp.1
      if vs = [] then acc
      else
        let fv := acc.2.1 ++ vs
        if vs.length ≤ mve then
          match enum_run vs comp.2 msol with
          | some res =>
              if res.1 > 0 then
                let marg := enum_marginals vs res
                (marg.foldl (fun m kv => aset m kv.1 kv.2) acc.1, fv,
                  acc.2.2 ++ marg.map (·.1))
              else (vs.foldl (fun m v => aset m v p0) acc.1, fv, acc.2.2)
          | none => (vs.foldl (fun m v => aset m v p0) acc.1, fv, acc.2.2)
        else (vs.foldl (fun m v => aset m v p0) acc.1, fv, acc.2.2))
    ([], [], [])

/-- Step 3 of `compute_cell_probs` (outside prior): unknown cells outside
the frontier get a budget-respecting uniform prior, clamped to `[0,1]`; the
fallback prior when the total is unknown. -/
def step_outside (rem : Option ℚ) (unknown fvars : List Pos) (p0 : ℚ)
    (probs : List (Pos × ℚ)) : List (Pos × ℚ) :=
  let fset := fvars.dedup
  let outside := unknown.filter (· ∉ fset)
  if outside = [] then probs
  else
    let p0_out :=
      match rem with
      | none => p0
      | some r =>
          let eFrontier := (fset.map fun v => agetD probs v p0).sum
          let leftOutside := max 0 (r - eFrontier)
          let raw := leftOutside / max 1 ((outside.length : Nat) : ℚ)
          min (max raw 0) 1
    outside.foldl (fun m v => aset m v p0_out) probs

/-- Step 4 of `compute_cell_probs`: blend non-exact cells with the local
pressure, `P(v) ← (1-α)·P(v) + α·lp(v)` when `lp(v)` is defined. -/
def step_blend (g : Grid) (mines : List Pos) (unknown exacts : List Pos)
    (p0 : ℚ) (probs : List (Pos × ℚ)) : List (Pos × ℚ) :=
  unknown.foldl
    (fun m v =>
      if v ∈ exacts then m
      else
        let pv := agetD m v p0
        match local_pressure_prob g mines v with
        | some lp => aset m v ((1 - ALPHA) * pv + ALPHA * lp)
        | none => aset m v pv)
    probs

/-- Step 5 of `compute_cell_probs` (soft calibration): when the budget is
known, rescale the non-exact cells towards the remaining budget if the
discrepancy exceeds the 10% tolerance, clamping each rescaled value to
`[0,1]`. -/
def step_calibrate (cal : Bool) (rem : Option ℚ) (unknown exacts : List Pos)
    (p0 : ℚ) (probs : List (Pos × ℚ)) : List (Pos × ℚ) :=
  match rem with
  | none => probs
  | some r =>
      if cal ∧ unknown ≠ [] then
        let flex := unknown.filter (· ∉ exacts)
        if flex = [] then probs
        else
          let sExact := (exacts.dedup.map fun u => agetD probs u 0).sum
          let sFlex := (flex.map fun u => agetD probs u p0).sum
          let targetFlex := max 0 (r - sExact)
          let tol := (1 / 10 : ℚ) * max 1 targetFlex
          if sFlex > 0 ∧ |sFlex - targetFlex| > tol then
            let scale := targetFlex / sFlex
            flex.foldl
              (fun m u =>
                let p := agetD m u p0 * scale
                aset m u (if p < 0 then 0 else if p > 1 then 1 else p))
              probs
          else probs
      else probs

/-- `compute_cell_probs(knowledge, mine_cells, total_mines, max_vars_exact,
max_solutions, calibrate)`: the full probability pipeline. -/
def compute_cell_probs (g : Grid) (mines : List Pos) (tm : Option Nat)
    (mve msol : Nat) (cal : Bool) : List (Pos × ℚ) :=
  let unknown := unknown_cells g mines
  if unknown = [] then []
  else
    let rem := mines_remaining_q mines tm
    let p0 := p0_fallback_q mines tm unknown.length
    let comps := frontier_components g mines
    let s1 := step1_exact comps p0 mve msol
    let probs2 := step_outside rem unknown s1.2.1 p0 s1.1
    let probs3 := step_blend g mines unknown s1.2.2 p0 probs2
    step_calibrate cal rem unknown s1.2.2 p0 probs3

/-- `_info_score`: the number of unknown 8-neighbors of a cell. -/
def info_score (g : Grid) (v : Pos) : Nat :=
  ((neighbors8 (n_row g) (n_col g) v).filter fun q =>
    kAt g q = Cell.unknown).length

/-- Minimum of a list of rationals (used only on non-empty lists, like the
Python `min`). -/
def listMin : List ℚ → ℚ
  | [] => 0
  | x :: t => t.foldl min x

/-- Python `max(bucket, key=score)`: the first element achieving the
maximal score (later elements replace the current best only on strictly
greater score). -/
def argmax_first (score : Pos → Nat) (l : List Pos) : Option Pos :=
  (l.foldl
    (fun (best : Option (Pos × Nat)) v =>
      match best with
      | none => some (v, score v)
      | some b => if score v > b.2 then some (v, score v) else best)
    none).map (·.1)

/-- The candidate list of `pick_min_risk`: probability-map entries whose
cell is unknown and not forbidden, in probability-map order. -/
def risk_candidates (g : Grid) (moves mines : List Pos) (probs : List (Pos × ℚ)) :
    List (Pos × ℚ) :=
  probs.filter fun kv =>
    ¬(kv.1 ∈ moves ∨ kv.1 ∈ mines) ∧ kAt g kv.1 = Cell.unknown

/-- The tie bucket: candidates within `EPS` of the minimal probability. -/
def risk_bucket (cands : List (Pos × ℚ)) : List Pos :=
  let pmin := listMin (cands.map (·.2))
  (cands.filter fun kv => |kv.2 - pmin| ≤ EPS).map (·.1)

/-- `pick_min_risk(knowledge, moves_made, mine_cells, **kwargs)`: choose the
minimum-risk unknown cell with the informativeness tie-break, falling back
to the first free `"?"` cell in scan order when there is no candidate. -/
def pick_min_risk (g : Grid) (moves mines : List Pos) (mve msol : Nat)
    (tm : Option Nat) : Option Pos :=
  let probs := compute_cell_probs g mines tm mve msol true
  let cands := risk_candidates g moves mines probs
  if cands = [] then
    (allPositions (n_row g) (n_col g)).find? fun p =>
      kAt g p = Cell.unknown ∧ ¬(p ∈ moves ∨ p ∈ mines)
  else
    argmax_first (info_score g) (risk_bucket cands)

/-! ## `agent.py` and `support.py`: the CSP agent

Only the `"backtracking_pb"` strategy —the full pipeline of the
specification (constraint build, GAC3, deductive backtracking, probability
fallback)— is embedded; the strategy string itself is therefore not part of
the state.  `Domains` maps every cell to a subset of `{0, 1}` (Python ints,
kept as `Nat`), and agent constraints keep their center cell. -/

/-- An agent constraint `{"cell": (x,y), "neighbors": set, "count": int}`. -/
structure ACst where
  cell : Pos
  neighbors : List Pos
  count : Int
deriving DecidableEq

/-- The observable agent state. -/
structure AgentSt where
  n_row : Nat
  n_col : Nat
  knowledge : Grid
  moves_made : List Pos
  safe_cells : List Pos
  mine_cells : List Pos
  total_mines : Option Nat
  to_flag : Option Int
  constraints : List ACst
  Domains : List (Pos × List Nat)
  pruned : Nat
deriving DecidableEq

/-- `knowledge[x][y] = v` (in-bounds update; out-of-bounds writes are
silently dropped where Python would raise). -/
def gridSet (g : Grid) (p : Pos) (v : Cell) : Grid :=
  g.set p.r ((g.getD p.r []).set p.c v)

/-- Add `p` to a Python set modelled as a duplicate-free list. -/
def sadd (l : List Pos) (p : Pos) : List Pos :=
  if p ∈ l then l else l ++ [p]

/-- `Agent.add_constraint`: collect unknown neighbors and adjacent known
mines of a numeric cell and append the constraint when it is non-trivial
and its count is within range. -/
def add_constraint (s : AgentSt) (p : Pos) (value : Nat) : AgentSt :=
  let neigh := neighbors8 s.n_row s.n_col p
  let adjacent_unknown := neigh.filter fun q =>
    ¬(q ∈ s.mine_cells ∨ kAt s.knowledge q = Cell.mine) ∧
      kAt s.knowledge q = Cell.unknown
  let adjacent_mines := (neigh.filter fun q =>
    q ∈ s.mine_cells ∨ kAt s.knowledge q = Cell.mine).length
  let remaining : Int := (value : Int) - adjacent_mines
  if ¬(adjacent_unknown = []) ∧ 0 ≤ remaining ∧
      remaining ≤ (adjacent_unknown.length : Int) then
    { s with constraints := s.constraints ++ [⟨p, adjacent_unknown, remaining⟩] }
  else s

/-- The constraint-rebuild loop at the top of `infer_safe_and_mines`:
clear the constraints, then `add_constraint` for every revealed positive
number, in row-major order. -/
def rebuild_constraints (s : AgentSt) : AgentSt :=
  (allPositions s.n_row s.n_col).foldl
    (fun s p =>
      match kAt s.knowledge p with
      | Cell.num k => if 0 < k then add_constraint s p k else s
      | _ => s)
    { s with constraints := [] }

/-- `get_variables`: the unknown cells mentioned by the active constraints
(a Python set; first-occurrence order as deterministic stand-in). -/
def get_variables (s : AgentSt) : List Pos :=
  (((s.constraints.map (·.neighbors)).flatten).filter fun q =>
    kAt s.knowledge q = Cell.unknown).dedup

/-- `min(domain)` for a Python set of 0/1 ints (0 default on the empty set,
where Python raises; `gac3` never queries an empty domain). -/
def domMin (l : List Nat) : Nat := l.foldr min 1

/-- `max(domain)` (with 0 default as for `domMin`). -/
def domMax (l : List Nat) : Nat := l.foldr max 0

/-- All tuples choosing one value from each domain, Python
`itertools.product(*dom_lists)`. -/
def tuplesProduct : List (List Nat) → List (List Nat)
  | [] => [[]]
  | d :: rest => (d.map fun x => (tuplesProduct rest).map (x :: ·)).flatten

/-- The `revise(Xi, C)` helper of `gac3`: a value `x` of `Xi`'s domain is
removed when the bound check fails (`C.count - x` outside
`[lo, hi]` over the other variables' domain minima/maxima) or when no
tuple over the other domains sums to `C.count - x`.  Returns the revised
domain of `Xi` and whether anything was removed. -/
def revise (doms : List (Pos × List Nat)) (c : ACst) (Xi : Pos) :
    List Nat × Bool :=
  let others := c.neighbors.filter (· ≠ Xi)
  let lo := (others.map fun v => domMin (agetD doms v [])).sum
  let hi := (others.map fun v => domMax (agetD doms v [])).sum
  let snapshot : List Nat := agetD doms Xi []
  let keep := snapshot.filter fun (x : Nat) =>
    let need : Int := c.count - (x : Int)
    if need < (lo : Int) ∨ need > (hi : Int) then false
    else
      let dom_lists := others.map fun v => agetD doms v []
      (tuplesProduct dom_lists).any fun t => ((t.sum : Int) = need)
  (keep, keep.length != snapshot.length)

/-- One iteration of the `gac3` work-queue loop. -/
def gac3_step (cs : List ACst) (doms : List (Pos × List Nat))
    (q : List (Pos × Nat)) :
    Option (List (Pos × List Nat) × List (Pos × Nat) × Bool) :=
  match q with
  | [] => none
  | (Xi, ci) :: rest =>
      let c := cs.getD ci ⟨⟨0, 0⟩, [], 0⟩
      let r := revise doms c Xi
      if r.2 then
        if r.1 = [] then some (aset doms Xi r.1, rest, false)
        else
          let doms' := aset doms Xi r.1
          let pushes :=
            ((List.range cs.length).filter fun ck =>
              ¬ck = ci ∧ Xi ∈ (cs.getD ck ⟨⟨0, 0⟩, [], 0⟩).neighbors).flatMap
              fun ck =>
                ((cs.getD ck ⟨⟨0, 0⟩, [], 0⟩).neighbors.filter (· ≠ Xi)).map
                  fun Xk => (Xk, ck)
          some (doms', rest ++ pushes, true)
      else some (doms, rest, true)

/-- The `gac3` queue loop, fuel-bounded.  Each requeueing round follows a
strict shrink of some domain, so the total number of iterations is bounded
by the initial queue length plus (number of removable values) times
(pairs pushed per removal); the fuel chosen at the call site exceeds that
bound, making the fuel-0 branch (treated as success, `while` exit)
unreachable. -/
def gac3_loop (cs : List ACst) : Nat → List (Pos × List Nat) →
    List (Pos × Nat) → Bool × List (Pos × List Nat)
  | 0, doms, _ => (true, doms)
  | fuel + 1, doms, q =>
      match gac3_step cs doms q with
      | none => (true, doms)
      | some (doms', q', true) => gac3_loop cs fuel doms' q'
      | some (doms', _, false) => (false, doms')

/-- `Agent.gac3`: run the queue algorithm on copies of the domains and
constraints; on success the pruned domains replace `self.Domains`, on
failure (an emptied domain) the agent state is unchanged apart from the
returned flag. -/
def gac3 (s : AgentSt) : Bool × AgentSt :=
  let q0 := s.constraints.enum.flatMap fun ci =>
    ci.2.neighbors.map fun v => (v, ci.1)
  let removableBound :=
    (s.Domains.map fun d => d.2.length).sum + 1
  let pushBound :=
    ((s.constraints.map fun c => c.neighbors.length).sum + 1)
  let fuel := q0.length + removableBound * pushBound + 1
  match gac3_loop s.constraints fuel s.Domains q0 with
  | (true, doms) => (true, { s with Domains := doms })
  | (false, _) => (false, s)

/-- `support.is_consistent_partial` (renamed here): every constraint must
still be satisfiable given the partial assignment, counting unassigned
cells only while they are still `"?"` in the knowledge. -/
def is_consistent_sofar (s : AgentSt) (a : List (Pos × Bool)) : Bool :=
  s.constraints.all fun c =>
    let minesAssigned := (c.neighbors.filter fun q => agetD a q false).length
    let unassigned := (c.neighbors.filter fun q =>
      (aget a q).isNone ∧ kAt s.knowledge q = Cell.unknown).length
    let remaining : Int := c.count - minesAssigned
    0 ≤ remaining ∧ remaining ≤ (unassigned : Int)

/-- `support.is_consistent`: a complete assignment satisfies every
constraint exactly. -/
def is_consistent (s : AgentSt) (a : List (Pos × Bool)) : Bool :=
  s.constraints.all fun c =>
    ((c.neighbors.filter fun q => agetD a q false).length : Int) = c.count

/-- `support.calculate_degree`: for each neighbor position of `var`, count
the still-unassigned other cells of every constraint centered there that
contains `var`. -/
def calculate_degree (s : AgentSt) (var : Pos) (unassigned : List Pos) : Nat :=
  ((neighbors8 s.n_row s.n_col var).map fun n =>
    ((s.constraints.filter fun c => c.cell = n ∧ var ∈ c.neighbors).map
      fun c => ((c.neighbors.filter fun q => q ∈ unassigned ∧ q ≠ var).dedup).length).sum).sum

/-- `support.select_unassigned_variable` for the `"backtracking_pb"`
strategy: MRV (count the domain values whose tentative assignment stays
consistent), tie-broken by maximal degree (first maximum wins). -/
def select_unassigned_variable (s : AgentSt) (unassigned : List Pos)
    (a : List (Pos × Bool)) : Pos :=
  let mrv := unassigned.foldl
    (fun (acc : Option (Nat × List Pos)) var =>
      let legal := ((agetD s.Domains var []).filter fun value =>
        is_consistent_sofar s (aset a var (value = 1))).length
      match acc with
      | none => some (legal, [var])
      | some b =>
          if legal < b.1 then some (legal, [var])
          else if legal = b.1 then some (b.1, b.2 ++ [var])
          else acc)
    none
  let candidates := (mrv.map (·.2)).getD []
  match candidates with
  | [] => ⟨0, 0⟩
  | c0 :: _ =>
      if candidates.length = 1 then c0
      else
        (candidates.foldl
          (fun (best : Option (Pos × Nat)) var =>
            let deg := calculate_degree s var unassigned
            match best with
            | none => some (var, deg)
            | some b => if deg > b.2 then some (var, deg) else best)
          none).map (·.1) |>.getD c0

/-- `Agent.backtrack` (the `"backtracking_pb"` variant): try 0 then 1 for
the selected variable, recursing when the partial assignment stays
consistent.  Fuel-bounded recursion: the selected variable always belongs
to `unassigned` (the MRV scan returns one of its elements), so any fuel
exceeding the length of `unassigned` makes the fuel-0 branch unreachable. -/
def backtrack (s : AgentSt) : Nat → List (Pos × Bool) → List Pos → Bool
  | 0, _, _ => false
  | fuel + 1, a, unassigned =>
      if unassigned = [] then is_consistent s a
      else
        let var := select_unassigned_variable s unassigned a
        let rest := unassigned.erase var
        let try0 :=
          is_consistent_sofar s (aset a var false) &&
            backtrack s fuel (aset a var false) rest
        try0 ||
          (is_consistent_sofar s (aset a var true) &&
            backtrack s fuel (aset a var true) rest)

/-- The per-variable loop body of `infer_safe_and_mines` for the
`"backtracking_pb"` strategy: singleton domains decide immediately
(updating the knowledge and the pruned counter), otherwise backtracking
tests both polarities. -/
def infer_var_step (s : AgentSt) (vlist : List Pos) (var : Pos) : AgentSt :=
  let dom := agetD s.Domains var []
  if dom.length = 1 then
    if ¬(dom.headD 0 = 0) then
      { s with mine_cells := sadd s.mine_cells var,
               knowledge := gridSet s.knowledge var Cell.mine,
               pruned := s.pruned + 1 }
    else
      { s with safe_cells := sadd s.safe_cells var, pruned := s.pruned + 1 }
  else
    if var ∈ s.safe_cells ∨ var ∈ s.mine_cells then s
    else
      let others := vlist.filter (· ≠ var)
      let can_be_safe := backtrack s (others.length + 1) [(var, false)] others
      let can_be_mine := backtrack s (others.length + 1) [(var, true)] others
      if can_be_safe ∧ ¬can_be_mine then
        { s with safe_cells := sadd s.safe_cells var }
      else if can_be_mine ∧ ¬can_be_safe then
        { s with mine_cells := sadd s.mine_cells var,
                 knowledge := gridSet s.knowledge var Cell.mine }
      else s

/-- `Agent.infer_safe_and_mines` (strategy `"backtracking_pb"`): rebuild
the constraints, collect the variables, run GAC3, then decide each
variable. -/
def infer_safe_and_mines (s : AgentSt) : AgentSt :=
  let s1 := rebuild_constraints s
  let vlist := get_variables s1
  if vlist = [] then s1
  else
    let s2 := (gac3 s1).2
    vlist.foldl (fun s v => infer_var_step s vlist v) s2

/-- An agent action (named `AgentAction`: plain `Action` collides with a
Mathlib declaration). -/
inductive AgentAction where
  | flag_all (l : List Pos)
  | reveal_all_safe (l : List Pos)
  | reveal (p : Pos)
deriving DecidableEq

/-- The flagging candidates of `_choose_action_backtracking`: known mines
not yet acted on and still marked `"X"` (iterated in `mine_cells` order, a
deterministic stand-in for CPython set order). -/
def unflagged_mines (s : AgentSt) : List Pos :=
  s.mine_cells.filter fun p =>
    p ∉ s.moves_made ∧ kAt s.knowledge p = Cell.mine

/-- The safe-reveal candidates: `sorted(safe_cells)` minus moves already
made. -/
def available_safe (s : AgentSt) : List Pos :=
  (sortedPos s.safe_cells).filter (· ∉ s.moves_made)

/-- The unknown cells of `_choose_action_backtracking`'s fallback. -/
def agent_unknown (s : AgentSt) : List Pos :=
  (allPositions s.n_row s.n_col).filter fun p =>
    kAt s.knowledge p = Cell.unknown ∧ p ∉ s.mine_cells ∧ p ∉ s.moves_made

/-- `Agent._choose_action_backtracking` for the `"backtracking_pb"`
strategy: infer, then flag all provable mines, else reveal all provable
safes, else reveal the pick of `pick_min_risk` (with `max_vars_exact = 18`)
— the Python random fallback is unreachable because `pick_min_risk` always
returns a cell when an unknown non-forbidden cell exists (`pick_some_of_unknown`
below); the impossible branch returns the first unknown cell.  Returns the
updated agent state (the Python method mutates `self`) and the action. -/
def choose_action (s0 : AgentSt) : AgentSt × Option AgentAction :=
  let s := infer_safe_and_mines s0
  let um := unflagged_mines s
  if ¬(um = []) then
    let s' := { s with
      moves_made := um.foldl (fun m p => sadd m p) s.moves_made,
      to_flag := s.to_flag.map fun t => t - um.length }
    (s', some (AgentAction.flag_all um))
  else
    let av := available_safe s
    if ¬(av = []) then (s, some (AgentAction.reveal_all_safe av))
    else
      let unknown := agent_unknown s
      match unknown with
      | [] => (s, none)
      | u0 :: _ =>
          match pick_min_risk s.knowledge s.moves_made s.mine_cells 18 200000
            s.total_mines with
          | some p => (s, some (AgentAction.reveal p))
          | none => (s, some (AgentAction.reveal u0))

/-! ## Association-list lemmas -/

theorem aget_aset_self {α : Type} (m : List (Pos × α)) (k : Pos) (v : α) :
    aget (aset m k v) k = some v := by
  induction m with
  | nil => simp [aset, aget]
  | cons hd t ih =>
      by_cases h : hd.1 = k
      · simp [aset, h, aget]
      · simp [aset, h, aget, ih]

theorem aget_aset_ne {α : Type} (m : List (Pos × α)) (k p : Pos) (v : α)
    (h : k ≠ p) : aget (aset m k v) p = aget m p := by
  induction m with
  | nil => simp [aset, aget, h]
  | cons hd t ih =>
      rcases hd with ⟨a, b⟩
      by_cases h1 : a = k
      · subst h1
        simp only [aset, if_pos rfl, aget, if_neg h]
      · simp only [aset, if_neg h1, aget]
        by_cases h2 : a = p
        · simp only [if_pos h2]
        · simp only [if_neg h2, ih]

/-- Values present in an updated map: the new value or an old one. -/
theorem aget_aset_cases {α : Type} (m : List (Pos × α)) (k p : Pos) (v : α)
    (w : α) (h : aget (aset m k v) p = some w) :
    w = v ∨ aget m p = some w := by
  by_cases hkp : k = p
  · subst hkp
    rw [aget_aset_self] at h
    exact Or.inl (Option.some.inj h).symm
  · rw [aget_aset_ne m k p v hkp] at h
    exact Or.inr h

theorem aget_mem_keys {α : Type} (m : List (Pos × α)) (k : Pos) (v : α)
    (h : aget m k = some v) : (k, v) ∈ m := by
  induction m with
  | nil => simp [aget] at h
  | cons hd t ih =>
      rcases hd with ⟨a, b⟩
      by_cases h1 : a = k
      · subst h1
        rw [aget, if_pos rfl] at h
        rcases Option.some.inj h with rfl
        exact List.mem_cons_self _ _
      · rw [aget, if_neg h1] at h
        exact List.mem_cons_of_mem _ (ih h)

/-- A key present in a map stays present after any update. -/
theorem aget_aset_isSome {α : Type} (m : List (Pos × α)) (k p : Pos) (v : α)
    (h : (aget m p).isSome) : (aget (aset m k v) p).isSome := by
  by_cases hkp : k = p
  · subst hkp; rw [aget_aset_self]; rfl
  · rw [aget_aset_ne m k p v hkp]; exact h

/-- Fold invariant with an explicit motive (usable where motive inference
for `List.foldlRecOn` fails). -/
theorem foldl_inv {β σ : Type} (P : σ → Prop) (f : σ → β → σ) :
    ∀ (l : List β) (init : σ), P init →
      (∀ s b, b ∈ l → P s → P (f s b)) → P (l.foldl f init) := by
  intro l
  induction l with
  | nil => intro init h0 _; exact h0
  | cons hd t ih =>
      intro init h0 hstep
      exact ih (f init hd) (hstep init hd (List.mem_cons_self _ _) h0)
        fun s b hb hs => hstep s b (List.mem_cons_of_mem _ hb) hs

/-! ## Claim C9: constraints are well-formed at construction -/

/-- The well-formedness property asserted by claim C9 for frontier
constraints. -/
def cstOk (c : Cst) : Prop :=
  0 ≤ c.count ∧ c.count ≤ (c.vars.length : Int) ∧ c.vars ≠ []

/-- The same property for agent constraints. -/
def acstOk (c : ACst) : Prop :=
  0 ≤ c.count ∧ c.count ≤ (c.neighbors.length : Int) ∧ c.neighbors ≠ []

theorem build_constraints_ok (g : Grid) (mines : List Pos) :
    ∀ c ∈ (build_constraints g mines).1, cstOk c := by
  rw [build_constraints]
  refine foldl_inv (fun acc : List Cst × List Pos => ∀ c ∈ acc.1, cstOk c)
    _ _ _ ?_ ?_
  · intro c hc
    simp at hc
  · intro acc p _ hacc
    intro c hc
    dsimp only at hc
    split at hc
    case h_2 => exact hacc c hc
    case h_1 k =>
      split at hc
      case isTrue => exact hacc c hc
      case isFalse hne =>
        rcases List.mem_append.mp hc with h1 | h2
        · exact hacc c h1
        · rcases List.mem_singleton.mp h2 with rfl
          exact ⟨le_max_left 0 _,
            max_le (Int.ofNat_nonneg _) (min_le_right _ _), hne⟩

theorem add_constraint_ok (s : AgentSt) (p : Pos) (v : Nat)
    (h : ∀ c ∈ s.constraints, acstOk c) :
    ∀ c ∈ (add_constraint s p v).constraints, acstOk c := by
  rw [add_constraint]
  split
  case isFalse => exact h
  case isTrue hg =>
    intro c hc
    rcases List.mem_append.mp hc with h1 | h2
    · exact h c h1
    · rcases List.mem_singleton.mp h2 with rfl
      exact ⟨hg.2.1, hg.2.2, hg.1⟩

theorem rebuild_constraints_ok (s : AgentSt) :
    ∀ c ∈ (rebuild_constraints s).constraints, acstOk c := by
  rw [rebuild_constraints]
  refine foldl_inv (fun st : AgentSt => ∀ c ∈ st.constraints, acstOk c)
    _ _ _ ?_ ?_
  · intro c hc
    simp at hc
  · intro acc p _ hacc
    dsimp only
    split
    case h_2 => exact hacc
    case h_1 kv hkv =>
      split
      case isTrue => exact add_constraint_ok acc p kv hacc
      case isFalse => exact hacc

/-- Claim C9: for every knowledge grid and set of known mines, every
constraint produced at construction time by either constraint builder (the
frontier builder `build_constraints`, which clamps its count, and the
agent's constraint rebuild through `add_constraint`, which filters) has a
count within `[0, |vars|]` and a non-empty variable set. -/
theorem C9_constraints_wellformed (g : Grid) (mines : List Pos) (s : AgentSt) :
    (∀ c ∈ (build_constraints g mines).1,
      0 ≤ c.count ∧ c.count ≤ (c.vars.length : Int) ∧ c.vars ≠ []) ∧
    (∀ c ∈ (rebuild_constraints s).constraints,
      0 ≤ c.count ∧ c.count ≤ (c.neighbors.length : Int) ∧ c.neighbors ≠ []) :=
  ⟨build_constraints_ok g mines, rebuild_constraints_ok s⟩

/-- Witness for C9 at a concrete grid and agent state. -/
theorem C9_witness :
    (⟨[⟨0, 1⟩], 1⟩ ∈ (build_constraints [[Cell.num 1, Cell.unknown]] []).1) ∧
      (0 ≤ (⟨[⟨0, 1⟩], 1⟩ : Cst).count ∧
        (⟨[⟨0, 1⟩], 1⟩ : Cst).count ≤ ((⟨[⟨0, 1⟩], 1⟩ : Cst).vars.length : Int) ∧
        (⟨[⟨0, 1⟩], 1⟩ : Cst).vars ≠ []) :=
  ⟨by decide,
    (C9_constraints_wellformed [[Cell.num 1, Cell.unknown]] []
      { n_row := 0, n_col := 0, knowledge := [], moves_made := [],
        safe_cells := [], mine_cells := [], total_mines := none,
        to_flag := none, constraints := [], Domains := [], pruned := 0 }).1
      ⟨[⟨0, 1⟩], 1⟩ (by decide)⟩

/-! ## Claim C10: the two enumeration strategies disagree -/

/-- Claim C10 (code-bug evidence): on the component with variables
`(0,0)`, `(0,1)` and the single constraint "exactly 2 mines among both",
the simple exhaustive strategy counts the unique satisfying assignment
(matching the specification count `sat_count`), but the propagation-based
strategy counts none: its top-level propagation completes the assignment,
after which `_search` selects no variable and returns without ever
recording the solution.  The fuel `6` is the value `run` would pass
(`|vars| + total constraint-variable occurrences + 2`). -/
theorem C10_strategy_divergence :
    (search_simple [⟨[⟨0, 0⟩, ⟨0, 1⟩], 2⟩] 200000 [⟨0, 0⟩, ⟨0, 1⟩] []
        ⟨0, [(⟨0, 0⟩, 0), (⟨0, 1⟩, 0)]⟩).sols = 1 ∧
    sat_count [⟨[⟨0, 0⟩, ⟨0, 1⟩], 2⟩] [⟨0, 0⟩, ⟨0, 1⟩] = 1 ∧
    (searchProp [⟨[⟨0, 0⟩, ⟨0, 1⟩], 2⟩] 200000 [⟨0, 0⟩, ⟨0, 1⟩] 6 []
        (init_cons_state [] [⟨[⟨0, 0⟩, ⟨0, 1⟩], 2⟩])
        ⟨0, [(⟨0, 0⟩, 0), (⟨0, 1⟩, 0)]⟩).1.sols = 0 ∧
    enum_run [⟨0, 0⟩, ⟨0, 1⟩] [⟨[⟨0, 0⟩, ⟨0, 1⟩], 2⟩] 200000 =
      some (1, [(⟨0, 0⟩, 1), (⟨0, 1⟩, 1)]) := by decide

/-! ## Claim C7: the GAC revision rule -/

theorem domMin_mem (d : List Nat) (hne : d ≠ []) (hle : ∀ x ∈ d, x ≤ 1) :
    domMin d ∈ d := by
  induction d with
  | nil => exact absurd rfl hne
  | cons a t ih =>
      rw [domMin, List.foldr]
      rcases t with _ | ⟨b, t'⟩
      · have ha : a ≤ 1 := hle a (List.mem_cons_self _ _)
        simp [domMin, Nat.min_def]
        omega
      · have hm := ih (by simp) fun x hx => hle x (List.mem_cons_of_mem _ hx)
        rcases Nat.min_eq_left (a := a) (b := domMin (b :: t')) with _
        by_cases hab : a ≤ domMin (b :: t')
        · rw [show List.foldr min 1 (b :: t') = domMin (b :: t') from rfl,
            Nat.min_eq_left hab]
          exact List.mem_cons_self _ _
        · rw [show List.foldr min 1 (b :: t') = domMin (b :: t') from rfl,
            Nat.min_eq_right (Nat.le_of_not_le hab)]
          exact List.mem_cons_of_mem _ hm

theorem domMax_mem (d : List Nat) (hne : d ≠ []) : domMax d ∈ d := by
  induction d with
  | nil => exact absurd rfl hne
  | cons a t ih =>
      rw [domMax, List.foldr]
      rcases t with _ | ⟨b, t'⟩
      · simp [Nat.max_def]
      · have hm := ih (by simp)
        by_cases hab : a ≤ domMax (b :: t')
        · rw [show List.foldr max 0 (b :: t') = domMax (b :: t') from rfl,
            Nat.max_eq_right hab]
          exact List.mem_cons_of_mem _ hm
        · rw [show List.foldr max 0 (b :: t') = domMax (b :: t') from rfl,
            Nat.max_eq_left (Nat.le_of_not_le hab)]
          exact List.mem_cons_self _ _

theorem domMin_le (d : List Nat) (x : Nat) (hx : x ∈ d) : domMin d ≤ x := by
  induction d with
  | nil => simp at hx
  | cons a t ih =>
      rw [domMin, List.foldr]
      rcases List.mem_cons.mp hx with rfl | hx'
      · exact Nat.min_le_left _ _
      · exact le_trans (Nat.min_le_right _ _) (ih hx')

theorem le_domMax (d : List Nat) (x : Nat) (hx : x ∈ d) : x ≤ domMax d := by
  induction d with
  | nil => simp at hx
  | cons a t ih =>
      rw [domMax, List.foldr]
      rcases List.mem_cons.mp hx with rfl | hx'
      · exact Nat.le_max_left _ _
      · exact le_trans (ih hx') (Nat.le_max_right _ _)

theorem tuplesProduct_mem (l : List (List Nat)) (t : List Nat) :
    t ∈ tuplesProduct l ↔ List.Forall₂ (fun x d => x ∈ d) t l := by
  induction l generalizing t with
  | nil =>
      simp only [tuplesProduct, List.mem_singleton]
      constructor
      · rintro rfl; exact List.Forall₂.nil
      · intro h; cases h; rfl
  | cons d rest ih =>
      simp only [tuplesProduct, List.mem_flatten, List.mem_map]
      constructor
      · rintro ⟨block, ⟨x, hx, rfl⟩, hb⟩
        rcases List.mem_map.mp hb with ⟨t', ht', rfl⟩
        exact List.Forall₂.cons hx ((ih t').mp ht')
      · intro h
        cases h with
        | cons hx ht =>
            refine ⟨_, ⟨_, hx, rfl⟩, List.mem_map.mpr ⟨_, (ih _).mpr ht, rfl⟩⟩

/-- Achievable sums over a product of non-empty 0/1 domains form exactly
the integer interval between the sum of minima and the sum of maxima. -/
theorem sums_achievable (doms : List (List Nat)) (need : Int)
    (hne : ∀ d ∈ doms, d ≠ []) (hle : ∀ d ∈ doms, ∀ x ∈ d, x ≤ 1) :
    (∃ t ∈ tuplesProduct doms, (t.sum : Int) = need) ↔
      ((doms.map domMin).sum : Int) ≤ need ∧
        need ≤ ((doms.map domMax).sum : Int) := by
  induction doms generalizing need with
  | nil =>
      simp only [tuplesProduct, List.mem_singleton, List.map_nil, List.sum_nil]
      constructor
      · rintro ⟨t, rfl, h⟩
        simp only [List.sum_nil] at h
        omega
      · intro h
        refine ⟨[], rfl, ?_⟩
        simp only [List.sum_nil]
        omega
  | cons d rest ih =>
      have hdne : d ≠ [] := hne d (List.mem_cons_self _ _)
      have hdle : ∀ x ∈ d, x ≤ 1 := hle d (List.mem_cons_self _ _)
      have hne' : ∀ e ∈ rest, e ≠ [] := fun e he => hne e (List.mem_cons_of_mem _ he)
      have hle' : ∀ e ∈ rest, ∀ x ∈ e, x ≤ 1 :=
        fun e he => hle e (List.mem_cons_of_mem _ he)
      have hmm : domMin d ∈ d := domMin_mem d hdne hdle
      have hMm : domMax d ∈ d := domMax_mem d hdne
      have hmle : domMin d ≤ domMax d := domMin_le d _ hMm
      have hM1 : domMax d ≤ 1 := hdle _ hMm
      have hlohi : ((rest.map domMin).sum : Int) ≤ ((rest.map domMax).sum : Int) := by
        have : (rest.map domMin).sum ≤ (rest.map domMax).sum := by
          apply List.sum_le_sum
          intro e he
          exact domMin_le e _ (domMax_mem e (hne' e he))
        exact_mod_cast this
      constructor
      · rintro ⟨t, ht, hsum⟩
        rw [tuplesProduct_mem] at ht
        rcases List.forall₂_cons_right_iff.mp ht with ⟨x, t', hx, ht', rfl⟩
        have hex : ∃ u ∈ tuplesProduct rest, (u.sum : Int) = need - x := by
          refine ⟨t', (tuplesProduct_mem _ _).mpr ht', ?_⟩
          rw [List.sum_cons] at hsum
          omega
        have hb := (ih (need - x) hne' hle').mp hex
        have h1 : domMin d ≤ x := domMin_le d x hx
        have h2 : x ≤ domMax d := le_domMax d x hx
        simp only [List.map_cons, List.sum_cons]
        omega
      · intro h
        simp only [List.map_cons, List.sum_cons] at h
        by_cases hcase : ((domMax d : Int) + ((rest.map domMin).sum : Int)) ≤ need
        · obtain ⟨u, hu, husum⟩ := (ih (need - domMax d) hne' hle').mpr
            (by constructor <;> omega)
          refine ⟨domMax d :: u, ?_, ?_⟩
          · exact (tuplesProduct_mem _ _).mpr
              (List.Forall₂.cons hMm ((tuplesProduct_mem _ _).mp hu))
          · rw [List.sum_cons]
            omega
        · obtain ⟨u, hu, husum⟩ := (ih (need - domMin d) hne' hle').mpr
            (by constructor <;> omega)
          refine ⟨domMin d :: u, ?_, ?_⟩
          · exact (tuplesProduct_mem _ _).mpr
              (List.Forall₂.cons hmm ((tuplesProduct_mem _ _).mp hu))
          · rw [List.sum_cons]
            omega

/-- Claim C7: inside `gac3`'s revision, a value `x` of variable `Xi`'s
domain is removed if and only if `C.count - x` lies outside `[lo, hi]`
(the sums of the other variables' domain minima and maxima), and the
explicit supporting-tuple search over the product of the other domains
agrees exactly with that bound check.  The hypotheses record the `gac3`
invariant that every queried domain is a non-empty subset of `{0, 1}`. -/
theorem C7_gac_revision (doms : List (Pos × List Nat)) (c : ACst) (Xi : Pos)
    (x : Nat) (hx : x ∈ agetD doms Xi [])
    (hne : ∀ v ∈ c.neighbors.filter (· ≠ Xi), agetD doms v [] ≠ [])
    (hle : ∀ v ∈ c.neighbors.filter (· ≠ Xi), ∀ y ∈ agetD doms v [], y ≤ 1) :
    (x ∉ (revise doms c Xi).1 ↔
      (c.count - (x : Int) <
          ((((c.neighbors.filter (· ≠ Xi)).map fun v =>
            domMin (agetD doms v [])).sum : Nat) : Int) ∨
        c.count - (x : Int) >
          ((((c.neighbors.filter (· ≠ Xi)).map fun v =>
            domMax (agetD doms v [])).sum : Nat) : Int))) ∧
    ((∃ t ∈ tuplesProduct ((c.neighbors.filter (· ≠ Xi)).map fun v =>
        agetD doms v []), (t.sum : Int) = c.count - (x : Int)) ↔
      (((((c.neighbors.filter (· ≠ Xi)).map fun v =>
            domMin (agetD doms v [])).sum : Nat) : Int) ≤ c.count - (x : Int) ∧
        c.count - (x : Int) ≤
          ((((c.neighbors.filter (· ≠ Xi)).map fun v =>
            domMax (agetD doms v [])).sum : Nat) : Int))) := by
  have hne' : ∀ dl ∈ (c.neighbors.filter (· ≠ Xi)).map fun v => agetD doms v [],
      dl ≠ [] := by
    intro dl hdl
    rcases List.mem_map.mp hdl with ⟨v, hv, rfl⟩
    exact hne v hv
  have hle' : ∀ dl ∈ (c.neighbors.filter (· ≠ Xi)).map fun v => agetD doms v [],
      ∀ y ∈ dl, y ≤ 1 := by
    intro dl hdl
    rcases List.mem_map.mp hdl with ⟨v, hv, rfl⟩
    exact hle v hv
  have hach := sums_achievable
    ((c.neighbors.filter (· ≠ Xi)).map fun v => agetD doms v [])
    (c.count - (x : Int)) hne' hle'
  simp only [List.map_map, Function.comp_def] at hach
  have hach2 := hach
  constructor
  · rw [revise]
    simp only [List.mem_filter, not_and, hx, true_implies]
    constructor
    · intro hnp
      by_contra hb
      push_neg at hb
      apply hnp
      rw [if_neg]
      · rw [List.any_eq_true]
        obtain ⟨t, ht, hts⟩ := hach2.mpr ⟨hb.1, hb.2⟩
        exact ⟨t, ht, by rw [decide_eq_true_eq]; exact hts⟩
      · push_neg
        exact hb
    · intro hb hp
      rw [if_pos hb] at hp
      simp at hp
  · exact hach2

/-- The concrete domains of the C7 witness. -/
def c7doms : List (Pos × List Nat) := [(⟨0, 0⟩, [0, 1]), (⟨0, 1⟩, [0, 1])]

/-- The concrete constraint of the C7 witness: two mines among two cells. -/
def c7c : ACst := ⟨⟨1, 0⟩, [⟨0, 0⟩, ⟨0, 1⟩], 2⟩

/-- Witness for C7: on the two-variable constraint demanding two mines, the
value 0 is removed from the first variable's domain, in agreement with the
bound check. -/
theorem C7_witness :
    ((0 : Nat) ∈ agetD c7doms ⟨0, 0⟩ []) ∧
    (∀ v ∈ c7c.neighbors.filter (· ≠ ⟨0, 0⟩), agetD c7doms v [] ≠ []) ∧
    (∀ v ∈ c7c.neighbors.filter (· ≠ ⟨0, 0⟩),
      ∀ y ∈ agetD c7doms v [], y ≤ 1) ∧
    ((0 : Nat) ∉ (revise c7doms c7c ⟨0, 0⟩).1 ↔
      (c7c.count - ((0 : Nat) : Int) <
          ((((c7c.neighbors.filter (· ≠ ⟨0, 0⟩)).map fun v =>
            domMin (agetD c7doms v [])).sum : Nat) : Int) ∨
        c7c.count - ((0 : Nat) : Int) >
          ((((c7c.neighbors.filter (· ≠ ⟨0, 0⟩)).map fun v =>
            domMax (agetD c7doms v [])).sum : Nat) : Int))) :=
  ⟨by decide, by decide, by decide,
    (C7_gac_revision c7doms c7c ⟨0, 0⟩ 0 (by decide) (by decide)
      (by decide)).1⟩

/-! ## Claim C4: effects of one inference invocation -/

/-- The fields of the agent state that one `choose_action` invocation never
touches: the grid dimensions, the configured total mine count, and the
shape (row count) of the knowledge grid. -/
def framePreserved (s t : AgentSt) : Prop :=
  t.n_row = s.n_row ∧ t.n_col = s.n_col ∧ t.total_mines = s.total_mines ∧
    t.knowledge.length = s.knowledge.length

theorem framePreserved_refl (s : AgentSt) : framePreserved s s :=
  ⟨rfl, rfl, rfl, rfl⟩

theorem framePreserved_trans {s t u : AgentSt} (h1 : framePreserved s t)
    (h2 : framePreserved t u) : framePreserved s u :=
  ⟨h2.1.trans h1.1, h2.2.1.trans h1.2.1, h2.2.2.1.trans h1.2.2.1,
    h2.2.2.2.trans h1.2.2.2⟩

theorem frame_add_constraint (s : AgentSt) (p : Pos) (v : Nat) :
    framePreserved s (add_constraint s p v) := by
  rw [add_constraint]
  split
  · exact ⟨rfl, rfl, rfl, rfl⟩
  · exact framePreserved_refl s

theorem frame_rebuild (s : AgentSt) :
    framePreserved s (rebuild_constraints s) := by
  rw [rebuild_constraints]
  refine foldl_inv (fun st : AgentSt => framePreserved s st) _ _ _
    ⟨rfl, rfl, rfl, rfl⟩ ?_
  intro st p _ hst
  dsimp only
  split
  case h_2 => exact hst
  case h_1 kv hkv =>
    split
    case isTrue => exact framePreserved_trans hst (frame_add_constraint st p kv)
    case isFalse => exact hst

theorem frame_gac3 (s : AgentSt) : framePreserved s (gac3 s).2 := by
  rw [gac3]
  split
  · exact ⟨rfl, rfl, rfl, rfl⟩
  · exact framePreserved_refl s

theorem length_gridSet (g : Grid) (p : Pos) (v : Cell) :
    (gridSet g p v).length = g.length := by
  rw [gridSet]
  exact List.length_set g _ _

theorem frame_infer_var_step (s : AgentSt) (vl : List Pos) (v : Pos) :
    framePreserved s (infer_var_step s vl v) := by
  rw [infer_var_step]
  dsimp only
  split_ifs <;> refine ⟨rfl, rfl, rfl, ?_⟩ <;>
    first
      | rfl
      | exact length_gridSet s.knowledge _ _

theorem frame_infer (s : AgentSt) :
    framePreserved s (infer_safe_and_mines s) := by
  rw [infer_safe_and_mines]
  split
  case isTrue => exact frame_rebuild s
  case isFalse =>
    refine framePreserved_trans
      (framePreserved_trans (frame_rebuild s) (frame_gac3 _)) ?_
    refine foldl_inv (fun st : AgentSt => framePreserved _ st) _ _ _
      (framePreserved_refl _) ?_
    intro st v _ hst
    exact framePreserved_trans hst (frame_infer_var_step st _ v)

/-- Claim C4 (amended): one full inference invocation is a deterministic
function of the agent state; it returns the action together with an updated
state, and although it may update the knowledge grid, the mine/safe sets,
`moves_made`, `to_flag`, `Domains`, `constraints` and `pruned`, it never
changes the grid dimensions, the configured total mine count, or the number
of knowledge rows. -/
theorem C4_invocation_frame (s : AgentSt) :
    (choose_action s).1.n_row = s.n_row ∧
    (choose_action s).1.n_col = s.n_col ∧
    (choose_action s).1.total_mines = s.total_mines ∧
    (choose_action s).1.knowledge.length = s.knowledge.length := by
  have hi := frame_infer s
  simp only [choose_action]
  revert hi
  generalize infer_safe_and_mines s = t
  intro hi
  split
  · exact ⟨hi.1, hi.2.1, hi.2.2.1, hi.2.2.2⟩
  · split
    · exact ⟨hi.1, hi.2.1, hi.2.2.1, hi.2.2.2⟩
    · split
      · exact ⟨hi.1, hi.2.1, hi.2.2.1, hi.2.2.2⟩
      · split <;> exact ⟨hi.1, hi.2.1, hi.2.2.1, hi.2.2.2⟩

/-- The concrete agent state of the C4 counterexample: a 1×2 board whose
revealed `1` forces its single unknown neighbor to be a mine. -/
def c4state : AgentSt :=
  { n_row := 1, n_col := 2,
    knowledge := [[Cell.num 1, Cell.unknown]],
    moves_made := [⟨0, 0⟩], safe_cells := [], mine_cells := [],
    total_mines := some 1, to_flag := some 1, constraints := [],
    Domains := [(⟨0, 0⟩, [0, 1]), (⟨0, 1⟩, [0, 1])], pruned := 0 }

/-- Counterexample to claim C4 as stated: the invocation does not leave the
observable state unchanged — it marks the inferred mine in the knowledge
grid, adds it to `mine_cells`, and records the flagging in `moves_made`
(while returning the flag-all action). -/
theorem C4_counterexample :
    (choose_action c4state).1.knowledge ≠ c4state.knowledge ∧
    (choose_action c4state).1.mine_cells ≠ c4state.mine_cells ∧
    (choose_action c4state).1.moves_made ≠ c4state.moves_made ∧
    (choose_action c4state).2 = some (AgentAction.flag_all [⟨0, 1⟩]) := by
  decide

/-! ## Lemmas about `listMin`, `argmax_first`, and probability-map keys -/

theorem foldl_min_mem (t : List ℚ) : ∀ a : ℚ, t.foldl min a ∈ a :: t := by
  induction t with
  | nil => intro a; exact List.mem_singleton.mpr rfl
  | cons v t ih =>
      intro a
      rcases List.mem_cons.mp (ih (min a v)) with h | h
      · rcases min_cases a v with ⟨he, _⟩ | ⟨he, _⟩
        · rw [List.foldl, h, he]; exact List.mem_cons_self _ _
        · rw [List.foldl, h, he]
          exact List.mem_cons_of_mem _ (List.mem_cons_self _ _)
      · exact List.mem_cons_of_mem _ (List.mem_cons_of_mem _ h)

theorem foldl_min_le (t : List ℚ) :
    ∀ (a x : ℚ), x ∈ a :: t → t.foldl min a ≤ x := by
  induction t with
  | nil =>
      intro a x hx
      rcases List.mem_cons.mp hx with rfl | h
      · exact le_refl _
      · simp at h
  | cons v t ih =>
      intro a x hx
      rw [List.foldl]
      rcases List.mem_cons.mp hx with rfl | hx'
      · exact le_trans (ih _ _ (List.mem_cons_self _ _)) (min_le_left _ _)
      · rcases List.mem_cons.mp hx' with rfl | hx''
        · exact le_trans (ih _ _ (List.mem_cons_self _ _)) (min_le_right _ _)
        · exact ih _ _ (List.mem_cons_of_mem _ hx'')

theorem listMin_mem (l : List ℚ) (h : l ≠ []) : listMin l ∈ l := by
  cases l with
  | nil => exact absurd rfl h
  | cons a t => exact foldl_min_mem t a

theorem listMin_le (l : List ℚ) (x : ℚ) (hx : x ∈ l) : listMin l ≤ x := by
  cases l with
  | nil => simp at hx
  | cons a t => exact foldl_min_le t a x hx

/-- Characterization of the fold inside `argmax_first`, starting from a
current best `c`. -/
theorem argmax_first_go (score : Pos → Nat) :
    ∀ (rest : List Pos) (c : Pos),
      ∃ d, (rest.foldl
        (fun (best : Option (Pos × Nat)) v =>
          match best with
          | none => some (v, score v)
          | some b => if score v > b.2 then some (v, score v) else best)
        (some (c, score c))) = some (d, score d) ∧
      ((d = c ∧ ∀ y ∈ rest, score y ≤ score c) ∨
        (∃ r1 r2, rest = r1 ++ d :: r2 ∧ score c < score d ∧
          (∀ y ∈ r1, score y < score d) ∧ (∀ y ∈ r2, score y ≤ score d))) := by
  intro rest
  induction rest with
  | nil => intro c; exact ⟨c, rfl, Or.inl ⟨rfl, by simp⟩⟩
  | cons v rest ih =>
      intro c
      by_cases hv : score v > score c
      · obtain ⟨d, hd, hcases⟩ := ih v
        refine ⟨d, ?_, ?_⟩
        · rw [List.foldl]; dsimp only; rw [if_pos hv]; exact hd
        · rcases hcases with ⟨rfl, hall⟩ | ⟨r1, r2, rfl, hlt, h1, h2⟩
          · exact Or.inr ⟨[], rest, rfl, hv, by simp, hall⟩
          · refine Or.inr ⟨v :: r1, r2, rfl, lt_trans hv hlt, ?_, h2⟩
            intro y hy
            rcases List.mem_cons.mp hy with rfl | hy'
            · exact hlt
            · exact h1 y hy'
      · obtain ⟨d, hd, hcases⟩ := ih c
        refine ⟨d, ?_, ?_⟩
        · rw [List.foldl]; dsimp only; rw [if_neg hv]; exact hd
        · rcases hcases with ⟨rfl, hall⟩ | ⟨r1, r2, rfl, hlt, h1, h2⟩
          · refine Or.inl ⟨rfl, fun y hy => ?_⟩
            rcases List.mem_cons.mp hy with rfl | hy'
            · omega
            · exact hall y hy'
          · refine Or.inr ⟨v :: r1, r2, rfl, hlt, fun y hy => ?_, h2⟩
            rcases List.mem_cons.mp hy with rfl | hy'
            · omega
            · exact h1 y hy'

/-- `argmax_first` returns the first element achieving the maximal score. -/
theorem argmax_first_spec (score : Pos → Nat) (l : List Pos) (h : l ≠ []) :
    ∃ c l1 l2, argmax_first score l = some c ∧ l = l1 ++ c :: l2 ∧
      (∀ y ∈ l1, score y < score c) ∧ (∀ y ∈ l, score y ≤ score c) := by
  cases l with
  | nil => exact absurd rfl h
  | cons a t =>
      obtain ⟨d, hd, hcases⟩ := argmax_first_go score t a
      rw [argmax_first, List.foldl, hd]
      rcases hcases with ⟨rfl, hall⟩ | ⟨r1, r2, rfl, hlt, h1, h2⟩
      · refine ⟨d, [], t, rfl, rfl, by simp, fun y hy => ?_⟩
        rcases List.mem_cons.mp hy with rfl | hy'
        · exact le_refl _
        · exact hall y hy'
      · refine ⟨d, a :: r1, r2, rfl, rfl, fun y hy => ?_, fun y hy => ?_⟩
        · rcases List.mem_cons.mp hy with rfl | hy'
          · exact hlt
          · exact h1 y hy'
        · rcases List.mem_cons.mp hy with rfl | hy'
          · exact le_of_lt hlt
          · rcases List.mem_append.mp hy' with hy1 | hy2
            · exact le_of_lt (h1 y hy1)
            · rcases List.mem_cons.mp hy2 with rfl | hy3
              · exact le_refl _
              · exact h2 y hy3

/-- Key uniqueness of an association list. -/
def keysNodup {α : Type} (m : List (Pos × α)) : Prop := (akeys m).Nodup

theorem keysNodup_nil {α : Type} : keysNodup ([] : List (Pos × α)) := by
  simp [keysNodup, akeys]

theorem akeys_aset_subset {α : Type} (m : List (Pos × α)) (k : Pos) (v : α) :
    ∀ p ∈ akeys (aset m k v), p ∈ akeys m ∨ p = k := by
  induction m with
  | nil => intro p hp; simp [aset, akeys] at hp; exact Or.inr hp
  | cons hd t ih =>
      intro p hp
      rcases hd with ⟨a, b⟩
      by_cases h1 : a = k
      · rw [aset, if_pos h1] at hp
        rcases List.mem_cons.mp hp with rfl | hp'
        · exact Or.inl (List.mem_cons_self _ _)
        · exact Or.inl (List.mem_cons_of_mem _ hp')
      · rw [aset, if_neg h1] at hp
        rcases List.mem_cons.mp hp with rfl | hp'
        · exact Or.inl (List.mem_cons_self _ _)
        · rcases ih p hp' with h | h
          · exact Or.inl (List.mem_cons_of_mem _ h)
          · exact Or.inr h

theorem keysNodup_aset {α : Type} (m : List (Pos × α)) (k : Pos) (v : α)
    (h : keysNodup m) : keysNodup (aset m k v) := by
  induction m with
  | nil => simp [aset, keysNodup, akeys]
  | cons hd t ih =>
      rcases hd with ⟨a, b⟩
      rw [keysNodup, akeys] at h
      simp only [List.map_cons, List.nodup_cons] at h
      by_cases h1 : a = k
      · rw [keysNodup, aset, if_pos h1, akeys]
        simp only [List.map_cons, List.nodup_cons]
        exact h
      · rw [keysNodup, aset, if_neg h1, akeys]
        simp only [List.map_cons, List.nodup_cons]
        refine ⟨?_, ih h.2⟩
        intro hmem
        rcases akeys_aset_subset t k v a hmem with hm | hm
        · exact h.1 hm
        · exact h1 hm

theorem aget_of_mem_keysNodup {α : Type} (m : List (Pos × α)) (k : Pos)
    (v : α) (hnd : keysNodup m) (hmem : (k, v) ∈ m) : aget m k = some v := by
  induction m with
  | nil => simp at hmem
  | cons hd t ih =>
      rcases hd with ⟨a, b⟩
      rw [keysNodup, akeys] at hnd
      simp only [List.map_cons, List.nodup_cons] at hnd
      rcases List.mem_cons.mp hmem with heq | hmem'
      · rcases Prod.mk.injEq .. ▸ heq with ⟨rfl, rfl⟩
        rw [aget, if_pos rfl]
      · by_cases h1 : a = k
        · subst h1
          exact absurd (List.mem_map.mpr ⟨(a, v), hmem', rfl⟩) hnd.1
        · rw [aget, if_neg h1]
          exact ih hnd.2 hmem'

/-- Folding any sequence of `aset` updates preserves key presence. -/
theorem foldl_aset_isSome {β : Type} (g : β → Pos) (h : β → ℚ)
    (l : List β) (m : List (Pos × ℚ)) (v : Pos)
    (hv : (aget m v).isSome) :
    (aget (l.foldl (fun acc b => aset acc (g b) (h b)) m) v).isSome := by
  induction l generalizing m with
  | nil => exact hv
  | cons b t ih => exact ih _ (aget_aset_isSome _ _ _ _ hv)

/-! ## Bounds on the enumeration counters -/

theorem mem_aset_cases {α : Type} (m : List (Pos × α)) (k : Pos) (v : α)
    (kv : Pos × α) (h : kv ∈ aset m k v) : kv ∈ m ∨ kv = (k, v) := by
  induction m with
  | nil => simp [aset] at h; exact Or.inr h
  | cons hd t ih =>
      rcases hd with ⟨a, b⟩
      by_cases h1 : a = k
      · rw [aset, if_pos h1] at h
        rcases List.mem_cons.mp h with rfl | h'
        · exact Or.inr (by rw [h1])
        · exact Or.inl (List.mem_cons_of_mem _ h')
      · rw [aset, if_neg h1] at h
        rcases List.mem_cons.mp h with rfl | h'
        · exact Or.inl (List.mem_cons_self _ _)
        · rcases ih h' with h2 | h2
          · exact Or.inl (List.mem_cons_of_mem _ h2)
          · exact Or.inr h2

theorem keysNodup_aerase {α : Type} (m : List (Pos × α)) (k : Pos)
    (h : keysNodup m) : keysNodup (aerase m k) := by
  induction m with
  | nil => simpa [aerase] using h
  | cons hd t ih =>
      rcases hd with ⟨a, b⟩
      rw [keysNodup, akeys] at h
      simp only [List.map_cons, List.nodup_cons] at h
      by_cases h1 : a = k
      · rw [aerase, if_pos h1]
        exact h.2
      · rw [aerase, if_neg h1]
        rw [keysNodup, akeys]
        simp only [List.map_cons, List.nodup_cons]
        refine ⟨?_, ih h.2⟩
        intro hmem
        rw [keysNodup] at *
        apply h.1
        rcases List.mem_map.mp hmem with ⟨kv, hkv, hk⟩
        have : kv ∈ t := by
          clear h ih hmem
          induction t with
          | nil => simp [aerase] at hkv
          | cons hd2 t2 ih2 =>
              rcases hd2 with ⟨a2, b2⟩
              by_cases h2 : a2 = k
              · rw [aerase, if_pos h2] at hkv
                exact List.mem_cons_of_mem _ hkv
              · rw [aerase, if_neg h2] at hkv
                rcases List.mem_cons.mp hkv with rfl | h3
                · exact List.mem_cons_self _ _
                · exact List.mem_cons_of_mem _ (ih2 h3)
        exact List.mem_map.mpr ⟨kv, this, hk⟩

theorem mem_abump (m : List (Pos × Nat)) (p : Pos) (kv : Pos × Nat)
    (h : kv ∈ abump m p) :
    ∃ w, (kv.1, w) ∈ m ∧ kv.2 ≤ w + (if kv.1 = p then 1 else 0) := by
  rcases List.mem_map.mp h with ⟨kv0, hkv0, heq⟩
  by_cases h1 : kv0.1 = p
  · rw [if_pos h1] at heq
    subst heq
    exact ⟨kv0.2, by simpa using hkv0, by simp [h1]⟩
  · rw [if_neg h1] at heq
    subst heq
    exact ⟨kv0.2, by simpa using hkv0, by simp [h1]⟩

theorem mem_bumpTrue (a : List (Pos × Nat)) :
    ∀ (m : List (Pos × Nat)) (kv : Pos × Nat), kv ∈ bumpTrue m a →
      ∃ w, (kv.1, w) ∈ m ∧ kv.2 ≤ w + (a.map (·.1)).count kv.1 := by
  induction a with
  | nil =>
      intro m kv h
      exact ⟨kv.2, by simpa [bumpTrue] using h, by simp⟩
  | cons hd t ih =>
      intro m kv h
      rcases kv with ⟨k1, k2⟩
      rw [bumpTrue, List.foldl] at h
      rcases ih _ (k1, k2) h with ⟨w', hw', hle⟩
      simp only at hle hw'
      by_cases h2 : hd.2 = 1
      · rw [if_pos h2] at hw'
        rcases mem_abump m hd.1 (k1, w') hw' with ⟨w, hw, hle2⟩
        simp only at hle2 hw
        refine ⟨w, hw, ?_⟩
        simp only [List.map_cons, List.count_cons]
        by_cases h3 : k1 = hd.1
        · rw [if_pos h3] at hle2
          have hbeq : (hd.1 == k1) = true := beq_iff_eq.mpr h3.symm
          rw [hbeq]
          simp only [if_true]
          omega
        · rw [if_neg h3] at hle2
          have hbeq : (hd.1 == k1) = false := by
            simp only [beq_eq_false_iff_ne, ne_eq]
            exact fun hc => h3 hc.symm
          rw [hbeq]
          simp only [Bool.false_eq_true, if_false]
          omega
      · rw [if_neg h2] at hw'
        refine ⟨w', hw', ?_⟩
        simp only [List.map_cons, List.count_cons]
        by_cases h3 : (hd.1 == k1) = true
        · rw [h3]; simp only [if_true]; omega
        · rw [Bool.not_eq_true] at h3
          rw [h3]; simp only [Bool.false_eq_true, if_false]; omega

/-- The per-solution counter update adds at most one to every counter when
the assignment has no duplicate keys. -/
theorem bumpTrue_le (m : List (Pos × Nat)) (a : List (Pos × Nat)) (s : Nat)
    (hnd : keysNodup a) (hb : ∀ kv ∈ m, kv.2 ≤ s) :
    ∀ kv ∈ bumpTrue m a, kv.2 ≤ s + 1 := by
  intro kv h
  rcases mem_bumpTrue a m kv h with ⟨w, hw, hle⟩
  have hc : (a.map (·.1)).count kv.1 ≤ 1 :=
    List.nodup_iff_count_le_one.mp hnd kv.1
  have := hb (kv.1, w) hw
  simp only at this
  omega

/-- Every counter is bounded by the solution count. -/
def countsLe (st : EnumSt) : Prop := ∀ kv ∈ st.counts, kv.2 ≤ st.sols

theorem keysNodup_forceAll (cs : List Cst) (val : Nat) (vlist : List Pos) :
    ∀ (a : Assign) (st : CState), keysNodup a →
      keysNodup (forceAll cs val vlist a st).1 := by
  induction vlist with
  | nil => intro a st h; exact h
  | cons v t ih =>
      intro a st h
      rw [forceAll, List.foldl]
      split
      · exact ih _ _ h
      · exact ih _ _ (keysNodup_aset _ _ _ h)

theorem keysNodup_prop_pass (cs : List Cst) :
    ∀ (idxs : List Nat) (a : Assign) (st : CState) (ch : Bool),
      keysNodup a → keysNodup (prop_pass cs idxs a st ch).1 := by
  intro idxs
  induction idxs with
  | nil => intro a st ch h; exact h
  | cons i rest ih =>
      intro a st ch h
      rw [prop_pass]
      dsimp only
      split
      · split
        · exact h
        · exact ih _ _ _ h
      · split
        · exact h
        · split
          · exact ih _ _ _ (keysNodup_forceAll cs 0 _ a st h)
          · split
            · exact ih _ _ _ (keysNodup_forceAll cs 1 _ a st h)
            · exact ih _ _ _ h

theorem keysNodup_propagate (cs : List Cst) :
    ∀ (fuel : Nat) (a : Assign) (st : CState), keysNodup a →
      keysNodup (propagate cs fuel a st).1 := by
  intro fuel
  induction fuel with
  | zero => intro a st h; exact h
  | succ f ih =>
      intro a st h
      rw [propagate]
      have hp := keysNodup_prop_pass cs (List.range cs.length) a st false h
      rcases hpp : prop_pass cs (List.range cs.length) a st false with ⟨a', r⟩
      rw [hpp] at hp
      rcases r with _ | ⟨st', changed⟩
      · exact hp
      · dsimp only
        split
        · exact ih _ _ hp
        · exact hp

theorem search_simple_counts (cs : List Cst) (maxSol : Nat) :
    ∀ (order : List Pos) (a : Assign) (st : EnumSt), keysNodup a →
      countsLe st → countsLe (search_simple cs maxSol order a st) := by
  intro order
  induction order with
  | nil =>
      intro a st hnd hc
      rw [search_simple]
      split
      · intro kv hkv
        exact bumpTrue_le st.counts a st.sols hnd hc kv hkv
      · exact hc
  | cons v rest ih =>
      intro a st hnd hc
      rw [search_simple]
      split
      · exact hc
      · exact ih _ _ (keysNodup_aset _ _ _ hnd)
          (ih _ _ (keysNodup_aset _ _ _ hnd) hc)

theorem searchProp_counts (cs : List Cst) (maxSol : Nat) (vars : List Pos) :
    ∀ (fuel : Nat) (a : Assign) (cst : CState) (st : EnumSt), keysNodup a →
      countsLe st →
      countsLe (searchProp cs maxSol vars fuel a cst st).1 ∧
        keysNodup (searchProp cs maxSol vars fuel a cst st).2 := by
  intro fuel
  induction fuel with
  | zero => intro a cst st hnd hc; exact ⟨hc, hnd⟩
  | succ f ih =>
      intro a cst st hnd hc
      rw [searchProp]
      split
      · exact ⟨hc, hnd⟩
      · split
        · split
          · refine ⟨?_, hnd⟩
            intro kv hkv
            exact bumpTrue_le st.counts a st.sols hnd hc kv hkv
          · exact ⟨hc, hnd⟩
        · have hpnd := keysNodup_propagate cs (vars.length + 1) a cst hnd
          rcases hprop : propagate cs (vars.length + 1) a cst with ⟨a', r⟩
          rw [hprop] at hpnd
          rcases r with _ | cst'
          · exact ⟨hc, hpnd⟩
          · dsimp only
            rcases hsel : select_var vars cs a' with _ | v
            · exact ⟨hc, hpnd⟩
            · dsimp only
              have h0 :
                  countsLe (if feasible (updAll cs v 0 cst') = true then
                    searchProp cs maxSol vars f (aset a' v 0)
                      (updAll cs v 0 cst') st
                  else (st, aset a' v 0)).1 ∧
                  keysNodup (if feasible (updAll cs v 0 cst') = true then
                    searchProp cs maxSol vars f (aset a' v 0)
                      (updAll cs v 0 cst') st
                  else (st, aset a' v 0)).2 := by
                split
                · exact ih _ _ _ (keysNodup_aset _ _ _ hpnd) hc
                · exact ⟨hc, keysNodup_aset _ _ _ hpnd⟩
              rcases h0 with ⟨hc0, hnd0⟩
              have hnd1 := keysNodup_aset _ v (1 : Nat) (keysNodup_aerase _ v hnd0)
              have h1 :
                  countsLe (if feasible (updAll cs v 1 cst') = true then
                    searchProp cs maxSol vars f
                      (aset (aerase (if feasible (updAll cs v 0 cst') = true then
                        searchProp cs maxSol vars f (aset a' v 0)
                          (updAll cs v 0 cst') st
                      else (st, aset a' v 0)).2 v) v 1)
                      (updAll cs v 1 cst')
                      (if feasible (updAll cs v 0 cst') = true then
                        searchProp cs maxSol vars f (aset a' v 0)
                          (updAll cs v 0 cst') st
                      else (st, aset a' v 0)).1
                  else ((if feasible (updAll cs v 0 cst') = true then
                        searchProp cs maxSol vars f (aset a' v 0)
                          (updAll cs v 0 cst') st
                      else (st, aset a' v 0)).1,
                    aset (aerase (if feasible (updAll cs v 0 cst') = true then
                        searchProp cs maxSol vars f (aset a' v 0)
                          (updAll cs v 0 cst') st
                      else (st, aset a' v 0)).2 v) v 1)).1 ∧
                  keysNodup (if feasible (updAll cs v 1 cst') = true then
                    searchProp cs maxSol vars f
                      (aset (aerase (if feasible (updAll cs v 0 cst') = true then
                        searchProp cs maxSol vars f (aset a' v 0)
                          (updAll cs v 0 cst') st
                      else (st, aset a' v 0)).2 v) v 1)
                      (updAll cs v 1 cst')
                      (if feasible (updAll cs v 0 cst') = true then
                        searchProp cs maxSol vars f (aset a' v 0)
                          (updAll cs v 0 cst') st
                      else (st, aset a' v 0)).1
                  else ((if feasible (updAll cs v 0 cst') = true then
                        searchProp cs maxSol vars f (aset a' v 0)
                          (updAll cs v 0 cst') st
                      else (st, aset a' v 0)).1,
                    aset (aerase (if feasible (updAll cs v 0 cst') = true then
                        searchProp cs maxSol vars f (aset a' v 0)
                          (updAll cs v 0 cst') st
                      else (st, aset a' v 0)).2 v) v 1)).2 := by
                split
                · exact ih _ _ _ hnd1 hc0
                · exact ⟨hc0, hnd1⟩
              exact ⟨h1.1, keysNodup_aerase _ v h1.2⟩

/-- `enum_run` returns a positive solution count and per-variable counts
bounded by it. -/
theorem enum_run_bounds (vars0 : List Pos) (cs0 : List Cst) (maxSol : Nat)
    (n : Nat) (tc : List (Pos × Nat))
    (h : enum_run vars0 cs0 maxSol = some (n, tc)) :
    0 < n ∧ ∀ kv ∈ tc, kv.2 ≤ n := by
  rw [enum_run] at h
  dsimp only at h
  have hc0 : countsLe ⟨0, (sortedPos vars0).map fun v => (v, 0)⟩ := by
    intro kv hkv
    rcases List.mem_map.mp hkv with ⟨v, _, rfl⟩
    exact le_refl 0
  split at h
  · have hb := search_simple_counts
      (cs0.map fun c => ⟨c.vars.dedup, c.count⟩) maxSol (sortedPos vars0) []
      ⟨0, (sortedPos vars0).map fun v => (v, 0)⟩ keysNodup_nil hc0
    split at h
    · exact absurd h (by simp)
    · rcases Option.some.inj h with h2
      rcases Prod.mk.injEq .. ▸ h2 with ⟨rfl, rfl⟩
      refine ⟨Nat.pos_of_ne_zero (by assumption), ?_⟩
      intro kv hkv
      exact hb kv hkv
  · split at h
    · exact absurd h (by simp)
    · have hb := (searchProp_counts
        (cs0.map fun c => (⟨c.vars.dedup, c.count⟩ : Cst)) maxSol (sortedPos vars0)
        ((sortedPos vars0).length +
          (((cs0.map fun c => (⟨c.vars.dedup, c.count⟩ : Cst)).map (·.vars)).flatten).length + 2)
        [] (init_cons_state [] (cs0.map fun c => (⟨c.vars.dedup, c.count⟩ : Cst)))
        ⟨0, (sortedPos vars0).map fun v => (v, 0)⟩ keysNodup_nil hc0).1
      split at h
      · exact absurd h (by simp)
      · rcases Option.some.inj h with h2
        rcases Prod.mk.injEq .. ▸ h2 with ⟨rfl, rfl⟩
        refine ⟨Nat.pos_of_ne_zero (by assumption), ?_⟩
        intro kv hkv
        exact hb kv hkv

/-- The exact marginals of a successful enumeration lie in `[0, 1]`. -/
theorem enum_marginals_bounds (vars0 : List Pos) (cs0 : List Cst)
    (maxSol : Nat) (n : Nat) (tc : List (Pos × Nat))
    (h : enum_run vars0 cs0 maxSol = some (n, tc)) :
    ∀ kv ∈ enum_marginals vars0 (n, tc), 0 ≤ kv.2 ∧ kv.2 ≤ 1 := by
  obtain ⟨hn, htc⟩ := enum_run_bounds vars0 cs0 maxSol n tc h
  intro kv hkv
  rcases List.mem_map.mp hkv with ⟨v, _, rfl⟩
  dsimp only
  constructor
  · positivity
  · rw [div_le_one (by exact_mod_cast hn)]
    have : agetD tc v 0 ≤ n := by
      rw [agetD]
      rcases hag : aget tc v with _ | w
      · simpa using Nat.le_of_lt hn
      · simpa using htc (v, w) (aget_mem_keys tc v w hag)
    exact_mod_cast this

/-! ## Value bounds through the probability pipeline -/

/-- All values of the map satisfy `P`. -/
def mapP (P : ℚ → Prop) (m : List (Pos × ℚ)) : Prop := ∀ kv ∈ m, P kv.2

theorem mapP_aset (P : ℚ → Prop) (m : List (Pos × ℚ)) (k : Pos) (v : ℚ)
    (hm : mapP P m) (hv : P v) : mapP P (aset m k v) := by
  intro kv hkv
  rcases mem_aset_cases m k v kv hkv with h | h
  · exact hm kv h
  · rw [h]; exact hv

theorem mapP_foldl_aset {β : Type} (P : ℚ → Prop) (g : β → Pos) (f : β → ℚ)
    (l : List β) (m : List (Pos × ℚ)) (hm : mapP P m)
    (hf : ∀ b ∈ l, P (f b)) :
    mapP P (l.foldl (fun acc b => aset acc (g b) (f b)) m) := by
  induction l generalizing m with
  | nil => exact hm
  | cons b t ih =>
      exact ih _ (mapP_aset P m (g b) (f b) hm (hf b (List.mem_cons_self _ _)))
        fun b' hb' => hf b' (List.mem_cons_of_mem _ hb')

theorem sum_le_length (l : List ℚ) (h : ∀ x ∈ l, x ≤ 1) :
    l.sum ≤ (l.length : ℚ) := by
  induction l with
  | nil => simp
  | cons a t ih =>
      rw [List.sum_cons, List.length_cons]
      push_cast
      have h1 := h a (List.mem_cons_self _ _)
      have h2 := ih fun x hx => h x (List.mem_cons_of_mem _ hx)
      linarith

/-- Every defined local pressure lies in `[0, 1]`. -/
theorem local_pressure_prob_bounds (g : Grid) (mines : List Pos) (v : Pos)
    (lp : ℚ) (h : local_pressure_prob g mines v = some lp) :
    0 ≤ lp ∧ lp ≤ 1 := by
  rw [local_pressure_prob] at h
  dsimp only at h
  set ratios := (neighbors8 (n_row g) (n_col g) v).filterMap fun q =>
    match kAt g q with
    | Cell.num k =>
        let neigh := neighbors8 (n_row g) (n_col g) q
        let knownM := (neigh.filter (· ∈ mines)).length
        let unknowns := neigh.filter fun w =>
          kAt g w = Cell.unknown ∧ w ∉ mines
        let ratio : ℚ := ((k - knownM : Nat) : ℚ) / ((max 1 unknowns.length : Nat) : ℚ)
        some (if ratio < 0 then 0 else if ratio > 1 then 1 else ratio)
    | _ => none with hr
  have hmem : ∀ x ∈ ratios, 0 ≤ x ∧ x ≤ 1 := by
    intro x hx
    rw [hr] at hx
    rcases List.mem_filterMap.mp hx with ⟨q, _, hq⟩
    rcases hk : kAt g q with k | _ | _ <;> rw [hk] at hq
    · dsimp only at hq
      rcases Option.some.inj hq with rfl
      constructor
      · split
        · exact le_refl 0
        · split
          · exact zero_le_one
          · next h1 _ => exact le_of_not_lt h1
      · split
        · exact zero_le_one
        · split
          · exact le_refl 1
          · next _ h2 => exact le_of_not_lt h2
    · simp at hq
    · simp at hq
  split at h
  · exact absurd h (by simp)
  · next hne =>
    rcases Option.some.inj h with rfl
    have hlen : 0 < (ratios.length : ℚ) := by
      have : ratios ≠ [] := hne
      have : 0 < ratios.length := List.length_pos.mpr this
      exact_mod_cast this
    constructor
    · apply div_nonneg _ (le_of_lt hlen)
      exact List.sum_nonneg fun x hx => (hmem x hx).1
    · rw [div_le_one hlen]
      exact sum_le_length ratios fun x hx => (hmem x hx).2

theorem step1_exact_bounds (comps : List (List Pos × List Cst)) (p0 : ℚ)
    (mve msol : Nat) (P : ℚ → Prop) (hP0 : P p0)
    (hP01 : ∀ q, 0 ≤ q → q ≤ 1 → P q) :
    mapP P (step1_exact comps p0 mve msol).1 := by
  rw [step1_exact]
  refine foldl_inv
    (fun acc : List (Pos × ℚ) × List Pos × List Pos => mapP P acc.1) _ _ _
    (by intro kv hkv; simp at hkv) ?_
  intro acc comp _ hacc
  dsimp only
  split
  · exact hacc
  · split
    · rcases hres : enum_run comp.1 comp.2 msol with _ | res
      · exact mapP_foldl_aset P _ _ comp.1 acc.1 hacc fun b _ => hP0
      · dsimp only
        split
        · have hmb := enum_marginals_bounds comp.1 comp.2 msol res.1 res.2 hres
          exact mapP_foldl_aset P (·.1) (·.2) _ acc.1 hacc
            fun kv hkv => hP01 kv.2 (hmb kv hkv).1 (hmb kv hkv).2
        · exact mapP_foldl_aset P _ _ comp.1 acc.1 hacc fun b _ => hP0
    · exact mapP_foldl_aset P _ _ comp.1 acc.1 hacc fun b _ => hP0

theorem step_outside_bounds (rem : Option ℚ) (unknown fvars : List Pos)
    (p0 : ℚ) (probs : List (Pos × ℚ)) (P : ℚ → Prop) (hP0 : P p0)
    (hP01 : ∀ q, 0 ≤ q → q ≤ 1 → P q) (hm : mapP P probs) :
    mapP P (step_outside rem unknown fvars p0 probs) := by
  rw [step_outside.eq_def]
  dsimp only
  split
  · exact hm
  · rcases rem with _ | r
    · exact mapP_foldl_aset P _ _ _ probs hm fun b _ => hP0
    · refine mapP_foldl_aset P _ _ _ probs hm fun b _ => ?_
      dsimp only
      refine hP01 _ ?_ ?_
      · exact le_min (le_max_right _ _) zero_le_one
      · exact min_le_right _ _

theorem step_blend_bounds (g : Grid) (mines : List Pos)
    (unknown exacts : List Pos) (p0 : ℚ) (probs : List (Pos × ℚ))
    (P : ℚ → Prop) (hP0 : P p0)
    (hblend : ∀ pv lp : ℚ, P pv → 0 ≤ lp → lp ≤ 1 →
      P ((1 - ALPHA) * pv + ALPHA * lp))
    (hm : mapP P probs) :
    mapP P (step_blend g mines unknown exacts p0 probs) := by
  rw [step_blend]
  induction unknown generalizing probs with
  | nil => exact hm
  | cons v rest ih =>
      rw [List.foldl]
      split
      · exact ih probs hm
      · have hpv : P (agetD probs v p0) := by
          rw [agetD]
          rcases hv : aget probs v with _ | w
          · exact hP0
          · exact hm (v, w) (aget_mem_keys probs v w hv)
        rcases hlp : local_pressure_prob g mines v with _ | lp
        · exact ih _ (mapP_aset P probs v _ hm hpv)
        · obtain ⟨h1, h2⟩ := local_pressure_prob_bounds g mines v lp hlp
          exact ih _ (mapP_aset P probs v _ hm (hblend _ lp hpv h1 h2))

theorem mapP_calib_fold (P : ℚ → Prop) (hP01 : ∀ q, 0 ≤ q → q ≤ 1 → P q)
    (flex : List Pos) (p0 sc : ℚ) :
    ∀ probs : List (Pos × ℚ), mapP P probs →
      mapP P (flex.foldl
        (fun m u => aset m u
          (if agetD m u p0 * sc < 0 then 0
           else if agetD m u p0 * sc > 1 then 1 else agetD m u p0 * sc))
        probs) := by
  induction flex with
  | nil => intro probs hm; exact hm
  | cons u rest ih =>
      intro probs hm
      rw [List.foldl]
      refine ih _ (mapP_aset P probs u _ hm ?_)
      split
      · exact hP01 0 (le_refl 0) zero_le_one
      · split
        · exact hP01 1 zero_le_one (le_refl 1)
        · next hn1 hn2 =>
            exact hP01 _ (le_of_not_lt hn1) (le_of_not_lt hn2)

theorem step_calibrate_bounds (cal : Bool) (rem : Option ℚ)
    (unknown exacts : List Pos) (p0 : ℚ) (probs : List (Pos × ℚ))
    (P : ℚ → Prop) (hP01 : ∀ q, 0 ≤ q → q ≤ 1 → P q) (hm : mapP P probs) :
    mapP P (step_calibrate cal rem unknown exacts p0 probs) := by
  rw [step_calibrate.eq_def]
  rcases rem with _ | r
  · exact hm
  · dsimp only
    split
    · split
      · exact hm
      · split
        · exact mapP_calib_fold P hP01 _ p0 _ probs hm
        · exact hm
    · exact hm

/-! ## Coverage: every unknown cell receives a probability -/

theorem foldl_aset_isSome2 {β : Type} (g : β → Pos)
    (F : List (Pos × ℚ) → β → ℚ) (l : List β) :
    ∀ (m : List (Pos × ℚ)) (v : Pos), (aget m v).isSome →
      (aget (l.foldl (fun acc b => aset acc (g b) (F acc b)) m) v).isSome := by
  induction l with
  | nil => intro m v h; exact h
  | cons b t ih => intro m v h; exact ih _ v (aget_aset_isSome _ _ _ _ h)

theorem foldl_aset_key_present {β : Type} (g : β → Pos)
    (F : List (Pos × ℚ) → β → ℚ) (l : List β) :
    ∀ (m : List (Pos × ℚ)) (v : Pos), v ∈ l.map g →
      (aget (l.foldl (fun acc b => aset acc (g b) (F acc b)) m) v).isSome := by
  induction l with
  | nil => intro m v h; simp at h
  | cons b t ih =>
      intro m v h
      have h' : v = g b ∨ ∃ a ∈ t, g a = v := by simpa using h
      rcases h' with h1 | ⟨a, ha, hga⟩
      · rw [List.foldl]
        apply foldl_aset_isSome2
        rw [h1, aget_aset_self]
        rfl
      · exact ih _ v (List.mem_map.mpr ⟨a, ha, hga⟩)

theorem step1_exact_covers (comps : List (List Pos × List Cst)) (p0 : ℚ)
    (mve msol : Nat) :
    ∀ v ∈ (step1_exact comps p0 mve msol).2.2,
      (aget (step1_exact comps p0 mve msol).1 v).isSome := by
  rw [step1_exact]
  refine foldl_inv
    (fun acc : List (Pos × ℚ) × List Pos × List Pos =>
      ∀ v ∈ acc.2.2, (aget acc.1 v).isSome) _ _ _
    (by intro v hv; simp at hv) ?_
  intro acc comp _ hacc
  dsimp only
  split
  · exact hacc
  · split
    · rcases hres : enum_run comp.1 comp.2 msol with _ | res
      · intro v hv
        exact foldl_aset_isSome2 (fun b => b) (fun _ _ => p0) comp.1 acc.1 v
          (hacc v hv)
      · dsimp only
        split
        · intro v hv
          rcases List.mem_append.mp hv with h1 | h1
          · exact foldl_aset_isSome2 (fun kv : Pos × ℚ => kv.1)
              (fun _ kv => kv.2) _ acc.1 v (hacc v h1)
          · exact foldl_aset_key_present (fun kv : Pos × ℚ => kv.1)
              (fun _ kv => kv.2) _ acc.1 v h1
        · intro v hv
          exact foldl_aset_isSome2 (fun b => b) (fun _ _ => p0) comp.1 acc.1 v
            (hacc v hv)
    · intro v hv
      exact foldl_aset_isSome2 (fun b => b) (fun _ _ => p0) comp.1 acc.1 v
        (hacc v hv)

theorem step_outside_isSome (rem : Option ℚ) (unknown fvars : List Pos)
    (p0 : ℚ) (probs : List (Pos × ℚ)) (v : Pos)
    (h : (aget probs v).isSome) :
    (aget (step_outside rem unknown fvars p0 probs) v).isSome := by
  rw [step_outside.eq_def]
  dsimp only
  split
  · exact h
  · rcases rem with _ | r
    · exact foldl_aset_isSome2 (fun b => b) (fun _ _ => p0) _ probs v h
    · exact foldl_aset_isSome2 (fun b => b) _ _ probs v h

theorem step_blend_isSome (g : Grid) (mines : List Pos)
    (exacts : List Pos) (p0 : ℚ) :
    ∀ (unknown : List Pos) (probs : List (Pos × ℚ)) (v : Pos),
      (aget probs v).isSome →
      (aget (step_blend g mines unknown exacts p0 probs) v).isSome := by
  intro unknown
  induction unknown with
  | nil => intro probs v h; exact h
  | cons u rest ih =>
      intro probs v h
      rw [step_blend] at *
      rw [List.foldl]
      split
      · exact ih probs v h
      · split
        · exact ih _ v (aget_aset_isSome _ _ _ _ h)
        · exact ih _ v (aget_aset_isSome _ _ _ _ h)

theorem step_blend_covers (g : Grid) (mines : List Pos)
    (exacts : List Pos) (p0 : ℚ) :
    ∀ (unknown : List Pos) (probs : List (Pos × ℚ)) (v : Pos),
      v ∈ unknown → v ∉ exacts →
      (aget (step_blend g mines unknown exacts p0 probs) v).isSome := by
  intro unknown
  induction unknown with
  | nil => intro probs v h; simp at h
  | cons u rest ih =>
      intro probs v h hne
      rcases List.mem_cons.mp h with rfl | h1
      · rw [step_blend, List.foldl]
        rw [if_neg (by simpa using hne)]
        split
        · exact step_blend_isSome g mines exacts p0 rest _ v
            (by rw [aget_aset_self]; rfl)
        · exact step_blend_isSome g mines exacts p0 rest _ v
            (by rw [aget_aset_self]; rfl)
      · rw [step_blend, List.foldl]
        split
        · exact ih probs v h1 hne
        · split
          · exact ih _ v h1 hne
          · exact ih _ v h1 hne

theorem step_calibrate_isSome (cal : Bool) (rem : Option ℚ)
    (unknown exacts : List Pos) (p0 : ℚ) (probs : List (Pos × ℚ)) (v : Pos)
    (h : (aget probs v).isSome) :
    (aget (step_calibrate cal rem unknown exacts p0 probs) v).isSome := by
  rw [step_calibrate.eq_def]
  rcases rem with _ | r
  · exact h
  · dsimp only
    split
    · split
      · exact h
      · split
        · exact foldl_aset_isSome2 (fun b => b) _ _ probs v h
        · exact h
    · exact h

/-! ## Claim C1: every unknown cell gets a probability; bounds -/

theorem compute_cell_probs_covers (g : Grid) (mines : List Pos)
    (tm : Option Nat) (mve msol : Nat) (cal : Bool) :
    ∀ v ∈ unknown_cells g mines,
      (aget (compute_cell_probs g mines tm mve msol cal) v).isSome := by
  intro v hv
  rw [compute_cell_probs]
  dsimp only
  rw [if_neg (by intro h; rw [h] at hv; simp at hv)]
  by_cases hx : v ∈ (step1_exact (frontier_components g mines)
      (p0_fallback_q mines tm (unknown_cells g mines).length) mve msol).2.2
  · apply step_calibrate_isSome
    apply step_blend_isSome
    apply step_outside_isSome
    exact step1_exact_covers _ _ _ _ v hx
  · apply step_calibrate_isSome
    exact step_blend_covers g mines _ _ _ _ v hv hx

theorem compute_cell_probs_bounds (g : Grid) (mines : List Pos)
    (tm : Option Nat) (mve msol : Nat) (cal : Bool) (P : ℚ → Prop)
    (hP0 : P (p0_fallback_q mines tm (unknown_cells g mines).length))
    (hP01 : ∀ q, 0 ≤ q → q ≤ 1 → P q)
    (hblend : ∀ pv lp : ℚ, P pv → 0 ≤ lp → lp ≤ 1 →
      P ((1 - ALPHA) * pv + ALPHA * lp)) :
    mapP P (compute_cell_probs g mines tm mve msol cal) := by
  rw [compute_cell_probs]
  dsimp only
  split
  · intro kv hkv; simp at hkv
  · apply step_calibrate_bounds _ _ _ _ _ _ P hP01
    apply step_blend_bounds _ _ _ _ _ _ P hP0 hblend
    apply step_outside_bounds _ _ _ _ _ P hP0 hP01
    exact step1_exact_bounds _ _ _ _ P hP0 hP01

theorem p0_fallback_q_nonneg (mines : List Pos) (tm : Option Nat) (n : Nat) :
    0 ≤ p0_fallback_q mines tm n := by
  rcases tm with _ | M
  · simp [p0_fallback_q, mines_remaining_q]
  · rw [p0_fallback_q.eq_def, mines_remaining_q]
    exact div_nonneg (le_max_left 0 _) (le_trans zero_le_one (le_max_left 1 _))

/-- Claim C1, amended: every current unknown cell receives a defined,
nonnegative probability, and every probability is at most `1` whenever the
fallback prior is (in particular whenever the remaining mine budget does
not exceed the number of unknown cells, and always when the total is
unknown).  The original upper bound `p ≤ 1` is *not* unconditional: when
`total_mines − |mine_cells|` exceeds the number of unknown cells the
unclamped fallback prior exceeds `1` and survives blending and skipped
calibration (see `C1_counterexample`). -/
theorem C1_probability_bounds (g : Grid) (mines : List Pos) (tm : Option Nat)
    (mve msol : Nat) (cal : Bool) (v : Pos) (hv : v ∈ unknown_cells g mines) :
    ∃ p, aget (compute_cell_probs g mines tm mve msol cal) v = some p ∧
      0 ≤ p ∧
      (p0_fallback_q mines tm (unknown_cells g mines).length ≤ 1 → p ≤ 1) := by
  have hsome := compute_cell_probs_covers g mines tm mve msol cal v hv
  rcases hp : aget (compute_cell_probs g mines tm mve msol cal) v with _ | p
  · rw [hp] at hsome; simp at hsome
  · refine ⟨p, rfl, ?_⟩
    have hmem := aget_mem_keys _ _ _ hp
    have hblend : ∀ pv lp : ℚ,
        (0 ≤ pv ∧
          (p0_fallback_q mines tm (unknown_cells g mines).length ≤ 1 → pv ≤ 1)) →
        0 ≤ lp → lp ≤ 1 →
        (0 ≤ (1 - ALPHA) * pv + ALPHA * lp ∧
          (p0_fallback_q mines tm (unknown_cells g mines).length ≤ 1 →
            (1 - ALPHA) * pv + ALPHA * lp ≤ 1)) := by
      intro pv lp hpv hlp0 hlp1
      constructor
      · have h0 := hpv.1
        simp only [ALPHA]
        nlinarith
      · intro hb
        have h1 := hpv.2 hb
        have h0 := hpv.1
        simp only [ALPHA]
        nlinarith
    have hB := compute_cell_probs_bounds g mines tm mve msol cal
      (fun q => 0 ≤ q ∧
        (p0_fallback_q mines tm (unknown_cells g mines).length ≤ 1 → q ≤ 1))
      ⟨p0_fallback_q_nonneg mines tm _, fun hb => hb⟩
      (fun q h1 h2 => ⟨h1, fun _ => h2⟩)
      hblend
    exact hB (v, p) hmem

/-- Witness for C1 on a one-cell grid with one remaining mine: the cell's
probability is defined, nonnegative, and (the budget being within the
unknown count) at most `1`. -/
theorem C1_witness :
    (⟨0, 0⟩ : Pos) ∈ unknown_cells [[Cell.unknown]] [] ∧
    ∃ p, aget (compute_cell_probs [[Cell.unknown]] [] (some 1) 18 50 true)
        ⟨0, 0⟩ = some p ∧
      0 ≤ p ∧
      (p0_fallback_q [] (some 1)
          (unknown_cells [[Cell.unknown]] []).length ≤ 1 → p ≤ 1) :=
  ⟨by decide,
    C1_probability_bounds [[Cell.unknown]] [] (some 1) 18 50 true ⟨0, 0⟩
      (by decide)⟩

/-- The C1 counterexample grid: twelve unknown cells far from the frontier,
two frontier cells `(4,1)`, `(4,2)` whose component is contradictory
(`(5,1) = 5` forces both, `(5,3) = 2` forbids `(4,2)`), and a total of `15`
mines against `14` unknown cells, so the unclamped fallback prior is
`15/14 > 1`. -/
def c1g : Grid :=
  [[Cell.unknown, Cell.unknown, Cell.unknown, Cell.unknown],
   [Cell.unknown, Cell.unknown, Cell.unknown, Cell.unknown],
   [Cell.unknown, Cell.unknown, Cell.unknown, Cell.unknown],
   [Cell.mine, Cell.mine, Cell.mine, Cell.mine],
   [Cell.mine, Cell.unknown, Cell.unknown, Cell.mine],
   [Cell.mine, Cell.num 5, Cell.mine, Cell.num 2]]

/-- The unknown cells of `c1g` (with no known mines), in row-major order. -/
def c1U : List Pos :=
  [⟨0,0⟩, ⟨0,1⟩, ⟨0,2⟩, ⟨0,3⟩, ⟨1,0⟩, ⟨1,1⟩, ⟨1,2⟩, ⟨1,3⟩,
   ⟨2,0⟩, ⟨2,1⟩, ⟨2,2⟩, ⟨2,3⟩, ⟨4,1⟩, ⟨4,2⟩]

/-- The probability map of `c1g` after the outside-prior step. -/
def c1M2 : List (Pos × ℚ) :=
  [(⟨4,1⟩, 15/14), (⟨4,2⟩, 15/14),
   (⟨0,0⟩, 1), (⟨0,1⟩, 1), (⟨0,2⟩, 1), (⟨0,3⟩, 1),
   (⟨1,0⟩, 1), (⟨1,1⟩, 1), (⟨1,2⟩, 1), (⟨1,3⟩, 1),
   (⟨2,0⟩, 1), (⟨2,1⟩, 1), (⟨2,2⟩, 1), (⟨2,3⟩, 1)]

/-- The probability map of `c1g` after the local-pressure blend (and after
the skipped calibration). -/
def c1M3 : List (Pos × ℚ) :=
  [(⟨4,1⟩, 143/140), (⟨4,2⟩, 143/140),
   (⟨0,0⟩, 1), (⟨0,1⟩, 1), (⟨0,2⟩, 1), (⟨0,3⟩, 1),
   (⟨1,0⟩, 1), (⟨1,1⟩, 1), (⟨1,2⟩, 1), (⟨1,3⟩, 1),
   (⟨2,0⟩, 1), (⟨2,1⟩, 1), (⟨2,2⟩, 1), (⟨2,3⟩, 1)]

set_option maxHeartbeats 1600000 in
/-- Counterexample to the original C1: on `c1g` with no known mines and
`total_mines = 15` (defaults `max_vars_exact = 18`, a generous solution cap
and calibration on), the unknown cell `(4,1)` is assigned probability
`143/140 > 1`: the contradictory frontier component falls back to the
unclamped prior `15/14`, the blend `0.3 · 15/14 + 0.7 · 1` keeps it above
`1`, and calibration is skipped because the discrepancy `67/70` is within
the tolerance `3/2`. -/
theorem C1_counterexample :
    (⟨4, 1⟩ : Pos) ∈ unknown_cells c1g [] ∧
    aget (compute_cell_probs c1g [] (some 15) 18 5000 true) ⟨4, 1⟩ =
      some (143/140) ∧ (1 : ℚ) < 143/140 := by
  refine ⟨by decide, ?_, by norm_num⟩
  have hu : unknown_cells c1g [] = c1U := by decide
  have hc : frontier_components c1g [] =
      [([⟨4,1⟩, ⟨4,2⟩], [⟨[⟨4,1⟩, ⟨4,2⟩], 2⟩, ⟨[⟨4,2⟩], 0⟩])] := by decide
  have he : enum_run [⟨4,1⟩, ⟨4,2⟩] [⟨[⟨4,1⟩, ⟨4,2⟩], 2⟩, ⟨[⟨4,2⟩], 0⟩] 5000 =
      none := by decide
  have hs1 : step1_exact [([⟨4,1⟩, ⟨4,2⟩], [⟨[⟨4,1⟩, ⟨4,2⟩], 2⟩, ⟨[⟨4,2⟩], 0⟩])]
      (15/14) 18 5000 =
      ([(⟨4,1⟩, (15/14 : ℚ)), (⟨4,2⟩, (15/14 : ℚ))], [⟨4,1⟩, ⟨4,2⟩], []) := by
    norm_num [step1_exact, he, aset, aget]
    exact fun h => absurd h (by simp)
  have hd : ([⟨4,1⟩, ⟨4,2⟩] : List Pos).dedup = [⟨4,1⟩, ⟨4,2⟩] := by decide
  have hof : c1U.filter (· ∉ ([⟨4,1⟩, ⟨4,2⟩] : List Pos)) =
      [⟨0,0⟩, ⟨0,1⟩, ⟨0,2⟩, ⟨0,3⟩, ⟨1,0⟩, ⟨1,1⟩, ⟨1,2⟩, ⟨1,3⟩,
       ⟨2,0⟩, ⟨2,1⟩, ⟨2,2⟩, ⟨2,3⟩] := by decide
  have hs2 : step_outside (some 15) c1U [⟨4,1⟩, ⟨4,2⟩] (15/14)
      [(⟨4,1⟩, (15/14 : ℚ)), (⟨4,2⟩, (15/14 : ℚ))] = c1M2 := by
    rw [step_outside.eq_def]
    dsimp only
    rw [hd, hof]
    rw [if_neg (by simp)]
    norm_num [agetD, aget, aset, max_def, min_def, c1M2]
  have hk30 : kAt c1g ⟨3,0⟩ = Cell.mine := by decide
  have hk31 : kAt c1g ⟨3,1⟩ = Cell.mine := by decide
  have hk32 : kAt c1g ⟨3,2⟩ = Cell.mine := by decide
  have hk33 : kAt c1g ⟨3,3⟩ = Cell.mine := by decide
  have hk40 : kAt c1g ⟨4,0⟩ = Cell.mine := by decide
  have hk41 : kAt c1g ⟨4,1⟩ = Cell.unknown := by decide
  have hk42 : kAt c1g ⟨4,2⟩ = Cell.unknown := by decide
  have hk43 : kAt c1g ⟨4,3⟩ = Cell.mine := by decide
  have hk50 : kAt c1g ⟨5,0⟩ = Cell.mine := by decide
  have hk51 : kAt c1g ⟨5,1⟩ = Cell.num 5 := by decide
  have hk52 : kAt c1g ⟨5,2⟩ = Cell.mine := by decide
  have hk53 : kAt c1g ⟨5,3⟩ = Cell.num 2 := by decide
  have hn41 : neighbors8 (n_row c1g) (n_col c1g) ⟨4,1⟩ =
      [⟨3,0⟩, ⟨3,1⟩, ⟨3,2⟩, ⟨4,0⟩, ⟨4,2⟩, ⟨5,0⟩, ⟨5,1⟩, ⟨5,2⟩] := by decide
  have hn42 : neighbors8 (n_row c1g) (n_col c1g) ⟨4,2⟩ =
      [⟨3,1⟩, ⟨3,2⟩, ⟨3,3⟩, ⟨4,1⟩, ⟨4,3⟩, ⟨5,1⟩, ⟨5,2⟩, ⟨5,3⟩] := by decide
  have hkm51 : ((neighbors8 (n_row c1g) (n_col c1g) ⟨5,1⟩).filter
      (· ∈ ([] : List Pos))).length = 0 := by decide
  have hkm53 : ((neighbors8 (n_row c1g) (n_col c1g) ⟨5,3⟩).filter
      (· ∈ ([] : List Pos))).length = 0 := by decide
  have hun51 : (neighbors8 (n_row c1g) (n_col c1g) ⟨5,1⟩).filter
      (fun w => kAt c1g w = Cell.unknown ∧ w ∉ ([] : List Pos)) =
      [⟨4,1⟩, ⟨4,2⟩] := by decide
  have hun53 : (neighbors8 (n_row c1g) (n_col c1g) ⟨5,3⟩).filter
      (fun w => kAt c1g w = Cell.unknown ∧ w ∉ ([] : List Pos)) =
      [⟨4,2⟩] := by decide
  have hlp1 : local_pressure_prob c1g [] ⟨4,1⟩ = some 1 := by
    rw [local_pressure_prob]
    dsimp only
    rw [hn41]
    simp only [List.filterMap_cons, List.filterMap_nil, hk30, hk31, hk32, hk40,
      hk42, hk50, hk51, hk52]
    rw [hkm51, hun51]
    norm_num [max_def]
  have hlp2 : local_pressure_prob c1g [] ⟨4,2⟩ = some 1 := by
    rw [local_pressure_prob]
    dsimp only
    rw [hn42]
    simp only [List.filterMap_cons, List.filterMap_nil, hk31, hk32, hk33, hk41,
      hk43, hk51, hk52, hk53]
    rw [hkm51, hun51, hkm53, hun53]
    norm_num [max_def]
    exact fun h => absurd h (by simp)
  have hlp00 : local_pressure_prob c1g [] ⟨0,0⟩ = none := by decide
  have hlp01 : local_pressure_prob c1g [] ⟨0,1⟩ = none := by decide
  have hlp02 : local_pressure_prob c1g [] ⟨0,2⟩ = none := by decide
  have hlp03 : local_pressure_prob c1g [] ⟨0,3⟩ = none := by decide
  have hlp10 : local_pressure_prob c1g [] ⟨1,0⟩ = none := by decide
  have hlp11 : local_pressure_prob c1g [] ⟨1,1⟩ = none := by decide
  have hlp12 : local_pressure_prob c1g [] ⟨1,2⟩ = none := by decide
  have hlp13 : local_pressure_prob c1g [] ⟨1,3⟩ = none := by decide
  have hlp20 : local_pressure_prob c1g [] ⟨2,0⟩ = none := by decide
  have hlp21 : local_pressure_prob c1g [] ⟨2,1⟩ = none := by decide
  have hlp22 : local_pressure_prob c1g [] ⟨2,2⟩ = none := by decide
  have hlp23 : local_pressure_prob c1g [] ⟨2,3⟩ = none := by decide
  have hs3 : step_blend c1g [] c1U [] (15/14) c1M2 = c1M3 := by
    norm_num [step_blend, c1U, c1M2, c1M3, agetD, aget, aset, ALPHA,
      hlp1, hlp2, hlp00, hlp01, hlp02, hlp03, hlp10, hlp11, hlp12, hlp13,
      hlp20, hlp21, hlp22, hlp23]
  have habs : |(983/70 : ℚ) - 15| = 67/70 := by
    rw [abs_of_nonpos (by norm_num)]; norm_num
  have habs2 : |(67/70 : ℚ)| = 67/70 := abs_of_nonneg (by norm_num)
  have hflex : c1U.filter (· ∉ ([] : List Pos)) = c1U := by decide
  have hs4 : step_calibrate true (some 15) c1U [] (15/14) c1M3 = c1M3 := by
    norm_num [step_calibrate, hflex, c1U, c1M3, agetD, aget, max_def, habs,
      habs2]
  have hne : ¬(c1U = []) := by decide
  have hlen : c1U.length = 14 := by decide
  have hget : aget c1M3 ⟨4,1⟩ = some (143/140 : ℚ) := by
    norm_num [c1M3, aget]
  rw [compute_cell_probs]
  rw [hu]
  norm_num [mines_remaining_q, p0_fallback_q, max_def, hc, hne, hlen,
    hs1, hs2, hs3, hs4, hget]

/-! ## Claim C8: the soft-calibration budget bound -/

theorem agetD_eq_of_isSome {α : Type} (m : List (Pos × α)) (u : Pos)
    (d1 d2 : α) (h : (aget m u).isSome) : agetD m u d1 = agetD m u d2 := by
  rw [agetD, agetD]
  rcases hv : aget m u with _ | v
  · rw [hv] at h; simp at h
  · rfl

theorem agetD_aset_ne {α : Type} (m : List (Pos × α)) (k u : Pos) (v d : α)
    (h : k ≠ u) : agetD (aset m k v) u d = agetD m u d := by
  rw [agetD, agetD, aget_aset_ne _ _ _ _ h]

theorem sum_filter_split (l : List Pos) (ex : List Pos) (f : Pos → ℚ) :
    (l.map f).sum =
      ((l.filter (· ∈ ex)).map f).sum + ((l.filter (· ∉ ex)).map f).sum := by
  induction l with
  | nil => simp
  | cons a t ih =>
      by_cases h : a ∈ ex
      · simp only [List.filter_cons, h]
        simp only [decide_not]
        simp [ih]
        ring
      · simp only [List.filter_cons, h]
        simp only [decide_not]
        simp [h, ih]
        ring

theorem calib_fold_preserves (p0 sc : ℚ) :
    ∀ (flex : List Pos) (probs : List (Pos × ℚ)) (u : Pos), u ∉ flex →
      aget (flex.foldl
        (fun m u => aset m u
          (if agetD m u p0 * sc < 0 then 0
           else if agetD m u p0 * sc > 1 then 1 else agetD m u p0 * sc))
        probs) u = aget probs u := by
  intro flex
  induction flex with
  | nil => intro probs u _; rfl
  | cons a t ih =>
      intro probs u h
      rw [List.foldl]
      rw [ih _ u (fun hu => h (List.mem_cons_of_mem _ hu))]
      exact aget_aset_ne _ _ _ _
        (fun he => h (he ▸ List.mem_cons_self _ _))

theorem calib_fold_value (p0 sc : ℚ) :
    ∀ (flex : List Pos) (probs : List (Pos × ℚ)) (u : Pos), flex.Nodup →
      u ∈ flex →
      aget (flex.foldl
        (fun m u => aset m u
          (if agetD m u p0 * sc < 0 then 0
           else if agetD m u p0 * sc > 1 then 1 else agetD m u p0 * sc))
        probs) u =
      some (if agetD probs u p0 * sc < 0 then 0
            else if agetD probs u p0 * sc > 1 then 1
            else agetD probs u p0 * sc) := by
  intro flex
  induction flex with
  | nil => intro probs u _ h; simp at h
  | cons a t ih =>
      intro probs u hnd hu
      rw [List.foldl]
      rcases List.mem_cons.mp hu with rfl | h1
      · rw [calib_fold_preserves p0 sc t _ u (List.nodup_cons.mp hnd).1]
        rw [aget_aset_self]
      · have ha : a ≠ u := fun he => (List.nodup_cons.mp hnd).1 (he ▸ h1)
        rw [ih _ u (List.nodup_cons.mp hnd).2 h1]
        rw [agetD_aset_ne _ _ _ _ _ ha]

/-- Claim C8, amended: assume calibration runs under the Step 5 conditions
(the flexible cells are non-empty with positive probability sum), the
exact-cell sum is a nonnegative under-budget amount, every unknown cell has
a defined probability, and — the amended proviso — the rescaled values need
no clamping.  Then the risk total over the unknown cells is within
`max(0.10 · r, 0.2)` of the remaining budget `r`.  (The original claim is
false without the no-clamping proviso: clamping loses mass without a second
pass, see `C8_counterexample`.) -/
theorem C8_calibration_budget (r p0 : ℚ) (unknown exacts : List Pos)
    (probs : List (Pos × ℚ))
    (hnd : unknown.Nodup)
    (hcov : ∀ v ∈ unknown, (aget probs v).isSome)
    (hsplit : List.Perm (unknown.filter (· ∈ exacts)) exacts.dedup)
    (hflexne : unknown.filter (· ∉ exacts) ≠ [])
    (hre : 0 ≤ r)
    (hse0 : 0 ≤ (exacts.dedup.map fun u => agetD probs u 0).sum)
    (hse : (exacts.dedup.map fun u => agetD probs u 0).sum ≤ r)
    (hsf : 0 < ((unknown.filter (· ∉ exacts)).map fun u => agetD probs u p0).sum)
    (hnoclamp : ∀ u ∈ unknown.filter (· ∉ exacts),
      0 ≤ agetD probs u p0 *
        ((r - (exacts.dedup.map fun u => agetD probs u 0).sum) /
          ((unknown.filter (· ∉ exacts)).map fun u => agetD probs u p0).sum) ∧
      agetD probs u p0 *
        ((r - (exacts.dedup.map fun u => agetD probs u 0).sum) /
          ((unknown.filter (· ∉ exacts)).map fun u => agetD probs u p0).sum)
        ≤ 1) :
    |(unknown.map fun v =>
        agetD (step_calibrate true (some r) unknown exacts p0 probs) v p0).sum
      - r| ≤ max ((1/10) * r) (1/5) := by
  have hune : unknown ≠ [] := by
    intro h; exact hflexne (by rw [h]; rfl)
  rw [step_calibrate.eq_def]
  dsimp only
  rw [if_pos ⟨rfl, hune⟩, if_neg hflexne]
  set sE := (exacts.dedup.map fun u => agetD probs u 0).sum with hsE
  set sF := ((unknown.filter (· ∉ exacts)).map fun u => agetD probs u p0).sum
    with hsF
  have htF : max 0 (r - sE) = r - sE := max_eq_right (sub_nonneg.mpr hse)
  rw [htF]
  by_cases hcond : sF > 0 ∧ |sF - (r - sE)| > 1/10 * max 1 (r - sE)
  · rw [if_pos hcond]
    have hsum := sum_filter_split unknown exacts fun v =>
      agetD ((unknown.filter (· ∉ exacts)).foldl
        (fun m u => aset m u
          (if agetD m u p0 * ((r - sE) / sF) < 0 then 0
           else if agetD m u p0 * ((r - sE) / sF) > 1 then 1
           else agetD m u p0 * ((r - sE) / sF)))
        probs) v p0
    rw [hsum]
    have hdisj : ∀ u ∈ unknown.filter (· ∈ exacts),
        u ∉ unknown.filter (· ∉ exacts) := by
      intro u hu hu'
      have h1 := (List.mem_filter.mp hu).2
      have h2 := (List.mem_filter.mp hu').2
      simp at h1 h2
      exact h2 h1
    have hex : ((unknown.filter (· ∈ exacts)).map fun v =>
        agetD ((unknown.filter (· ∉ exacts)).foldl
          (fun m u => aset m u
            (if agetD m u p0 * ((r - sE) / sF) < 0 then 0
             else if agetD m u p0 * ((r - sE) / sF) > 1 then 1
             else agetD m u p0 * ((r - sE) / sF)))
          probs) v p0).sum = sE := by
      have hcong : ∀ u ∈ unknown.filter (· ∈ exacts),
          agetD ((unknown.filter (· ∉ exacts)).foldl
            (fun m u => aset m u
              (if agetD m u p0 * ((r - sE) / sF) < 0 then 0
               else if agetD m u p0 * ((r - sE) / sF) > 1 then 1
               else agetD m u p0 * ((r - sE) / sF)))
            probs) u p0 = agetD probs u 0 := by
        intro u hu
        rw [agetD, agetD]
        rw [calib_fold_preserves p0 ((r - sE) / sF) _ probs u (hdisj u hu)]
        have h2 := agetD_eq_of_isSome probs u p0 0
          (hcov u (List.mem_filter.mp hu).1)
        rw [agetD, agetD] at h2
        exact h2
      rw [List.map_congr_left hcong]
      rw [hsE]
      exact List.Perm.sum_eq (hsplit.map _)
    have hflexnd : (unknown.filter (· ∉ exacts)).Nodup := List.Nodup.filter _ hnd
    have hfx : ((unknown.filter (· ∉ exacts)).map fun v =>
        agetD ((unknown.filter (· ∉ exacts)).foldl
          (fun m u => aset m u
            (if agetD m u p0 * ((r - sE) / sF) < 0 then 0
             else if agetD m u p0 * ((r - sE) / sF) > 1 then 1
             else agetD m u p0 * ((r - sE) / sF)))
          probs) v p0).sum = r - sE := by
      have hmap : ((unknown.filter (· ∉ exacts)).map fun v =>
          agetD ((unknown.filter (· ∉ exacts)).foldl
            (fun m u => aset m u
              (if agetD m u p0 * ((r - sE) / sF) < 0 then 0
               else if agetD m u p0 * ((r - sE) / sF) > 1 then 1
               else agetD m u p0 * ((r - sE) / sF)))
            probs) v p0) =
          (unknown.filter (· ∉ exacts)).map fun v =>
            agetD probs v p0 * ((r - sE) / sF) := by
        apply List.map_congr_left
        intro u hu
        rw [agetD]
        rw [calib_fold_value p0 ((r - sE) / sF) _ probs u hflexnd hu]
        obtain ⟨hnc1, hnc2⟩ := hnoclamp u hu
        rw [if_neg (not_lt.mpr hnc1), if_neg (not_lt.mpr hnc2)]
        rfl
      rw [hmap]
      rw [List.sum_map_mul_right]
      rw [← hsF]
      field_simp
    rw [hex, hfx]
    have : sE + (r - sE) - r = 0 := by ring
    rw [this, abs_zero]
    exact le_max_of_le_right (by norm_num)
  · rw [if_neg hcond]
    have hbound : |sF - (r - sE)| ≤ 1/10 * max 1 (r - sE) := by
      by_contra hgt
      exact hcond ⟨hsf, lt_of_not_le hgt⟩
    have hsum := sum_filter_split unknown exacts fun v => agetD probs v p0
    rw [hsum]
    have hex : ((unknown.filter (· ∈ exacts)).map fun v =>
        agetD probs v p0).sum = sE := by
      have hcong : ∀ u ∈ unknown.filter (· ∈ exacts),
          agetD probs u p0 = agetD probs u 0 := fun u hu =>
        agetD_eq_of_isSome probs u p0 0 (hcov u (List.mem_filter.mp hu).1)
      rw [List.map_congr_left hcong]
      rw [hsE]
      exact List.Perm.sum_eq (hsplit.map _)
    rw [hex, ← hsF]
    have heq : sE + sF - r = sF - (r - sE) := by ring
    rw [heq]
    rcases le_total (r - sE) 1 with h1 | h1
    · have : max 1 (r - sE) = 1 := max_eq_left h1
      rw [this] at hbound
      refine le_trans hbound (le_max_of_le_right (by norm_num))
    · have : max 1 (r - sE) = r - sE := max_eq_right h1
      rw [this] at hbound
      refine le_trans hbound (le_max_of_le_left ?_)
      have : r - sE ≤ r := by linarith
      linarith

/-- Witness for C8: a two-cell board with matching budget; calibration
leaves the sum exactly on budget. -/
theorem C8_witness :
    ([⟨0, 0⟩, ⟨1, 0⟩] : List Pos).filter (· ∉ ([] : List Pos)) ≠ [] ∧
    |(([⟨0, 0⟩, ⟨1, 0⟩] : List Pos).map fun v =>
        agetD (step_calibrate true (some 1) [⟨0, 0⟩, ⟨1, 0⟩] [] (1/2)
          [(⟨0, 0⟩, 1/2), (⟨1, 0⟩, 1/2)]) v (1/2)).sum - 1| ≤
      max ((1/10) * 1) (1/5) :=
  ⟨by decide,
    C8_calibration_budget 1 (1/2) [⟨0, 0⟩, ⟨1, 0⟩] []
      [(⟨0, 0⟩, 1/2), (⟨1, 0⟩, 1/2)]
      (by decide) (by decide) (by decide) (by decide) (by norm_num)
      (by simp) (by simp) (by norm_num [agetD, aget])
      (by intro u hu; simp at hu; rcases hu with rfl | rfl <;>
        norm_num [agetD, aget])⟩

/-- Counterexample to the original C8: on a single-cell board with three
remaining mines the calibration conditions hold and the rescale runs, but
clamping caps the only probability at `1`, so the final risk total `1`
misses the budget `3` by `2`, far beyond the claimed tolerance
`max(0.10 · 3, 0.2) = 0.3`. -/
theorem C8_counterexample :
    compute_cell_probs [[Cell.unknown]] [] (some 3) 18 50 true =
      [(⟨0, 0⟩, 1)] ∧
    ((unknown_cells [[Cell.unknown]] []).map fun v =>
        agetD (compute_cell_probs [[Cell.unknown]] [] (some 3) 18 50 true)
          v 0).sum = 1 ∧
    ¬(|(1 : ℚ) - 3| ≤ max ((1/10) * 3) (1/5)) := by
  have hu : unknown_cells [[Cell.unknown]] [] = [⟨0, 0⟩] := by decide
  have hc : frontier_components [[Cell.unknown]] [] = [] := by decide
  have hs1 : step1_exact [] (3 : ℚ) 18 50 = ([], [], []) := rfl
  have hs2 : step_outside (some 3) [⟨0, 0⟩] [] (3 : ℚ) [] =
      [(⟨0, 0⟩, (1 : ℚ))] := by
    rw [step_outside.eq_def]
    dsimp only
    rw [if_neg (by decide)]
    norm_num [agetD, aget, aset, max_def, min_def]
  have hlp : local_pressure_prob [[Cell.unknown]] [] ⟨0, 0⟩ = none := by decide
  have hs3 : step_blend [[Cell.unknown]] [] [⟨0, 0⟩] [] (3 : ℚ)
      [(⟨0, 0⟩, (1 : ℚ))] = [(⟨0, 0⟩, (1 : ℚ))] := by
    norm_num [step_blend, hlp, agetD, aget, aset]
  have habs : |(1 : ℚ) - 3| = 2 := by
    rw [abs_of_nonpos (by norm_num)]; norm_num
  have hs4 : step_calibrate true (some 3) [⟨0, 0⟩] [] (3 : ℚ)
      [(⟨0, 0⟩, (1 : ℚ))] = [(⟨0, 0⟩, (1 : ℚ))] := by
    norm_num [step_calibrate, agetD, aget, aset, max_def, habs]
  have hfinal : compute_cell_probs [[Cell.unknown]] [] (some 3) 18 50 true =
      [(⟨0, 0⟩, 1)] := by
    rw [compute_cell_probs]
    rw [hu]
    norm_num [mines_remaining_q, p0_fallback_q, max_def, hc, hs1, hs2, hs3,
      hs4]
  refine ⟨hfinal, ?_, ?_⟩
  · rw [hu, hfinal]
    norm_num [agetD, aget]
  · rw [habs]
    norm_num [max_def]

/-! ## Claim C5: the action precedence of `choose_action` -/

theorem risk_bucket_ne (cands : List (Pos × ℚ)) (h : cands ≠ []) :
    risk_bucket cands ≠ [] := by
  rw [risk_bucket]
  intro hmap
  rw [List.map_eq_nil] at hmap
  have hmem := listMin_mem (cands.map (·.2)) (by simpa using h)
  rcases List.mem_map.mp hmem with ⟨kv, hkv, hkv2⟩
  have hin : kv ∈ cands.filter fun kv =>
      |kv.2 - listMin (cands.map (·.2))| ≤ EPS := by
    rw [List.mem_filter]
    refine ⟨hkv, ?_⟩
    simp only [hkv2, sub_self, abs_zero, decide_eq_true_eq]
    rw [EPS]
    norm_num
  rw [hmap] at hin
  simp at hin

/-- `pick_min_risk` returns a cell whenever an unknown, non-forbidden cell
exists on the board. -/
theorem pick_some_of_unknown (g : Grid) (moves mines : List Pos)
    (mve msol : Nat) (tm : Option Nat) (u0 : Pos)
    (hmem : u0 ∈ allPositions (n_row g) (n_col g))
    (hunk : kAt g u0 = Cell.unknown) (hm : u0 ∉ mines) (hmv : u0 ∉ moves) :
    ∃ p, pick_min_risk g moves mines mve msol tm = some p := by
  rw [pick_min_risk]
  split
  · have hex : ∃ x ∈ allPositions (n_row g) (n_col g),
        (fun p => decide (kAt g p = Cell.unknown ∧ ¬(p ∈ moves ∨ p ∈ mines)))
          x = true :=
      ⟨u0, hmem, by simp [hunk, hm, hmv]⟩
    have hsome := List.find?_isSome.mpr hex
    rcases hf : (allPositions (n_row g) (n_col g)).find? fun p =>
        kAt g p = Cell.unknown ∧ ¬(p ∈ moves ∨ p ∈ mines) with _ | p
    · rw [hf] at hsome; simp at hsome
    · exact ⟨p, rfl⟩
  · next hc =>
    have hb := risk_bucket_ne _ hc
    obtain ⟨c, l1, l2, hpick, _, _, _⟩ := argmax_first_spec (info_score g) _ hb
    exact ⟨c, hpick⟩

/-- Claim C5: after the inference pass, `choose_action` follows the
precedence flag-all-provable-mines, then reveal-all-provable-safes, then
reveal the `pick_min_risk` cell (which exists whenever an unknown
non-forbidden cell remains), and returns no action exactly when none of the
three applies.  The dimension hypothesis is the agent's representation
invariant (`knowledge` is an `n_row × n_col` grid). -/
theorem C5_action_precedence (s : AgentSt)
    (hdim : n_row (infer_safe_and_mines s).knowledge =
        (infer_safe_and_mines s).n_row ∧
      n_col (infer_safe_and_mines s).knowledge =
        (infer_safe_and_mines s).n_col) :
    (unflagged_mines (infer_safe_and_mines s) ≠ [] →
      (choose_action s).2 = some (AgentAction.flag_all
        (unflagged_mines (infer_safe_and_mines s)))) ∧
    (unflagged_mines (infer_safe_and_mines s) = [] →
      available_safe (infer_safe_and_mines s) ≠ [] →
      (choose_action s).2 = some (AgentAction.reveal_all_safe
        (available_safe (infer_safe_and_mines s)))) ∧
    (unflagged_mines (infer_safe_and_mines s) = [] →
      available_safe (infer_safe_and_mines s) = [] →
      agent_unknown (infer_safe_and_mines s) ≠ [] →
      ∃ p, pick_min_risk (infer_safe_and_mines s).knowledge
          (infer_safe_and_mines s).moves_made
          (infer_safe_and_mines s).mine_cells 18 200000
          (infer_safe_and_mines s).total_mines = some p ∧
        (choose_action s).2 = some (AgentAction.reveal p)) ∧
    ((choose_action s).2 = none ↔
      unflagged_mines (infer_safe_and_mines s) = [] ∧
      available_safe (infer_safe_and_mines s) = [] ∧
      agent_unknown (infer_safe_and_mines s) = []) := by
  obtain ⟨hdr, hdc⟩ := hdim
  simp only [choose_action]
  generalize ht : infer_safe_and_mines s = t at hdr hdc ⊢
  refine ⟨?_, ?_, ?_, ?_⟩
  · intro hum
    rw [if_pos hum]
  · intro hum hav
    rw [if_neg (not_not_intro hum), if_pos hav]
  · intro hum hav hunk
    rcases hu : agent_unknown t with _ | ⟨u0, rest⟩
    · exact absurd hu hunk
    · have hmemu : u0 ∈ agent_unknown t := by
        rw [hu]; exact List.mem_cons_self _ _
      rw [agent_unknown, List.mem_filter] at hmemu
      obtain ⟨hmem, hprops⟩ := hmemu
      simp only [decide_eq_true_eq] at hprops
      obtain ⟨h1, h2, h3⟩ := hprops
      obtain ⟨p, hp⟩ := pick_some_of_unknown t.knowledge t.moves_made
        t.mine_cells 18 200000 t.total_mines u0
        (by rw [hdr, hdc]; exact hmem) h1 h2 h3
      refine ⟨p, hp, ?_⟩
      rw [if_neg (not_not_intro hum), if_neg (not_not_intro hav)]
      dsimp only
      rw [hp]
  · constructor
    · intro hnone
      by_cases hum : unflagged_mines t = []
      · by_cases hav : available_safe t = []
        · rcases hu : agent_unknown t with _ | ⟨u0, rest⟩
          · exact ⟨hum, hav, rfl⟩
          · exfalso
            rw [if_neg (not_not_intro hum), if_neg (not_not_intro hav), hu]
              at hnone
            dsimp only at hnone
            rcases hp : pick_min_risk t.knowledge t.moves_made t.mine_cells
                18 200000 t.total_mines with _ | p
            · rw [hp] at hnone; simp at hnone
            · rw [hp] at hnone; simp at hnone
        · rw [if_neg (not_not_intro hum), if_pos hav] at hnone
          simp at hnone
      · rw [if_pos hum] at hnone
        simp at hnone
    · rintro ⟨hum, hav, hu⟩
      rw [if_neg (not_not_intro hum), if_neg (not_not_intro hav), hu]

/-- A concrete two-cell agent state for the C5 witness: the revealed `1` at
`(0,0)` and an untouched unknown at `(0,1)`. -/
def c5state : AgentSt :=
  { n_row := 1, n_col := 2,
    knowledge := [[Cell.num 1, Cell.unknown]],
    moves_made := [⟨0, 0⟩], safe_cells := [], mine_cells := [],
    total_mines := some 1, to_flag := some 1, constraints := [],
    Domains := [(⟨0, 0⟩, [0, 1]), (⟨0, 1⟩, [0, 1])], pruned := 0 }

/-- Witness for C5 at `c5state`. -/
theorem C5_witness :
    (unflagged_mines (infer_safe_and_mines c5state) ≠ [] →
      (choose_action c5state).2 = some (AgentAction.flag_all
        (unflagged_mines (infer_safe_and_mines c5state)))) ∧
    (unflagged_mines (infer_safe_and_mines c5state) = [] →
      available_safe (infer_safe_and_mines c5state) ≠ [] →
      (choose_action c5state).2 = some (AgentAction.reveal_all_safe
        (available_safe (infer_safe_and_mines c5state)))) ∧
    (unflagged_mines (infer_safe_and_mines c5state) = [] →
      available_safe (infer_safe_and_mines c5state) = [] →
      agent_unknown (infer_safe_and_mines c5state) ≠ [] →
      ∃ p, pick_min_risk (infer_safe_and_mines c5state).knowledge
          (infer_safe_and_mines c5state).moves_made
          (infer_safe_and_mines c5state).mine_cells 18 200000
          (infer_safe_and_mines c5state).total_mines = some p ∧
        (choose_action c5state).2 = some (AgentAction.reveal p)) ∧
    ((choose_action c5state).2 = none ↔
      unflagged_mines (infer_safe_and_mines c5state) = [] ∧
      available_safe (infer_safe_and_mines c5state) = [] ∧
      agent_unknown (infer_safe_and_mines c5state) = []) :=
  C5_action_precedence c5state ⟨by decide, by decide⟩

/-! ## Claim C6: the tie-break of `pick_min_risk` -/

/-- Claim C6, amended: when candidates exist, `pick_min_risk` selects from
the bucket of candidates within `EPS = 10^-12` of the minimal probability
the cell with the largest unknown-neighbor count; among equal scores it
picks the one *first in the probability-map (insertion) order* of the
bucket — not the row-major-first one, see `C6_counterexample`. -/
theorem C6_tie_break (g : Grid) (moves mines : List Pos) (mve msol : Nat)
    (tm : Option Nat)
    (hc : risk_candidates g moves mines
        (compute_cell_probs g mines tm mve msol true) ≠ []) :
    ∃ c l1 l2,
      pick_min_risk g moves mines mve msol tm = some c ∧
      risk_bucket (risk_candidates g moves mines
          (compute_cell_probs g mines tm mve msol true)) = l1 ++ c :: l2 ∧
      (∀ y ∈ l1, info_score g y < info_score g c) ∧
      (∀ y ∈ risk_bucket (risk_candidates g moves mines
          (compute_cell_probs g mines tm mve msol true)),
        info_score g y ≤ info_score g c) := by
  rw [pick_min_risk]
  rw [if_neg hc]
  obtain ⟨c, l1, l2, h1, h2, h3, h4⟩ :=
    argmax_first_spec (info_score g) _ (risk_bucket_ne _ hc)
  exact ⟨c, l1, l2, h1, h2, h3, h4⟩

/-- The probability map of the one-cell board used by the C6 witness. -/
theorem c6wprobs :
    compute_cell_probs [[Cell.unknown]] [] none 18 50 true =
      [(⟨0, 0⟩, 1/2)] := by
  have hu : unknown_cells [[Cell.unknown]] [] = [⟨0, 0⟩] := by decide
  have hc : frontier_components [[Cell.unknown]] [] = [] := by decide
  have hs1 : step1_exact [] (1/2 : ℚ) 18 50 = ([], [], []) := rfl
  have hs2 : step_outside none [⟨0, 0⟩] [] (1/2 : ℚ) [] =
      [(⟨0, 0⟩, (1/2 : ℚ))] := by
    rw [step_outside.eq_def]
    dsimp only
    rw [if_neg (by decide)]
    norm_num [aset]
  have hlp : local_pressure_prob [[Cell.unknown]] [] ⟨0, 0⟩ = none := by decide
  have hs3 : step_blend [[Cell.unknown]] [] [⟨0, 0⟩] [] (1/2 : ℚ)
      [(⟨0, 0⟩, (1/2 : ℚ))] = [(⟨0, 0⟩, (1/2 : ℚ))] := by
    norm_num [step_blend, hlp, agetD, aget, aset]
  have hs4 : step_calibrate true none [⟨0, 0⟩] [] (1/2 : ℚ)
      [(⟨0, 0⟩, (1/2 : ℚ))] = [(⟨0, 0⟩, (1/2 : ℚ))] := rfl
  rw [compute_cell_probs]
  rw [hu]
  norm_num [mines_remaining_q, p0_fallback_q, hc, hs1, hs2, hs3, hs4]

/-- Witness for C6 on the one-cell board. -/
theorem C6_witness :
    risk_candidates [[Cell.unknown]] [] []
        (compute_cell_probs [[Cell.unknown]] [] none 18 50 true) ≠ [] ∧
    ∃ c l1 l2,
      pick_min_risk [[Cell.unknown]] [] [] 18 50 none = some c ∧
      risk_bucket (risk_candidates [[Cell.unknown]] [] []
          (compute_cell_probs [[Cell.unknown]] [] none 18 50 true)) =
        l1 ++ c :: l2 ∧
      (∀ y ∈ l1, info_score [[Cell.unknown]] y <
        info_score [[Cell.unknown]] c) ∧
      (∀ y ∈ risk_bucket (risk_candidates [[Cell.unknown]] [] []
          (compute_cell_probs [[Cell.unknown]] [] none 18 50 true)),
        info_score [[Cell.unknown]] y ≤ info_score [[Cell.unknown]] c) := by
  have h0 : kAt [[Cell.unknown]] ⟨0, 0⟩ = Cell.unknown := by decide
  have hc : risk_candidates [[Cell.unknown]] [] []
      (compute_cell_probs [[Cell.unknown]] [] none 18 50 true) ≠ [] := by
    rw [c6wprobs, risk_candidates]
    norm_num [List.filter_cons, h0]
  exact ⟨hc, C6_tie_break [[Cell.unknown]] [] [] 18 50 none hc⟩

def c6g : Grid :=
  [[Cell.mine, Cell.mine, Cell.mine, Cell.mine, Cell.mine],
   [Cell.mine, Cell.unknown, Cell.mine, Cell.mine, Cell.mine],
   [Cell.mine, Cell.unknown, Cell.mine, Cell.unknown, Cell.mine],
   [Cell.mine, Cell.num 4, Cell.num 2, Cell.mine, Cell.num 3]]

def c6mines : List Pos :=
  [⟨0,0⟩, ⟨0,1⟩, ⟨0,2⟩, ⟨0,3⟩, ⟨0,4⟩,
   ⟨1,0⟩, ⟨1,2⟩, ⟨1,3⟩, ⟨1,4⟩,
   ⟨2,0⟩, ⟨2,2⟩, ⟨2,4⟩,
   ⟨3,0⟩, ⟨3,3⟩]

def c6M2 : List (Pos × ℚ) :=
  [(⟨2,1⟩, 1/2), (⟨2,3⟩, 1/2), (⟨1,1⟩, 1/2)]

set_option maxHeartbeats 1600000 in
theorem c6probs :
    compute_cell_probs c6g c6mines none 18 5000 true = c6M2 := by
  have hu : unknown_cells c6g c6mines = [⟨1,1⟩, ⟨2,1⟩, ⟨2,3⟩] := by decide
  have hc : frontier_components c6g c6mines =
      [([⟨2,1⟩, ⟨2,3⟩],
        [⟨[⟨2,1⟩], 1⟩, ⟨[⟨2,1⟩, ⟨2,3⟩], 0⟩, ⟨[⟨2,3⟩], 1⟩])] := by decide
  have he : enum_run [⟨2,1⟩, ⟨2,3⟩]
      [⟨[⟨2,1⟩], 1⟩, ⟨[⟨2,1⟩, ⟨2,3⟩], 0⟩, ⟨[⟨2,3⟩], 1⟩] 5000 = none := by decide
  have hs1 : step1_exact
      [([⟨2,1⟩, ⟨2,3⟩],
        [⟨[⟨2,1⟩], 1⟩, ⟨[⟨2,1⟩, ⟨2,3⟩], 0⟩, ⟨[⟨2,3⟩], 1⟩])] (1/2) 18 5000 =
      ([(⟨2,1⟩, (1/2 : ℚ)), (⟨2,3⟩, (1/2 : ℚ))], [⟨2,1⟩, ⟨2,3⟩], []) := by
    norm_num [step1_exact, he, aset, aget]
    exact fun h => absurd h (by simp)
  have hs2 : step_outside none [⟨1,1⟩, ⟨2,1⟩, ⟨2,3⟩] [⟨2,1⟩, ⟨2,3⟩] (1/2)
      [(⟨2,1⟩, (1/2 : ℚ)), (⟨2,3⟩, (1/2 : ℚ))] = c6M2 := by
    have hd : ([⟨2,1⟩, ⟨2,3⟩] : List Pos).dedup = [⟨2,1⟩, ⟨2,3⟩] := by decide
    have hof : ([⟨1,1⟩, ⟨2,1⟩, ⟨2,3⟩] : List Pos).filter
        (· ∉ ([⟨2,1⟩, ⟨2,3⟩] : List Pos)) = [⟨1,1⟩] := by decide
    rw [step_outside.eq_def]
    dsimp only
    rw [hd, hof]
    rw [if_neg (by simp)]
    norm_num [aset, aget, c6M2]
  have hn21 : neighbors8 (n_row c6g) (n_col c6g) ⟨2,1⟩ =
      [⟨1,0⟩, ⟨1,1⟩, ⟨1,2⟩, ⟨2,0⟩, ⟨2,2⟩, ⟨3,0⟩, ⟨3,1⟩, ⟨3,2⟩] := by decide
  have hn23 : neighbors8 (n_row c6g) (n_col c6g) ⟨2,3⟩ =
      [⟨1,2⟩, ⟨1,3⟩, ⟨1,4⟩, ⟨2,2⟩, ⟨2,4⟩, ⟨3,2⟩, ⟨3,3⟩, ⟨3,4⟩] := by decide
  have hk10 : kAt c6g ⟨1,0⟩ = Cell.mine := by decide
  have hk11 : kAt c6g ⟨1,1⟩ = Cell.unknown := by decide
  have hk12 : kAt c6g ⟨1,2⟩ = Cell.mine := by decide
  have hk13 : kAt c6g ⟨1,3⟩ = Cell.mine := by decide
  have hk14 : kAt c6g ⟨1,4⟩ = Cell.mine := by decide
  have hk20 : kAt c6g ⟨2,0⟩ = Cell.mine := by decide
  have hk22 : kAt c6g ⟨2,2⟩ = Cell.mine := by decide
  have hk24 : kAt c6g ⟨2,4⟩ = Cell.mine := by decide
  have hk30 : kAt c6g ⟨3,0⟩ = Cell.mine := by decide
  have hk31 : kAt c6g ⟨3,1⟩ = Cell.num 4 := by decide
  have hk32 : kAt c6g ⟨3,2⟩ = Cell.num 2 := by decide
  have hk33 : kAt c6g ⟨3,3⟩ = Cell.mine := by decide
  have hk34 : kAt c6g ⟨3,4⟩ = Cell.num 3 := by decide
  have hkm31 : ((neighbors8 (n_row c6g) (n_col c6g) ⟨3,1⟩).filter
      (· ∈ c6mines)).length = 3 := by decide
  have hkm32 : ((neighbors8 (n_row c6g) (n_col c6g) ⟨3,2⟩).filter
      (· ∈ c6mines)).length = 2 := by decide
  have hkm34 : ((neighbors8 (n_row c6g) (n_col c6g) ⟨3,4⟩).filter
      (· ∈ c6mines)).length = 2 := by decide
  have hun31 : (neighbors8 (n_row c6g) (n_col c6g) ⟨3,1⟩).filter
      (fun w => kAt c6g w = Cell.unknown ∧ w ∉ c6mines) = [⟨2,1⟩] := by decide
  have hun32 : (neighbors8 (n_row c6g) (n_col c6g) ⟨3,2⟩).filter
      (fun w => kAt c6g w = Cell.unknown ∧ w ∉ c6mines) =
      [⟨2,1⟩, ⟨2,3⟩] := by decide
  have hun34 : (neighbors8 (n_row c6g) (n_col c6g) ⟨3,4⟩).filter
      (fun w => kAt c6g w = Cell.unknown ∧ w ∉ c6mines) = [⟨2,3⟩] := by decide
  have hlpa : local_pressure_prob c6g c6mines ⟨2,1⟩ = some (1/2) := by
    rw [local_pressure_prob]
    dsimp only
    rw [hn21]
    simp only [List.filterMap_cons, List.filterMap_nil, hk10, hk11, hk12,
      hk20, hk22, hk30, hk31, hk32]
    rw [hkm31, hun31, hkm32, hun32]
    norm_num [max_def]
    exact fun h => absurd h (by simp)
  have hlpb : local_pressure_prob c6g c6mines ⟨2,3⟩ = some (1/2) := by
    rw [local_pressure_prob]
    dsimp only
    rw [hn23]
    simp only [List.filterMap_cons, List.filterMap_nil, hk12, hk13, hk14,
      hk22, hk24, hk32, hk33, hk34]
    rw [hkm32, hun32, hkm34, hun34]
    norm_num [max_def]
    exact fun h => absurd h (by simp)
  have hlp11 : local_pressure_prob c6g c6mines ⟨1,1⟩ = none := by decide
  have hs3 : step_blend c6g c6mines [⟨1,1⟩, ⟨2,1⟩, ⟨2,3⟩] [] (1/2) c6M2 =
      c6M2 := by
    norm_num [step_blend, c6M2, agetD, aget, aset, ALPHA, hlpa, hlpb, hlp11]
  have hs4 : step_calibrate true none [⟨1,1⟩, ⟨2,1⟩, ⟨2,3⟩] [] (1/2) c6M2 =
      c6M2 := rfl
  rw [compute_cell_probs]
  rw [hu]
  norm_num [mines_remaining_q, p0_fallback_q, hc, hs1, hs2, hs3, hs4]
  exact fun h => absurd h (by simp)

theorem c6cands :
    risk_candidates c6g [] c6mines c6M2 = c6M2 := by
  have h1 : (⟨2,1⟩ : Pos) ∉ c6mines ∧ kAt c6g ⟨2,1⟩ = Cell.unknown := by decide
  have h2 : (⟨2,3⟩ : Pos) ∉ c6mines ∧ kAt c6g ⟨2,3⟩ = Cell.unknown := by decide
  have h3 : (⟨1,1⟩ : Pos) ∉ c6mines ∧ kAt c6g ⟨1,1⟩ = Cell.unknown := by decide
  rw [risk_candidates, c6M2]
  norm_num [List.filter_cons, h1.1, h1.2, h2.1, h2.2, h3.1, h3.2]

theorem c6bucket : risk_bucket c6M2 = [⟨2,1⟩, ⟨2,3⟩, ⟨1,1⟩] := by
  rw [risk_bucket, c6M2]
  norm_num [listMin, EPS, List.filter_cons]

theorem c6pick_eq : pick_min_risk c6g [] c6mines 18 5000 none = some ⟨2,1⟩ := by
  rw [pick_min_risk]
  rw [c6probs, c6cands]
  rw [if_neg (by rw [c6M2]; simp)]
  rw [c6bucket]
  decide

/-- Counterexample to the original C6: on `c6g` every candidate has
probability `1/2`, the bucket in probability-map order is
`[(2,1), (2,3), (1,1)]`, the cells `(1,1)` and `(2,1)` tie on probability
and on informativeness (`info_score = 1`), yet `pick_min_risk` returns
`(2,1)` although `(1,1)` is strictly earlier in row-major order. -/
theorem C6_counterexample :
    pick_min_risk c6g [] c6mines 18 5000 none = some ⟨2, 1⟩ ∧
    (⟨1, 1⟩ : Pos) ∈ risk_bucket (risk_candidates c6g [] c6mines
      (compute_cell_probs c6g c6mines none 18 5000 true)) ∧
    aget (compute_cell_probs c6g c6mines none 18 5000 true) ⟨1, 1⟩ =
      aget (compute_cell_probs c6g c6mines none 18 5000 true) ⟨2, 1⟩ ∧
    info_score c6g ⟨1, 1⟩ = info_score c6g ⟨2, 1⟩ ∧
    posLe ⟨1, 1⟩ ⟨2, 1⟩ ∧ (⟨1, 1⟩ : Pos) ≠ ⟨2, 1⟩ := by
  refine ⟨c6pick_eq, ?_, ?_, by decide, by decide, by decide⟩
  · rw [c6probs, c6cands, c6bucket]
    simp
  · rw [c6probs]
    norm_num [c6M2, aget]

/-! ## Claim C3: fallback for oversized and failed components -/

theorem mem_sortedPos (l : List Pos) (x : Pos) :
    x ∈ sortedPos l ↔ x ∈ l := by
  rw [sortedPos]
  rw [(List.perm_insertionSort posLe l.dedup).mem_iff]
  exact List.mem_dedup

/-- The BFS growth relation: the visited set only grows, and the component
collects exactly the newly visited vertices. -/
def bfsRel (comp vis comp' vis' : List Pos) : Prop :=
  (∀ x ∈ vis, x ∈ vis') ∧
  (∀ x, x ∈ comp' ↔ x ∈ comp ∨ (x ∈ vis' ∧ x ∉ vis))

theorem bfsRel_refl (comp vis : List Pos) : bfsRel comp vis comp vis := by
  refine ⟨fun x h => h, fun x => ?_⟩
  constructor
  · intro h; exact Or.inl h
  · rintro (h | ⟨h1, h2⟩)
    · exact h
    · exact absurd h1 h2

theorem bfsRel_trans {c1 v1 c2 v2 c3 v3 : List Pos}
    (h12 : bfsRel c1 v1 c2 v2) (h23 : bfsRel c2 v2 c3 v3) :
    bfsRel c1 v1 c3 v3 := by
  obtain ⟨m12, e12⟩ := h12
  obtain ⟨m23, e23⟩ := h23
  refine ⟨fun x h => m23 x (m12 x h), fun x => ?_⟩
  rw [e23, e12]
  constructor
  · rintro ((h | ⟨h1, h2⟩) | ⟨h1, h2⟩)
    · exact Or.inl h
    · exact Or.inr ⟨m23 x h1, h2⟩
    · exact Or.inr ⟨h1, fun hx => h2 (m12 x hx)⟩
  · rintro (h | ⟨h1, h2⟩)
    · exact Or.inl (Or.inl h)
    · by_cases hv2 : x ∈ v2
      · exact Or.inl (Or.inr ⟨hv2, h2⟩)
      · exact Or.inr ⟨h1, hv2⟩

theorem bfsPush_rel (cs : List Cst) (u : Pos)
    (st : List Pos × List Pos × List Pos) :
    bfsRel st.2.1 st.2.2 (bfsPush cs u st).2.1 (bfsPush cs u st).2.2 := by
  rw [bfsPush]
  refine foldl_inv (fun st' : List Pos × List Pos × List Pos =>
    bfsRel st.2.1 st.2.2 st'.2.1 st'.2.2) _ _ _ (bfsRel_refl _ _) ?_
  intro s w _ hs
  rcases s with ⟨q, comp, vis⟩
  dsimp only
  split
  · exact hs
  · next hw =>
    refine bfsRel_trans hs ⟨?_, ?_⟩
    · intro x hx
      exact List.mem_append.mpr (Or.inl hx)
    · intro x
      constructor
      · intro hx
        rcases List.mem_append.mp hx with h | h
        · exact Or.inl h
        · simp only [List.mem_singleton] at h
          subst h
          exact Or.inr ⟨List.mem_append.mpr (Or.inr (by simp)), hw⟩
      · rintro (h | ⟨h1, h2⟩)
        · exact List.mem_append.mpr (Or.inl h)
        · rcases List.mem_append.mp h1 with h | h
          · exact absurd h h2
          · exact List.mem_append.mpr (Or.inr h)

theorem bfsRun_rel (cs : List Cst) :
    ∀ (fuel : Nat) (q comp vis : List Pos),
      bfsRel comp vis (bfsRun cs fuel q comp vis).1
        (bfsRun cs fuel q comp vis).2 := by
  intro fuel
  induction fuel with
  | zero => intro q comp vis; exact bfsRel_refl _ _
  | succ n ih =>
      intro q comp vis
      cases q with
      | nil => exact bfsRel_refl _ _
      | cons u q' =>
          rw [bfsRun]
          rcases hp : bfsPush cs u (q', comp, vis) with ⟨qq, cc, vv⟩
          have hrel := bfsPush_rel cs u (q', comp, vis)
          rw [hp] at hrel
          exact bfsRel_trans hrel (ih qq cc vv)

theorem connected_components_disjoint (cs : List Cst) :
    (connected_components cs).Pairwise (fun a b => ∀ x ∈ a.1, x ∉ b.1) := by
  rw [connected_components]
  have h := foldl_inv (fun acc : List (List Pos × List Cst) × List Pos =>
      (∀ C ∈ acc.1, ∀ x ∈ C.1, x ∈ acc.2) ∧
      acc.1.Pairwise (fun a b => ∀ x ∈ a.1, x ∉ b.1))
    (fun acc v =>
      if v ∈ acc.2 then acc
      else
        let r := bfsRun cs (((cs.map (·.vars)).flatten).length + 1) [v] [v]
          (acc.2 ++ [v])
        (acc.1 ++ [(r.1, compCons cs r.1)], r.2))
    (allVars cs) ([], [])
    ⟨by intro C hC; simp at hC, List.Pairwise.nil⟩
    ?_
  · exact h.2
  · intro acc v _ hacc
    dsimp only
    split
    · exact hacc
    · next hv =>
      have hrel := bfsRun_rel cs (((cs.map (·.vars)).flatten).length + 1)
        [v] [v] (acc.2 ++ [v])
      obtain ⟨hmono, hiff⟩ := hrel
      constructor
      · intro C hC x hx
        rcases List.mem_append.mp hC with h1 | h1
        · exact hmono x (List.mem_append.mpr (Or.inl (hacc.1 C h1 x hx)))
        · simp only [List.mem_singleton] at h1
          subst h1
          rcases (hiff x).mp hx with h2 | ⟨h2, _⟩
          · simp only [List.mem_singleton] at h2
            subst h2
            exact hmono x (List.mem_append.mpr (Or.inr (by simp)))
          · exact h2
      · rw [List.pairwise_append]
        refine ⟨hacc.2, by simp, ?_⟩
        intro a ha b hb
        simp only [List.mem_singleton] at hb
        subst hb
        intro x hx hxcomp
        have hx2 : x ∈ acc.2 := hacc.1 a ha x hx
        rcases (hiff x).mp hxcomp with h1 | ⟨_, h2⟩
        · simp only [List.mem_singleton] at h1
          subst h1
          exact hv hx2
        · exact h2 (List.mem_append.mpr (Or.inl hx2))

theorem frontier_components_disjoint (g : Grid) (mines : List Pos) :
    (frontier_components g mines).Pairwise
      (fun a b => ∀ x ∈ a.1, x ∉ b.1) := by
  rw [frontier_components]
  split
  · exact List.Pairwise.nil
  · exact List.Pairwise.sublist (List.filter_sublist _)
      (connected_components_disjoint _)

theorem foldl_aset_const_get (x : ℚ) :
    ∀ (l : List Pos) (m : List (Pos × ℚ)) (v : Pos),
      (v ∈ l ∨ aget m v = some x) →
      aget (l.foldl (fun m u => aset m u x) m) v = some x := by
  intro l
  induction l with
  | nil =>
      intro m v h
      rcases h with h | h
      · simp at h
      · exact h
  | cons a t ih =>
      intro m v h
      rw [List.foldl]
      rcases h with h | h
      · rcases List.mem_cons.mp h with heq | h1
        · by_cases hv : v ∈ t
          · exact ih _ v (Or.inl hv)
          · exact ih _ v (Or.inr (by rw [heq, aget_aset_self]))
        · exact ih _ v (Or.inl h1)
      · by_cases hav : a = v
        · exact ih _ v (Or.inr (by rw [hav, aget_aset_self]))
        · exact ih _ v (Or.inr (by rw [aget_aset_ne _ _ _ _ hav]; exact h))

theorem foldl_aset_preserve {β : Type} (g : β → Pos)
    (F : List (Pos × ℚ) → β → ℚ) :
    ∀ (l : List β) (m : List (Pos × ℚ)) (v : Pos), (∀ b ∈ l, g b ≠ v) →
      aget (l.foldl (fun acc b => aset acc (g b) (F acc b)) m) v =
        aget m v := by
  intro l
  induction l with
  | nil => intro m v _; rfl
  | cons b t ih =>
      intro m v h
      rw [List.foldl, ih _ v (fun b' hb' => h b' (List.mem_cons_of_mem _ hb')),
        aget_aset_ne _ _ _ _ (h b (List.mem_cons_self _ _))]

theorem step1_preserves (p0 : ℚ) (mve msol : Nat) :
    ∀ (comps : List (List Pos × List Cst))
      (acc : List (Pos × ℚ) × List Pos × List Pos) (v : Pos),
      (∀ c ∈ comps, v ∉ c.1) →
      aget ((comps.foldl
        (fun acc comp =>
          let vs := comp.1
          if vs = [] then acc
          else
            let fv := acc.2.1 ++ vs
            if vs.length ≤ mve then
              match enum_run vs comp.2 msol with
              | some res =>
                  if res.1 > 0 then
                    let marg := enum_marginals vs res
                    (marg.foldl (fun m kv => aset m kv.1 kv.2) acc.1, fv,
                      acc.2.2 ++ marg.map (·.1))
                  else (vs.foldl (fun m v => aset m v p0) acc.1, fv, acc.2.2)
              | none => (vs.foldl (fun m v => aset m v p0) acc.1, fv, acc.2.2)
            else (vs.foldl (fun m v => aset m v p0) acc.1, fv, acc.2.2))
        acc).1) v = aget acc.1 v := by
  intro comps
  induction comps with
  | nil => intro acc v _; rfl
  | cons c rest ih =>
      intro acc v h
      have hc := h c (List.mem_cons_self _ _)
      have hrest := fun c' hc' => h c' (List.mem_cons_of_mem _ hc')
      rw [List.foldl, ih _ v hrest]
      dsimp only
      split
      · rfl
      · split
        · rcases hres : enum_run c.1 c.2 msol with _ | res
          · exact foldl_aset_preserve (fun b => b) (fun _ _ => p0) c.1 acc.1 v
              (fun b hb => fun he => hc (he ▸ hb))
          · dsimp only
            split
            · refine foldl_aset_preserve (fun kv : Pos × ℚ => kv.1)
                (fun _ kv => kv.2) _ acc.1 v ?_
              intro kv hkv he
              rw [enum_marginals] at hkv
              rcases List.mem_map.mp hkv with ⟨w, hw, hwe⟩
              rw [mem_sortedPos] at hw
              apply hc
              rw [← he, ← hwe]
              exact hw
            · exact foldl_aset_preserve (fun b => b) (fun _ _ => p0) c.1 acc.1
                v (fun b hb => fun he => hc (he ▸ hb))
        · exact foldl_aset_preserve (fun b => b) (fun _ _ => p0) c.1 acc.1 v
            (fun b hb => fun he => hc (he ▸ hb))

theorem step1_fallback_aux (p0 : ℚ) (mve msol : Nat) :
    ∀ (comps : List (List Pos × List Cst))
      (acc : List (Pos × ℚ) × List Pos × List Pos)
      (vs : List Pos) (cs : List Cst),
      comps.Pairwise (fun a b => ∀ x ∈ a.1, x ∉ b.1) →
      (vs, cs) ∈ comps →
      (mve < vs.length ∨ enum_run vs cs msol = none) →
      ∀ v ∈ vs, aget ((comps.foldl
        (fun acc comp =>
          let vs := comp.1
          if vs = [] then acc
          else
            let fv := acc.2.1 ++ vs
            if vs.length ≤ mve then
              match enum_run vs comp.2 msol with
              | some res =>
                  if res.1 > 0 then
                    let marg := enum_marginals vs res
                    (marg.foldl (fun m kv => aset m kv.1 kv.2) acc.1, fv,
                      acc.2.2 ++ marg.map (·.1))
                  else (vs.foldl (fun m v => aset m v p0) acc.1, fv, acc.2.2)
              | none => (vs.foldl (fun m v => aset m v p0) acc.1, fv, acc.2.2)
            else (vs.foldl (fun m v => aset m v p0) acc.1, fv, acc.2.2))
        acc).1) v = some p0 := by
  intro comps
  induction comps with
  | nil => intro acc vs cs _ hmem; simp at hmem
  | cons c rest ih =>
      intro acc vs cs hpw hmem hcase v hv
      rcases List.mem_cons.mp hmem with heq | hmem1
      · have hvs : c.1 = vs := by rw [← heq]
        have hcs : c.2 = cs := by rw [← heq]
        rw [List.foldl]
        have hdis : ∀ c' ∈ rest, v ∉ c'.1 := by
          intro c' hc'
          exact (List.pairwise_cons.mp hpw).1 c' hc' v (by rw [hvs]; exact hv)
        rw [step1_preserves p0 mve msol rest _ v hdis]
        dsimp only
        rw [if_neg (by rw [hvs]; intro h; rw [h] at hv; simp at hv)]
        rcases hcase with hbig | hnone
        · rw [if_neg (by rw [hvs]; omega)]
          exact foldl_aset_const_get p0 c.1 acc.1 v (Or.inl (hvs ▸ hv))
        · by_cases hle : c.1.length ≤ mve
          · rw [if_pos hle]
            rw [hvs, hcs, hnone]
            exact foldl_aset_const_get p0 vs acc.1 v (Or.inl hv)
          · rw [if_neg hle]
            exact foldl_aset_const_get p0 c.1 acc.1 v (Or.inl (hvs ▸ hv))
      · rw [List.foldl]
        exact ih _ vs cs (List.pairwise_cons.mp hpw).2 hmem1 hcase v hv

/-- Claim C3, amended: a frontier component that is oversized
(`|vars| > max_vars_exact`) or whose enumeration reports no solutions
(`run()` returns `None`, covering infeasibility and a zero count) has all
its variables set to the fallback prior in the Step-2 map, before the
local-pressure step.  The truncation half of the original claim is false:
`run()` performs no truncation detection, see `C3_counterexample`. -/
theorem C3_fallback_prior (g : Grid) (mines : List Pos) (p0 : ℚ)
    (mve msol : Nat) (vs : List Pos) (cs : List Cst)
    (hmem : (vs, cs) ∈ frontier_components g mines)
    (hcase : mve < vs.length ∨ enum_run vs cs msol = none) :
    ∀ v ∈ vs,
      aget (step1_exact (frontier_components g mines) p0 mve msol).1 v =
        some p0 := by
  rw [step1_exact]
  exact step1_fallback_aux p0 mve msol _ _ vs cs
    (frontier_components_disjoint g mines) hmem hcase

/-- Witness for C3: the two-variable component of `[?, 1, ?]` is oversized
for `max_vars_exact = 1`, so its variables get the fallback prior. -/
theorem C3_witness :
    (([⟨0, 0⟩, ⟨0, 2⟩], [⟨[⟨0, 0⟩, ⟨0, 2⟩], 1⟩]) ∈
      frontier_components [[Cell.unknown, Cell.num 1, Cell.unknown]] []) ∧
    (1 < ([⟨0, 0⟩, ⟨0, 2⟩] : List Pos).length ∨
      enum_run [⟨0, 0⟩, ⟨0, 2⟩] [⟨[⟨0, 0⟩, ⟨0, 2⟩], 1⟩] 5 = none) ∧
    aget (step1_exact (frontier_components
        [[Cell.unknown, Cell.num 1, Cell.unknown]] []) (1/2) 1 5).1 ⟨0, 0⟩ =
      some (1/2) :=
  ⟨by decide, Or.inl (by decide),
    C3_fallback_prior [[Cell.unknown, Cell.num 1, Cell.unknown]] [] (1/2) 1 5
      [⟨0, 0⟩, ⟨0, 2⟩] [⟨[⟨0, 0⟩, ⟨0, 2⟩], 1⟩] (by decide)
      (Or.inl (by decide)) ⟨0, 0⟩ (by decide)⟩

/-- Counterexample to the truncation half of C3: on `[?, 1, ?]` with
`max_solutions = 1` the enumeration is truncated after the first of two
satisfying assignments, yet `run` reports `solution_count = 1 > 0` and
Step 2 uses the truncated counters as exact marginals: `(0,0)` receives
`0/1 = 0`, not the fallback prior `1/2` the claim promises. -/
theorem C3_counterexample :
    enum_run [⟨0, 0⟩, ⟨0, 2⟩] [⟨[⟨0, 0⟩, ⟨0, 2⟩], 1⟩] 1 =
      some (1, [(⟨0, 0⟩, 0), (⟨0, 2⟩, 1)]) ∧
    sat_count [⟨[⟨0, 0⟩, ⟨0, 2⟩], 1⟩] [⟨0, 0⟩, ⟨0, 2⟩] = 2 ∧
    aget (step1_exact (frontier_components
        [[Cell.unknown, Cell.num 1, Cell.unknown]] []) (1/2) 22 1).1 ⟨0, 0⟩ =
      some 0 ∧
    (0 : ℚ) ≠ 1/2 := by
  refine ⟨by decide, by decide, ?_, by norm_num⟩
  have hc : frontier_components [[Cell.unknown, Cell.num 1, Cell.unknown]] [] =
      [([⟨0, 0⟩, ⟨0, 2⟩], [⟨[⟨0, 0⟩, ⟨0, 2⟩], 1⟩])] := by decide
  have he : enum_run [⟨0, 0⟩, ⟨0, 2⟩] [⟨[⟨0, 0⟩, ⟨0, 2⟩], 1⟩] 1 =
      some (1, [(⟨0, 0⟩, 0), (⟨0, 2⟩, 1)]) := by decide
  have hsp : sortedPos [⟨0, 0⟩, ⟨0, 2⟩] = [⟨0, 0⟩, ⟨0, 2⟩] := by decide
  rw [hc]
  norm_num [step1_exact, he, enum_marginals, hsp, aget, agetD, aset]

/-! ## Claim C2: exact marginals for small components -/

theorem vecs_length (n : Nat) : ∀ vec ∈ vecs n, vec.length = n := by
  induction n with
  | zero =>
      intro vec h
      rw [vecs] at h
      simp at h
      rw [h]
      rfl
  | succ m ih =>
      intro vec h
      rw [vecs] at h
      rcases List.mem_append.mp h with h1 | h1 <;>
        · rcases List.mem_map.mp h1 with ⟨w, hw, heq⟩
          rw [← heq]
          simp [ih w hw]

theorem sortedPos_nodup (l : List Pos) : (sortedPos l).Nodup := by
  rw [sortedPos]
  exact ((List.perm_insertionSort posLe l.dedup).nodup_iff).mpr l.nodup_dedup

theorem aget_append_none {α : Type} (a b : List (Pos × α)) (v : Pos)
    (h : aget a v = none) : aget (a ++ b) v = aget b v := by
  induction a with
  | nil => rfl
  | cons kv t ih =>
      rcases kv with ⟨k, x⟩
      by_cases hk : k = v
      · rw [aget, if_pos hk] at h
        cases h
      · rw [aget, if_neg hk] at h
        rw [List.cons_append, aget, if_neg hk]
        exact ih h

theorem aset_of_aget_none {α : Type} :
    ∀ (a : List (Pos × α)) (v : Pos) (x : α), aget a v = none →
      aset a v x = a ++ [(v, x)] := by
  intro a
  induction a with
  | nil => intro v x _; rfl
  | cons kv t ih =>
      intro v x h
      rcases kv with ⟨k, w⟩
      by_cases hk : k = v
      · rw [aget, if_pos hk] at h
        cases h
      · rw [aget, if_neg hk] at h
        rw [aset, if_neg hk, ih v x h]
        rfl

theorem search_simple_correct (cs : List Cst) (maxSol : Nat) :
    ∀ (vars : List Pos) (a : Assign) (st : EnumSt),
      vars.Nodup → (∀ v ∈ vars, aget a v = none) →
      st.sols + ((vecs vars.length).filter
        (fun vec => check_constraints cs (a ++ vars.zip vec))).length ≤
        maxSol →
      search_simple cs maxSol vars a st =
        ⟨st.sols + ((vecs vars.length).filter
          (fun vec => check_constraints cs (a ++ vars.zip vec))).length,
         ((vecs vars.length).filter
           (fun vec => check_constraints cs (a ++ vars.zip vec))).foldl
           (fun m vec => bumpTrue m (a ++ vars.zip vec)) st.counts⟩ := by
  intro vars
  induction vars with
  | nil =>
      intro a st _ _ _
      rcases st with ⟨s, c⟩
      rw [search_simple]
      by_cases hchk : check_constraints cs a = true
      · rw [if_pos hchk]
        have hf : (vecs ([] : List Pos).length).filter
            (fun vec => check_constraints cs
              (a ++ ([] : List Pos).zip vec)) = [[]] := by
          show List.filter _ [[]] = [[]]
          simp [List.filter_cons, hchk]
        rw [hf]
        simp
      · rw [if_neg hchk]
        have hf : (vecs ([] : List Pos).length).filter
            (fun vec => check_constraints cs
              (a ++ ([] : List Pos).zip vec)) = [] := by
          show List.filter _ [[]] = []
          simp [List.filter_cons, hchk]
        rw [hf]
        simp
  | cons v rest ih =>
      intro a st hnd hfree hbound
      obtain ⟨hvnotin, hndrest⟩ := List.nodup_cons.mp hnd
      have ha0 : aset a v 0 = a ++ [(v, 0)] :=
        aset_of_aget_none a v 0 (hfree v (List.mem_cons_self _ _))
      have ha1 : aset a v 1 = a ++ [(v, 1)] :=
        aset_of_aget_none a v 1 (hfree v (List.mem_cons_self _ _))
      have hfree0 : ∀ x : Nat, ∀ w ∈ rest, aget (a ++ [(v, x)]) w = none := by
        intro x w hw
        rw [aget_append_none _ _ _ (hfree w (List.mem_cons_of_mem _ hw))]
        rw [aget, if_neg (fun h => hvnotin (by rw [h]; exact hw))]
        rfl
      have hsplit : (vecs (v :: rest).length).filter
          (fun vec => check_constraints cs (a ++ (v :: rest).zip vec)) =
          ((vecs rest.length).filter (fun vec =>
            check_constraints cs (a ++ (v, 0) :: rest.zip vec))).map
            (0 :: ·) ++
          ((vecs rest.length).filter (fun vec =>
            check_constraints cs (a ++ (v, 1) :: rest.zip vec))).map
            (1 :: ·) := by
        rw [List.length_cons, vecs, List.filter_append, List.filter_map,
          List.filter_map]
        simp only [Function.comp_def, List.zip_cons_cons]
      rw [search_simple, hsplit]
      by_cases hcut : st.sols ≥ maxSol
      · rw [if_pos hcut]
        have hzero : (((vecs rest.length).filter (fun vec =>
            check_constraints cs (a ++ (v, 0) :: rest.zip vec))).map
            ((0 : Nat) :: ·) ++
            ((vecs rest.length).filter (fun vec =>
            check_constraints cs (a ++ (v, 1) :: rest.zip vec))).map
            ((1 : Nat) :: ·)).length = 0 := by
          rw [← hsplit]
          omega
        rw [List.length_eq_zero] at hzero
        rw [hzero]
        rcases st with ⟨s, c⟩
        simp
      · rw [if_neg hcut]
        dsimp only
        have hb0 : st.sols + ((vecs rest.length).filter (fun vec =>
            check_constraints cs (a ++ (v, 0) :: rest.zip vec))).length ≤
            maxSol := by
          have h2 := hbound
          rw [hsplit] at h2
          rw [List.length_append, List.length_map, List.length_map] at h2
          omega
        have e0 := ih (a ++ [(v, 0)]) st hndrest (hfree0 0)
          (by simp only [List.append_assoc, List.singleton_append]
              exact hb0)
        simp only [List.append_assoc, List.singleton_append] at e0
        rw [ha0, e0]
        have hb1 : (st.sols + ((vecs rest.length).filter (fun vec =>
            check_constraints cs (a ++ (v, 0) :: rest.zip vec))).length) +
            ((vecs rest.length).filter (fun vec =>
            check_constraints cs (a ++ (v, 1) :: rest.zip vec))).length ≤
            maxSol := by
          have h2 := hbound
          rw [hsplit] at h2
          rw [List.length_append, List.length_map, List.length_map] at h2
          omega
        have e1 := ih (a ++ [(v, 1)])
          ⟨st.sols + ((vecs rest.length).filter (fun vec =>
            check_constraints cs (a ++ (v, 0) :: rest.zip vec))).length,
           ((vecs rest.length).filter (fun vec =>
             check_constraints cs (a ++ (v, 0) :: rest.zip vec))).foldl
             (fun m vec => bumpTrue m (a ++ (v, 0) :: rest.zip vec))
             st.counts⟩
          hndrest (hfree0 1)
          (by simp only [List.append_assoc, List.singleton_append]
              exact hb1)
        simp only [List.append_assoc, List.singleton_append] at e1
        rw [ha1, e1]
        rw [List.length_append, List.length_map, List.length_map,
          List.foldl_append, List.foldl_map, List.foldl_map]
        refine congrArg₂ EnumSt.mk (by omega) ?_
        simp only [List.zip_cons_cons]

theorem abump_get (p q : Pos) :
    ∀ m : List (Pos × Nat),
      aget (abump m p) q =
        if q = p then (aget m q).map (· + 1) else aget m q := by
  intro m
  induction m with
  | nil =>
      show (none : Option Nat) = if q = p then Option.map _ none else none
      split <;> rfl
  | cons kv t ih =>
      rcases kv with ⟨k, w⟩
      rw [show abump ((k, w) :: t) p =
        (if k = p then (k, w + 1) else (k, w)) :: abump t p from rfl]
      by_cases hkp : k = p
      · rw [if_pos hkp]
        by_cases hqk : k = q
        · rw [aget, if_pos hqk, aget, if_pos hqk,
            if_pos (show q = p by rw [← hqk]; exact hkp)]
          rfl
        · rw [aget, if_neg hqk, aget, if_neg hqk, ih]
      · rw [if_neg hkp]
        by_cases hqk : k = q
        · rw [aget, if_pos hqk, aget, if_pos hqk,
            if_neg (fun h => hkp (by rw [hqk]; exact h))]
        · rw [aget, if_neg hqk, aget, if_neg hqk, ih]

theorem bumpTrue_preserve (v : Pos) :
    ∀ (a : Assign) (m : List (Pos × Nat)), (∀ kv ∈ a, kv.1 ≠ v) →
      aget (bumpTrue m a) v = aget m v := by
  intro a
  induction a with
  | nil => intro m _; rfl
  | cons kv t ih =>
      intro m h
      have step : bumpTrue m (kv :: t) =
          bumpTrue (if kv.2 = 1 then abump m kv.1 else m) t := rfl
      rw [step]
      rw [ih _ (fun kv' h' => h kv' (List.mem_cons_of_mem _ h'))]
      split
      · rw [abump_get]
        rw [if_neg (fun he => (h kv (List.mem_cons_self _ _)) he.symm)]
      · rfl

theorem bumpTrue_get (v : Pos) :
    ∀ (a : Assign) (m : List (Pos × Nat)), keysNodup a →
      aget (bumpTrue m a) v =
        if agetD a v 0 = 1 then (aget m v).map (· + 1) else aget m v := by
  intro a
  induction a with
  | nil =>
      intro m _
      rw [show agetD ([] : Assign) v 0 = 0 from rfl]
      rw [if_neg (by norm_num)]
      rfl
  | cons kv t ih =>
      intro m hnd
      rcases kv with ⟨k, w⟩
      have step : bumpTrue m ((k, w) :: t) =
          bumpTrue (if w = 1 then abump m k else m) t := rfl
      rw [step]
      have hnd' : (k :: akeys t).Nodup := hnd
      by_cases hkv : k = v
      · subst hkv
        have htv : ∀ kv' ∈ t, kv'.1 ≠ k := by
          intro kv' h' he
          exact (List.nodup_cons.mp hnd').1
            (he ▸ List.mem_map.mpr ⟨kv', h', rfl⟩)
        rw [bumpTrue_preserve k t _ htv]
        have hg : agetD ((k, w) :: t) k 0 = w := by
          rw [agetD, aget, if_pos rfl]
          rfl
        rw [hg]
        by_cases hw : w = 1
        · rw [if_pos hw, if_pos hw, abump_get, if_pos rfl]
        · rw [if_neg hw, if_neg hw]
      · have hg : agetD ((k, w) :: t) v 0 = agetD t v 0 := by
          rw [agetD, aget, if_neg hkv]
          rfl
        rw [hg]
        rw [ih _ (List.nodup_cons.mp hnd').2]
        split
        · split
          · rw [abump_get, if_neg (fun he => hkv he.symm)]
          · rfl
        · split
          · rw [abump_get, if_neg (fun he => hkv he.symm)]
          · rfl

theorem counts_fold_get (v : Pos) :
    ∀ (exts : List Assign), (∀ a ∈ exts, keysNodup a) →
      ∀ (m : List (Pos × Nat)) (c : Nat), aget m v = some c →
        aget (exts.foldl (fun m a => bumpTrue m a) m) v =
          some (c + (exts.filter (fun a => agetD a v 0 = 1)).length) := by
  intro exts
  induction exts with
  | nil =>
      intro _ m c hm
      rw [List.foldl, List.filter_nil, List.length_nil, hm]
      rfl
  | cons a t ih =>
      intro hnd m c hm
      rw [List.foldl, List.filter_cons]
      have hb := bumpTrue_get v a m (hnd a (List.mem_cons_self _ _))
      by_cases ha : agetD a v 0 = 1
      · rw [if_pos ha] at hb
        rw [if_pos (by simpa using ha)]
        have : aget (bumpTrue m a) v = some (c + 1) := by
          rw [hb, hm]
          rfl
        rw [ih (fun a' h' => hnd a' (List.mem_cons_of_mem _ h')) _ _ this]
        rw [List.length_cons]
        congr 1
        omega
      · rw [if_neg ha] at hb
        rw [if_neg (by simpa using ha)]
        exact ih (fun a' h' => hnd a' (List.mem_cons_of_mem _ h')) _ c
          (by rw [hb]; exact hm)

theorem akeys_zip : ∀ (vars : List Pos) (vec : List Nat),
    vars.length = vec.length → akeys (vars.zip vec) = vars := by
  intro vars
  induction vars with
  | nil => intro vec _; rfl
  | cons v rest ih =>
      intro vec hlen
      cases vec with
      | nil => simp at hlen
      | cons b t =>
          rw [List.zip_cons_cons]
          show v :: akeys (rest.zip t) = v :: rest
          rw [ih t (by simpa using hlen)]

theorem aget_map_zero : ∀ (vars : List Pos) (v : Pos), v ∈ vars →
    aget (vars.map fun w => (w, (0 : Nat))) v = some 0 := by
  intro vars
  induction vars with
  | nil => intro v h; simp at h
  | cons w rest ih =>
      intro v h
      rw [List.map_cons]
      by_cases hw : w = v
      · rw [aget, if_pos hw]
      · rw [aget, if_neg hw]
        refine ih v ?_
        rcases List.mem_cons.mp h with h1 | h1
        · exact absurd h1.symm hw
        · exact h1

theorem enum_run_exact (vs : List Pos) (cs0 : List Cst) (msol : Nat)
    (hlen : (sortedPos vs).length ≤ 20)
    (hS : sat_count (cs0.map fun c => (⟨c.vars.dedup, c.count⟩ : Cst))
        (sortedPos vs) ≤ msol)
    (hpos : 0 < sat_count (cs0.map fun c => (⟨c.vars.dedup, c.count⟩ : Cst))
        (sortedPos vs)) :
    ∃ tc, enum_run vs cs0 msol =
        some (sat_count (cs0.map fun c => (⟨c.vars.dedup, c.count⟩ : Cst))
          (sortedPos vs), tc) ∧
      ∀ v ∈ sortedPos vs,
        aget tc v = some (sat_count_v
          (cs0.map fun c => (⟨c.vars.dedup, c.count⟩ : Cst))
          (sortedPos vs) v) := by
  rw [enum_run]
  dsimp only
  rw [if_pos hlen]
  set cs := cs0.map fun c => (⟨c.vars.dedup, c.count⟩ : Cst) with hcs
  have hnd := sortedPos_nodup vs
  have hcorr := search_simple_correct cs msol (sortedPos vs) []
    ⟨0, (sortedPos vs).map fun v => (v, 0)⟩ hnd (fun _ _ => rfl)
    (by
      simp only [List.nil_append]
      show 0 + sat_count cs (sortedPos vs) ≤ msol
      omega)
  simp only [List.nil_append] at hcorr
  rw [Nat.zero_add] at hcorr
  rw [hcorr]
  dsimp only
  rw [if_neg (by
    show ¬(sat_count cs (sortedPos vs) = 0)
    omega)]
  refine ⟨_, rfl, ?_⟩
  intro v hv
  have hexts : ∀ a ∈ ((vecs (sortedPos vs).length).filter
      (fun vec => check_constraints cs ((sortedPos vs).zip vec))).map
      (fun vec => (sortedPos vs).zip vec), keysNodup a := by
    intro a ha
    rcases List.mem_map.mp ha with ⟨vec, hvec, rfl⟩
    have hlv := vecs_length _ vec (List.mem_of_mem_filter hvec)
    rw [keysNodup, akeys_zip _ _ (by rw [hlv])]
    exact hnd
  have hinit : aget ((sortedPos vs).map fun w => (w, (0 : Nat))) v = some 0 :=
    aget_map_zero _ v hv
  have hfold := counts_fold_get v _ hexts _ 0 hinit
  rw [List.foldl_map] at hfold
  rw [hfold]
  congr 1
  rw [Nat.zero_add]
  rw [List.filter_map]
  rw [List.length_map]
  rw [List.filter_filter]
  rw [sat_count_v]
  apply congrArg List.length
  apply List.filter_congr
  intro vec _
  simp only [Function.comp_def]
  by_cases hc : check_constraints cs ((sortedPos vs).zip vec) = true
  · simp [hc]
  · simp [hc]

theorem foldl_aset_pairs_get :
    ∀ (marg : List (Pos × ℚ)), keysNodup marg →
      ∀ (v : Pos) (q : ℚ), (v, q) ∈ marg →
      ∀ m, aget (marg.foldl (fun m kv => aset m kv.1 kv.2) m) v = some q := by
  intro marg
  induction marg with
  | nil => intro _ v q hmem; simp at hmem
  | cons kv t ih =>
      intro hnd v q hmem m
      have hnd' : (kv.1 :: akeys t).Nodup := hnd
      rw [List.foldl]
      rcases List.mem_cons.mp hmem with heq | hmem1
      · have h1 : kv.1 = v := by rw [← heq]
        have h2 : kv.2 = q := by rw [← heq]
        have htv : ∀ kv' ∈ t, kv'.1 ≠ v := by
          intro kv' h' he
          exact (List.nodup_cons.mp hnd').1
            (h1 ▸ he ▸ List.mem_map.mpr ⟨kv', h', rfl⟩)
        rw [foldl_aset_preserve (fun kv' : Pos × ℚ => kv'.1)
          (fun _ kv' => kv'.2) t _ v htv]
        rw [h1, h2, aget_aset_self]
      · exact ih (List.nodup_cons.mp hnd').2 v q hmem1 _

theorem step1_fv_mono (p0 : ℚ) (mve msol : Nat) :
    ∀ (comps : List (List Pos × List Cst))
      (acc : List (Pos × ℚ) × List Pos × List Pos) (v : Pos),
      v ∈ acc.2.1 →
      v ∈ ((comps.foldl
        (fun acc comp =>
          let vs := comp.1
          if vs = [] then acc
          else
            let fv := acc.2.1 ++ vs
            if vs.length ≤ mve then
              match enum_run vs comp.2 msol with
              | some res =>
                  if res.1 > 0 then
                    let marg := enum_marginals vs res
                    (marg.foldl (fun m kv => aset m kv.1 kv.2) acc.1, fv,
                      acc.2.2 ++ marg.map (·.1))
                  else (vs.foldl (fun m v => aset m v p0) acc.1, fv, acc.2.2)
              | none => (vs.foldl (fun m v => aset m v p0) acc.1, fv, acc.2.2)
            else (vs.foldl (fun m v => aset m v p0) acc.1, fv, acc.2.2))
        acc).2.1) := by
  intro comps
  induction comps with
  | nil => intro acc v h; exact h
  | cons c rest ih =>
      intro acc v h
      rw [List.foldl]
      apply ih
      dsimp only
      split
      · exact h
      · split
        · rcases enum_run c.1 c.2 msol with _ | res
          · exact List.mem_append.mpr (Or.inl h)
          · dsimp only
            split
            · exact List.mem_append.mpr (Or.inl h)
            · exact List.mem_append.mpr (Or.inl h)
        · exact List.mem_append.mpr (Or.inl h)

theorem step1_ex_mono (p0 : ℚ) (mve msol : Nat) :
    ∀ (comps : List (List Pos × List Cst))
      (acc : List (Pos × ℚ) × List Pos × List Pos) (v : Pos),
      v ∈ acc.2.2 →
      v ∈ ((comps.foldl
        (fun acc comp =>
          let vs := comp.1
          if vs = [] then acc
          else
            let fv := acc.2.1 ++ vs
            if vs.length ≤ mve then
              match enum_run vs comp.2 msol with
              | some res =>
                  if res.1 > 0 then
                    let marg := enum_marginals vs res
                    (marg.foldl (fun m kv => aset m kv.1 kv.2) acc.1, fv,
                      acc.2.2 ++ marg.map (·.1))
                  else (vs.foldl (fun m v => aset m v p0) acc.1, fv, acc.2.2)
              | none => (vs.foldl (fun m v => aset m v p0) acc.1, fv, acc.2.2)
            else (vs.foldl (fun m v => aset m v p0) acc.1, fv, acc.2.2))
        acc).2.2) := by
  intro comps
  induction comps with
  | nil => intro acc v h; exact h
  | cons c rest ih =>
      intro acc v h
      rw [List.foldl]
      apply ih
      dsimp only
      split
      · exact h
      · split
        · rcases enum_run c.1 c.2 msol with _ | res
          · exact h
          · dsimp only
            split
            · exact List.mem_append.mpr (Or.inl h)
            · exact h
        · exact h

theorem akeys_enum_marginals (vs : List Pos) (res : Nat × List (Pos × Nat)) :
    akeys (enum_marginals vs res) = sortedPos vs := by
  rw [enum_marginals, akeys, List.map_map]
  rw [show ((fun kv : Pos × ℚ => kv.1) ∘ fun v =>
    (v, ((agetD res.2 v 0 : Nat) : ℚ) / (res.1 : ℚ))) = fun v : Pos => v
    from rfl]
  exact List.map_id _

theorem step1_exact_marginal_aux (p0 : ℚ) (mve msol : Nat) :
    ∀ (comps : List (List Pos × List Cst))
      (acc : List (Pos × ℚ) × List Pos × List Pos)
      (vs : List Pos) (cs : List Cst) (res : Nat × List (Pos × Nat)),
      comps.Pairwise (fun a b => ∀ x ∈ a.1, x ∉ b.1) →
      (vs, cs) ∈ comps →
      vs.length ≤ mve →
      enum_run vs cs msol = some res →
      res.1 > 0 →
      ∀ v ∈ vs,
        (aget ((comps.foldl
          (fun acc comp =>
            let vs := comp.1
            if vs = [] then acc
            else
              let fv := acc.2.1 ++ vs
              if vs.length ≤ mve then
                match enum_run vs comp.2 msol with
                | some res =>
                    if res.1 > 0 then
                      let marg := enum_marginals vs res
                      (marg.foldl (fun m kv => aset m kv.1 kv.2) acc.1, fv,
                        acc.2.2 ++ marg.map (·.1))
                    else (vs.foldl (fun m v => aset m v p0) acc.1, fv,
                      acc.2.2)
                | none => (vs.foldl (fun m v => aset m v p0) acc.1, fv,
                    acc.2.2)
              else (vs.foldl (fun m v => aset m v p0) acc.1, fv, acc.2.2))
          acc).1) v =
          some (((agetD res.2 v 0 : Nat) : ℚ) / (res.1 : ℚ))) ∧
        v ∈ ((comps.foldl
          (fun acc comp =>
            let vs := comp.1
            if vs = [] then acc
            else
              let fv := acc.2.1 ++ vs
              if vs.length ≤ mve then
                match enum_run vs comp.2 msol with
                | some res =>
                    if res.1 > 0 then
                      let marg := enum_marginals vs res
                      (marg.foldl (fun m kv => aset m kv.1 kv.2) acc.1, fv,
                        acc.2.2 ++ marg.map (·.1))
                    else (vs.foldl (fun m v => aset m v p0) acc.1, fv,
                      acc.2.2)
                | none => (vs.foldl (fun m v => aset m v p0) acc.1, fv,
                    acc.2.2)
              else (vs.foldl (fun m v => aset m v p0) acc.1, fv, acc.2.2))
          acc).2.1) ∧
        v ∈ ((comps.foldl
          (fun acc comp =>
            let vs := comp.1
            if vs = [] then acc
            else
              let fv := acc.2.1 ++ vs
              if vs.length ≤ mve then
                match enum_run vs comp.2 msol with
                | some res =>
                    if res.1 > 0 then
                      let marg := enum_marginals vs res
                      (marg.foldl (fun m kv => aset m kv.1 kv.2) acc.1, fv,
                        acc.2.2 ++ marg.map (·.1))
                    else (vs.foldl (fun m v => aset m v p0) acc.1, fv,
                      acc.2.2)
                | none => (vs.foldl (fun m v => aset m v p0) acc.1, fv,
                    acc.2.2)
              else (vs.foldl (fun m v => aset m v p0) acc.1, fv, acc.2.2))
          acc).2.2) := by
  intro comps
  induction comps with
  | nil => intro acc vs cs res _ hmem; simp at hmem
  | cons c rest ih =>
      intro acc vs cs res hpw hmem hmve henum hrpos v hv
      rcases List.mem_cons.mp hmem with heq | hmem1
      · have hvs : c.1 = vs := by rw [← heq]
        have hcs : c.2 = cs := by rw [← heq]
        have hdis : ∀ c' ∈ rest, v ∉ c'.1 := by
          intro c' hc'
          exact (List.pairwise_cons.mp hpw).1 c' hc' v (by rw [hvs]; exact hv)
        rw [List.foldl]
        dsimp only
        rw [hvs, hcs, henum]
        rw [if_neg (by intro h; rw [h] at hv; simp at hv)]
        rw [if_pos hmve]
        dsimp only
        rw [if_pos hrpos]
        have hndm : keysNodup (enum_marginals vs res) := by
          rw [keysNodup, akeys_enum_marginals]
          exact sortedPos_nodup vs
        have hvsp : v ∈ sortedPos vs := (mem_sortedPos vs v).mpr hv
        have hmarg : (v, ((agetD res.2 v 0 : Nat) : ℚ) / (res.1 : ℚ)) ∈
            enum_marginals vs res := by
          rw [enum_marginals]
          exact List.mem_map.mpr ⟨v, hvsp, rfl⟩
        refine ⟨?_, ?_, ?_⟩
        · rw [step1_preserves p0 mve msol rest _ v hdis]
          exact foldl_aset_pairs_get _ hndm v _ hmarg acc.1
        · apply step1_fv_mono
          exact List.mem_append.mpr (Or.inr hv)
        · apply step1_ex_mono
          dsimp only
          refine List.mem_append.mpr (Or.inr ?_)
          rw [show ((enum_marginals vs res).map (·.1)) =
            akeys (enum_marginals vs res) from rfl]
          rw [akeys_enum_marginals]
          exact hvsp
      · rw [List.foldl]
        exact ih _ vs cs res (List.pairwise_cons.mp hpw).2 hmem1 hmve henum
          hrpos v hv

theorem step_outside_preserve (rem : Option ℚ) (unknown fvars : List Pos)
    (p0 : ℚ) (probs : List (Pos × ℚ)) (v : Pos) (hv : v ∈ fvars) :
    aget (step_outside rem unknown fvars p0 probs) v = aget probs v := by
  rw [step_outside.eq_def]
  dsimp only
  split
  · rfl
  · have hkeys : ∀ u ∈ unknown.filter (· ∉ fvars.dedup), u ≠ v := by
      intro u hu he
      have h2 := (List.mem_filter.mp hu).2
      simp only [decide_eq_true_eq] at h2
      rw [List.mem_dedup] at h2
      exact h2 (by rw [he]; exact hv)
    rcases rem with _ | r
    · exact foldl_aset_preserve (fun b => b) (fun _ _ => p0) _ probs v hkeys
    · exact foldl_aset_preserve (fun b => b) _ _ probs v hkeys

theorem step_blend_preserve (g : Grid) (mines : List Pos) (exacts : List Pos)
    (p0 : ℚ) (v : Pos) (hv : v ∈ exacts) :
    ∀ (unknown : List Pos) (probs : List (Pos × ℚ)),
      aget (step_blend g mines unknown exacts p0 probs) v = aget probs v := by
  intro unknown
  induction unknown with
  | nil => intro probs; rfl
  | cons u rest ih =>
      intro probs
      rw [step_blend] at *
      rw [List.foldl]
      split
      · exact ih probs
      · next hnotex =>
        have hune : u ≠ v := by
          intro he
          exact (by simpa using hnotex : u ∉ exacts) (by rw [he]; exact hv)
        split
        · exact (ih _).trans (aget_aset_ne _ _ _ _ hune)
        · exact (ih _).trans (aget_aset_ne _ _ _ _ hune)

theorem step_calibrate_preserve (cal : Bool) (rem : Option ℚ)
    (unknown exacts : List Pos) (p0 : ℚ) (probs : List (Pos × ℚ)) (v : Pos)
    (hv : v ∈ exacts) :
    aget (step_calibrate cal rem unknown exacts p0 probs) v =
      aget probs v := by
  rw [step_calibrate.eq_def]
  rcases rem with _ | r
  · rfl
  · dsimp only
    split
    · split
      · rfl
      · split
        · apply calib_fold_preserves
          intro hvf
          have h2 := (List.mem_filter.mp hvf).2
          simp only [decide_eq_true_eq] at h2
          exact h2 hv
        · rfl
    · rfl

/-- Claim C2, amended: a frontier component within the exact-branch
threshold (`|vars| ≤ max_vars_exact`) whose deduplicated variable count is
at most `20` (the exhaustive-search cutoff; larger components never
succeed, since the propagation strategy never counts a solution, see
`C10_strategy_divergence`) and whose true solution count is positive and
within `max_solutions` (no truncation — a truncated run is reported as a
success but returns wrong marginals, see `C2_counterexample`) gets, for
each of its variables, exactly the marginal `N_v / N` of the spec-side
literal enumeration; the value survives the outside, blend and calibration
steps unchanged because the variable is marked exact. -/
theorem C2_exact_marginals (g : Grid) (mines : List Pos) (tm : Option Nat)
    (mve msol : Nat) (cal : Bool) (vs : List Pos) (cs : List Cst)
    (hmem : (vs, cs) ∈ frontier_components g mines)
    (hmve : vs.length ≤ mve) (hlen : (sortedPos vs).length ≤ 20)
    (hS : sat_count (cs.map fun c => (⟨c.vars.dedup, c.count⟩ : Cst))
        (sortedPos vs) ≤ msol)
    (hpos : 0 < sat_count (cs.map fun c => (⟨c.vars.dedup, c.count⟩ : Cst))
        (sortedPos vs))
    (hne : unknown_cells g mines ≠ []) :
    ∀ v ∈ vs,
      aget (compute_cell_probs g mines tm mve msol cal) v =
        some ((sat_count_v (cs.map fun c => (⟨c.vars.dedup, c.count⟩ : Cst))
            (sortedPos vs) v : ℚ) /
          (sat_count (cs.map fun c => (⟨c.vars.dedup, c.count⟩ : Cst))
            (sortedPos vs) : ℚ)) := by
  intro v hv
  obtain ⟨tc, henum, htc⟩ := enum_run_exact vs cs msol hlen hS hpos
  have hs1 := step1_exact_marginal_aux
    (p0_fallback_q mines tm (unknown_cells g mines).length) mve msol
    (frontier_components g mines) ([], [], []) vs cs
    (sat_count (cs.map fun c => (⟨c.vars.dedup, c.count⟩ : Cst))
      (sortedPos vs), tc)
    (frontier_components_disjoint g mines) hmem hmve henum
    (by dsimp only; omega) v hv
  obtain ⟨hval, hfv, hex⟩ := hs1
  have hval' : aget (step1_exact (frontier_components g mines)
      (p0_fallback_q mines tm (unknown_cells g mines).length) mve msol).1 v =
      some ((agetD tc v 0 : Nat) /
        ((sat_count (cs.map fun c => (⟨c.vars.dedup, c.count⟩ : Cst))
          (sortedPos vs) : Nat) : ℚ)) := hval
  have hfv' : v ∈ (step1_exact (frontier_components g mines)
      (p0_fallback_q mines tm (unknown_cells g mines).length) mve msol).2.1 :=
    hfv
  have hex' : v ∈ (step1_exact (frontier_components g mines)
      (p0_fallback_q mines tm (unknown_cells g mines).length) mve msol).2.2 :=
    hex
  have hgd : agetD tc v 0 = sat_count_v
      (cs.map fun c => (⟨c.vars.dedup, c.count⟩ : Cst)) (sortedPos vs) v := by
    rw [agetD, htc v ((mem_sortedPos vs v).mpr hv)]
    rfl
  rw [compute_cell_probs]
  dsimp only
  rw [if_neg hne]
  rw [step_calibrate_preserve _ _ _ _ _ _ v hex']
  rw [step_blend_preserve _ _ _ _ v hex' _ _]
  rw [step_outside_preserve _ _ _ _ _ v hfv']
  rw [hval', hgd]

/-- Witness for C2 on `[?, 1, ?]` at the default `max_vars_exact = 22`:
both cells get the exact marginal `1/2`. -/
theorem C2_witness :
    (([⟨0, 0⟩, ⟨0, 2⟩], [⟨[⟨0, 0⟩, ⟨0, 2⟩], 1⟩]) ∈
      frontier_components [[Cell.unknown, Cell.num 1, Cell.unknown]] []) ∧
    0 < sat_count (([⟨[⟨0, 0⟩, ⟨0, 2⟩], 1⟩] : List Cst).map fun c =>
        (⟨c.vars.dedup, c.count⟩ : Cst)) (sortedPos [⟨0, 0⟩, ⟨0, 2⟩]) ∧
    aget (compute_cell_probs [[Cell.unknown, Cell.num 1, Cell.unknown]] []
        none 22 200000 true) ⟨0, 0⟩ =
      some ((sat_count_v (([⟨[⟨0, 0⟩, ⟨0, 2⟩], 1⟩] : List Cst).map fun c =>
          (⟨c.vars.dedup, c.count⟩ : Cst)) (sortedPos [⟨0, 0⟩, ⟨0, 2⟩])
          ⟨0, 0⟩ : ℚ) /
        (sat_count (([⟨[⟨0, 0⟩, ⟨0, 2⟩], 1⟩] : List Cst).map fun c =>
          (⟨c.vars.dedup, c.count⟩ : Cst))
          (sortedPos [⟨0, 0⟩, ⟨0, 2⟩]) : ℚ)) :=
  ⟨by decide, by decide,
    C2_exact_marginals [[Cell.unknown, Cell.num 1, Cell.unknown]] [] none 22
      200000 true [⟨0, 0⟩, ⟨0, 2⟩] [⟨[⟨0, 0⟩, ⟨0, 2⟩], 1⟩]
      (by decide) (by decide) (by decide) (by decide) (by decide) (by decide)
      ⟨0, 0⟩ (by decide)⟩

/-- Counterexample to the original C2: with `max_solutions = 1` the
two-variable component of `[?, 1, ?]` is within the exact-branch threshold
and its enumeration is reported as *successful* (`solution_count = 1 > 0`),
yet the enumeration was truncated after the first of two satisfying
assignments, so the risk value of `(0,0)` is the truncated marginal
`0/1 = 0` and not the exact marginal `N_v / N = 1/2` the claim promises. -/
theorem C2_counterexample :
    enum_run [⟨0, 0⟩, ⟨0, 2⟩] [⟨[⟨0, 0⟩, ⟨0, 2⟩], 1⟩] 1 =
      some (1, [(⟨0, 0⟩, 0), (⟨0, 2⟩, 1)]) ∧
    (([⟨0, 0⟩, ⟨0, 2⟩], [⟨[⟨0, 0⟩, ⟨0, 2⟩], 1⟩]) ∈
      frontier_components [[Cell.unknown, Cell.num 1, Cell.unknown]] []) ∧
    ([⟨0, 0⟩, ⟨0, 2⟩] : List Pos).length ≤ 22 ∧
    aget (compute_cell_probs [[Cell.unknown, Cell.num 1, Cell.unknown]] []
        none 22 1 true) ⟨0, 0⟩ = some 0 ∧
    ((sat_count_v (([⟨[⟨0, 0⟩, ⟨0, 2⟩], 1⟩] : List Cst).map fun c =>
        (⟨c.vars.dedup, c.count⟩ : Cst)) (sortedPos [⟨0, 0⟩, ⟨0, 2⟩])
        ⟨0, 0⟩ : ℚ) /
      (sat_count (([⟨[⟨0, 0⟩, ⟨0, 2⟩], 1⟩] : List Cst).map fun c =>
        (⟨c.vars.dedup, c.count⟩ : Cst))
        (sortedPos [⟨0, 0⟩, ⟨0, 2⟩]) : ℚ) = 1/2) ∧
    (0 : ℚ) ≠ 1/2 := by
  refine ⟨by decide, by decide, by decide, ?_, ?_, by norm_num⟩
  · have hu : unknown_cells [[Cell.unknown, Cell.num 1, Cell.unknown]] [] =
        [⟨0, 0⟩, ⟨0, 2⟩] := by decide
    have hc : frontier_components
        [[Cell.unknown, Cell.num 1, Cell.unknown]] [] =
        [([⟨0, 0⟩, ⟨0, 2⟩], [⟨[⟨0, 0⟩, ⟨0, 2⟩], 1⟩])] := by decide
    have he : enum_run [⟨0, 0⟩, ⟨0, 2⟩] [⟨[⟨0, 0⟩, ⟨0, 2⟩], 1⟩] 1 =
        some (1, [(⟨0, 0⟩, 0), (⟨0, 2⟩, 1)]) := by decide
    have hsp : sortedPos [⟨0, 0⟩, ⟨0, 2⟩] = [⟨0, 0⟩, ⟨0, 2⟩] := by decide
    have hs1 : step1_exact
        [([⟨0, 0⟩, ⟨0, 2⟩], [⟨[⟨0, 0⟩, ⟨0, 2⟩], 1⟩])] (1/2) 22 1 =
        ([(⟨0, 0⟩, (0 : ℚ)), (⟨0, 2⟩, (1 : ℚ))], [⟨0, 0⟩, ⟨0, 2⟩],
          [⟨0, 0⟩, ⟨0, 2⟩]) := by
      rw [step1_exact.eq_def]
      rw [List.foldl_cons, List.foldl_nil]
      dsimp only
      rw [if_neg (by simp)]
      rw [if_pos (by decide)]
      rw [he]
      dsimp only
      rw [if_pos (by decide)]
      norm_num [enum_marginals, hsp, aget, agetD, aset]
    have hd : ([⟨0, 0⟩, ⟨0, 2⟩] : List Pos).dedup = [⟨0, 0⟩, ⟨0, 2⟩] := by
      decide
    have hs2 : step_outside none [⟨0, 0⟩, ⟨0, 2⟩] [⟨0, 0⟩, ⟨0, 2⟩] (1/2)
        [(⟨0, 0⟩, (0 : ℚ)), (⟨0, 2⟩, (1 : ℚ))] =
        [(⟨0, 0⟩, (0 : ℚ)), (⟨0, 2⟩, (1 : ℚ))] := by
      norm_num [step_outside, hd]
    have hs3 : step_blend [[Cell.unknown, Cell.num 1, Cell.unknown]] []
        [⟨0, 0⟩, ⟨0, 2⟩] [⟨0, 0⟩, ⟨0, 2⟩] (1/2)
        [(⟨0, 0⟩, (0 : ℚ)), (⟨0, 2⟩, (1 : ℚ))] =
        [(⟨0, 0⟩, (0 : ℚ)), (⟨0, 2⟩, (1 : ℚ))] := by
      norm_num [step_blend]
    have hs4 : step_calibrate true none [⟨0, 0⟩, ⟨0, 2⟩] [⟨0, 0⟩, ⟨0, 2⟩]
        (1/2) [(⟨0, 0⟩, (0 : ℚ)), (⟨0, 2⟩, (1 : ℚ))] =
        [(⟨0, 0⟩, (0 : ℚ)), (⟨0, 2⟩, (1 : ℚ))] := rfl
    have hfull : compute_cell_probs [[Cell.unknown, Cell.num 1, Cell.unknown]]
        [] none 22 1 true = [(⟨0, 0⟩, (0 : ℚ)), (⟨0, 2⟩, (1 : ℚ))] := by
      rw [compute_cell_probs]
      rw [hu]
      norm_num [mines_remaining_q, p0_fallback_q, hc, hs1, hs2, hs3, hs4]
      exact fun h => absurd h (by simp)
    rw [hfull]
    rfl
  · have h1 : sat_count_v (([⟨[⟨0, 0⟩, ⟨0, 2⟩], 1⟩] : List Cst).map fun c =>
        (⟨c.vars.dedup, c.count⟩ : Cst)) (sortedPos [⟨0, 0⟩, ⟨0, 2⟩])
        ⟨0, 0⟩ = 1 := by decide
    have h2 : sat_count (([⟨[⟨0, 0⟩, ⟨0, 2⟩], 1⟩] : List Cst).map fun c =>
        (⟨c.vars.dedup, c.count⟩ : Cst)) (sortedPos [⟨0, 0⟩, ⟨0, 2⟩]) = 2 :=
      by decide
    rw [h1, h2]
    norm_num
